import Mathlib

/-!
# EasyStruct: a shallow embedding of `src/struct.c`

The format-string driven binary codec of `struct.c` is embedded as pure Lean
functions and its specification is checked against them.

Conventions of the embedding.

* A byte is a natural number; every store through an `unsigned char` lvalue
  reduces modulo 256 (`u8`), every load from a byte array does the same (`rd`).
* The write cursor `unsigned char **bp` of the packers only ever performs
  `*((*bp)++) = x`, so it is represented by the list of the bytes stored so
  far, in store order.
* The read cursor `const unsigned char **bp` of the unpackers is an index
  into the byte list it reads.
* Fixed width unsigned values are natural numbers reduced modulo `2 ^ w`
  where the C type truncates; signed values are integers.
* The `int` counter `_struct_rep` is unbounded here: executions in which it
  overflows are undefined in C and are outside the embedding.
* The `int` total `ret` of `struct_calcsize` and the `int` return values are
  integers in the range of `int`: `ret += sizeof(T)` is evaluated in `size_t`
  and converted back to `int`, and the pointer difference `bp - buf` is
  converted to `int` on return (`to_int`).
* A format string is the list of its characters before the terminating NUL.
-/

namespace EasyStruct

/-! ## Byte order and the host -/

/-- The two byte orders of `struct_endian.h` (`STRUCT_ENDIAN_LITTLE`,
`STRUCT_ENDIAN_BIG`); `STRUCT_ENDIAN_NOT_SET` only exists before `struct_init`. -/
inductive Endian where
  | LITTLE
  | BIG
  deriving DecidableEq, Repr

/-- Conversion to `unsigned char`. -/
def u8 (x : Nat) : Nat := x % 256

/-- Load of the byte at index `i` of a byte array. -/
def rd (buf : List Nat) (i : Nat) : Nat := buf.getD i 0 % 256

/-! ## Fixed width integer codec (`struct.c` lines 173-363) -/

/-- Source function `pack_int16_t`: `val` is converted to `uint16_t` on entry. -/
def pack_int16_t (myendian : Endian) (bp : List Nat) (val : Nat) (endian : Endian) :
    List Nat :=
  let val := val % 2 ^ 16
  if endian = myendian then
    bp ++ [u8 val, u8 (val >>> 8)]
  else
    bp ++ [u8 (val >>> 8), u8 val]

/-- Source function `pack_int32_t`: `val` is converted to `uint32_t` on entry. -/
def pack_int32_t (myendian : Endian) (bp : List Nat) (val : Nat) (endian : Endian) :
    List Nat :=
  let val := val % 2 ^ 32
  if endian = myendian then
    bp ++ [u8 val, u8 (val >>> 8), u8 (val >>> 16), u8 (val >>> 24)]
  else
    bp ++ [u8 (val >>> 24), u8 (val >>> 16), u8 (val >>> 8), u8 val]

/-- Source function `pack_int64_t`: `val` is converted to `uint64_t` on entry. -/
def pack_int64_t (myendian : Endian) (bp : List Nat) (val : Nat) (endian : Endian) :
    List Nat :=
  let val := val % 2 ^ 64
  if endian = myendian then
    bp ++ [u8 val, u8 (val >>> 8), u8 (val >>> 16), u8 (val >>> 24),
           u8 (val >>> 32), u8 (val >>> 40), u8 (val >>> 48), u8 (val >>> 56)]
  else
    bp ++ [u8 (val >>> 56), u8 (val >>> 48), u8 (val >>> 40), u8 (val >>> 32),
           u8 (val >>> 24), u8 (val >>> 16), u8 (val >>> 8), u8 val]

/-- Source function `unpack_uint16_t`: returns the decoded value and the
advanced cursor. -/
def unpack_uint16_t (myendian : Endian) (buf : List Nat) (bp : Nat) (endian : Endian) :
    Nat × Nat :=
  if endian = myendian then
    let dst := rd buf bp
    let dst := (dst ||| (rd buf (bp + 1) <<< 8)) % 2 ^ 16
    (dst, bp + 2)
  else
    let dst := (rd buf bp <<< 8) % 2 ^ 16
    let dst := (dst ||| rd buf (bp + 1)) % 2 ^ 16
    (dst, bp + 2)

/-- Source function `unpack_int16_t`: the unsigned value is assembled as in
`unpack_uint16_t` and then reinterpreted (`-1 - (int16_t)(0xffffU - val)` above `0x7fff`). -/
def unpack_int16_t (myendian : Endian) (buf : List Nat) (bp : Nat) (endian : Endian) :
    Int × Nat :=
  let val :=
    if endian = myendian then
      let val := rd buf bp
      (val ||| (rd buf (bp + 1) <<< 8)) % 2 ^ 16
    else
      let val := (rd buf bp <<< 8) % 2 ^ 16
      (val ||| rd buf (bp + 1)) % 2 ^ 16
  if val ≤ 0x7fff then
    ((val : Int), bp + 2)
  else
    (-1 - ((0xffff - val : Nat) : Int), bp + 2)

/-- Source function `unpack_uint32_t`.  In the second branch the first byte is
shifted as an `int` (`*((*bp)++) << 24`); the result is taken as its 32-bit
two's complement pattern. -/
def unpack_uint32_t (myendian : Endian) (buf : List Nat) (bp : Nat) (endian : Endian) :
    Nat × Nat :=
  if endian = myendian then
    let dst := rd buf bp
    let dst := (dst ||| (rd buf (bp + 1) <<< 8) % 2 ^ 32) % 2 ^ 32
    let dst := (dst ||| (rd buf (bp + 2) <<< 16) % 2 ^ 32) % 2 ^ 32
    let dst := (dst ||| (rd buf (bp + 3) <<< 24) % 2 ^ 32) % 2 ^ 32
    (dst, bp + 4)
  else
    let dst := (rd buf bp <<< 24) % 2 ^ 32
    let dst := (dst ||| (rd buf (bp + 1) <<< 16) % 2 ^ 32) % 2 ^ 32
    let dst := (dst ||| (rd buf (bp + 2) <<< 8) % 2 ^ 32) % 2 ^ 32
    let dst := (dst ||| rd buf (bp + 3) % 2 ^ 32) % 2 ^ 32
    (dst, bp + 4)

/-- Source function `unpack_int32_t`: the unsigned value is assembled as in
`unpack_uint32_t` and then reinterpreted. -/
def unpack_int32_t (myendian : Endian) (buf : List Nat) (bp : Nat) (endian : Endian) :
    Int × Nat :=
  let val :=
    if endian = myendian then
      let val := rd buf bp
      let val := (val ||| (rd buf (bp + 1) <<< 8) % 2 ^ 32) % 2 ^ 32
      let val := (val ||| (rd buf (bp + 2) <<< 16) % 2 ^ 32) % 2 ^ 32
      (val ||| (rd buf (bp + 3) <<< 24) % 2 ^ 32) % 2 ^ 32
    else
      let val := (rd buf bp <<< 24) % 2 ^ 32
      let val := (val ||| (rd buf (bp + 1) <<< 16) % 2 ^ 32) % 2 ^ 32
      let val := (val ||| (rd buf (bp + 2) <<< 8) % 2 ^ 32) % 2 ^ 32
      (val ||| rd buf (bp + 3) % 2 ^ 32) % 2 ^ 32
  if val ≤ 0x7fffffff then
    ((val : Int), bp + 4)
  else
    (-1 - ((0xffffffff - val : Nat) : Int), bp + 4)

/-- Source function `unpack_uint64_t`. -/
def unpack_uint64_t (myendian : Endian) (buf : List Nat) (bp : Nat) (endian : Endian) :
    Nat × Nat :=
  if endian = myendian then
    let dst := rd buf bp
    let dst := (dst ||| (rd buf (bp + 1) <<< 8) % 2 ^ 64) % 2 ^ 64
    let dst := (dst ||| (rd buf (bp + 2) <<< 16) % 2 ^ 64) % 2 ^ 64
    let dst := (dst ||| (rd buf (bp + 3) <<< 24) % 2 ^ 64) % 2 ^ 64
    let dst := (dst ||| (rd buf (bp + 4) <<< 32) % 2 ^ 64) % 2 ^ 64
    let dst := (dst ||| (rd buf (bp + 5) <<< 40) % 2 ^ 64) % 2 ^ 64
    let dst := (dst ||| (rd buf (bp + 6) <<< 48) % 2 ^ 64) % 2 ^ 64
    let dst := (dst ||| (rd buf (bp + 7) <<< 56) % 2 ^ 64) % 2 ^ 64
    (dst, bp + 8)
  else
    let dst := (rd buf bp <<< 56) % 2 ^ 64
    let dst := (dst ||| (rd buf (bp + 1) <<< 48) % 2 ^ 64) % 2 ^ 64
    let dst := (dst ||| (rd buf (bp + 2) <<< 40) % 2 ^ 64) % 2 ^ 64
    let dst := (dst ||| (rd buf (bp + 3) <<< 32) % 2 ^ 64) % 2 ^ 64
    let dst := (dst ||| (rd buf (bp + 4) <<< 24) % 2 ^ 64) % 2 ^ 64
    let dst := (dst ||| (rd buf (bp + 5) <<< 16) % 2 ^ 64) % 2 ^ 64
    let dst := (dst ||| (rd buf (bp + 6) <<< 8) % 2 ^ 64) % 2 ^ 64
    let dst := (dst ||| rd buf (bp + 7) % 2 ^ 64) % 2 ^ 64
    (dst, bp + 8)

/-- Source function `unpack_int64_t`: the unsigned value is assembled as in
`unpack_uint64_t` and then reinterpreted. -/
def unpack_int64_t (myendian : Endian) (buf : List Nat) (bp : Nat) (endian : Endian) :
    Int × Nat :=
  let val :=
    if endian = myendian then
      let val := rd buf bp
      let val := (val ||| (rd buf (bp + 1) <<< 8) % 2 ^ 64) % 2 ^ 64
      let val := (val ||| (rd buf (bp + 2) <<< 16) % 2 ^ 64) % 2 ^ 64
      let val := (val ||| (rd buf (bp + 3) <<< 24) % 2 ^ 64) % 2 ^ 64
      let val := (val ||| (rd buf (bp + 4) <<< 32) % 2 ^ 64) % 2 ^ 64
      let val := (val ||| (rd buf (bp + 5) <<< 40) % 2 ^ 64) % 2 ^ 64
      let val := (val ||| (rd buf (bp + 6) <<< 48) % 2 ^ 64) % 2 ^ 64
      (val ||| (rd buf (bp + 7) <<< 56) % 2 ^ 64) % 2 ^ 64
    else
      let val := (rd buf bp <<< 56) % 2 ^ 64
      let val := (val ||| (rd buf (bp + 1) <<< 48) % 2 ^ 64) % 2 ^ 64
      let val := (val ||| (rd buf (bp + 2) <<< 40) % 2 ^ 64) % 2 ^ 64
      let val := (val ||| (rd buf (bp + 3) <<< 32) % 2 ^ 64) % 2 ^ 64
      let val := (val ||| (rd buf (bp + 4) <<< 24) % 2 ^ 64) % 2 ^ 64
      let val := (val ||| (rd buf (bp + 5) <<< 16) % 2 ^ 64) % 2 ^ 64
      let val := (val ||| (rd buf (bp + 6) <<< 8) % 2 ^ 64) % 2 ^ 64
      (val ||| rd buf (bp + 7) % 2 ^ 64) % 2 ^ 64
  if val ≤ 0x7fffffffffffffff then
    ((val : Int), bp + 8)
  else
    (-1 - ((0xffffffffffffffff - val : Nat) : Int), bp + 8)

/-! ## Varint codec (`struct.c` lines 234-247 and 379-397) -/

/-- The `for` loop of `pack_varint`: `bytes` is the loop counter, the first
argument bounds the number of iterations still possible (`10 - bytes`). -/
def pack_varint_loop : Nat → Nat → List Nat → Nat → List Nat × Nat
  | 0, _, bp, val => (bp, val)
  | fuel + 1, bytes, bp, val =>
    if val ≥ 0x80 ∧ bytes < 10 then
      pack_varint_loop fuel (bytes + 1) (bp ++ [u8 (val ||| 0x80)]) (val >>> 7)
    else
      (bp, val)

/-- Source function `pack_varint`: `val` is converted to `uint64_t` on entry; `endian` is unused. -/
def pack_varint (bp : List Nat) (val : Nat) (_endian : Endian) : List Nat :=
  let r := pack_varint_loop 10 0 bp (val % 2 ^ 64)
  r.1 ++ [u8 r.2]

/-- Conversion of an `int64_t` to `uint64_t`. -/
def to_uint64 (x : Int) : Nat := (x % 2 ^ 64).toNat

/-- Conversion of a `uint64_t` to `int64_t` (two's complement). -/
def to_int64 (u : Nat) : Int :=
  if u % 2 ^ 64 < 2 ^ 63 then ((u % 2 ^ 64 : Nat) : Int) else ((u % 2 ^ 64 : Nat) : Int) - 2 ^ 64

/-- Source function `pack_signed_varint`: shift the converted value left by one and complement
it when the signed input is negative. -/
def pack_signed_varint (bp : List Nat) (val : Int) (endian : Endian) : List Nat :=
  let uval := (to_uint64 val <<< 1) % 2 ^ 64
  let uval := if val < 0 then 2 ^ 64 - 1 - uval else uval
  pack_varint bp uval endian

/-- The `for` loop of `unpack_varint`; the first argument bounds the number of
iterations (ten suffice, `bits` then exceeds 63).  Returns `*dst` and the
cursor as the loop leaves them. -/
def unpack_varint_loop (buf : List Nat) : Nat → Nat → Nat → Nat → Nat × Nat
  | 0, _, bp, dst => (dst, bp)
  | fuel + 1, bits, bp, dst =>
    if bits ≤ 63 then
      let dst := (dst ||| ((rd buf bp &&& 0x7f) <<< bits) % 2 ^ 64) % 2 ^ 64
      if rd buf bp &&& 0x80 = 0 then
        (dst, bp)
      else
        unpack_varint_loop buf fuel (bits + 7) (bp + 1) dst
    else
      (dst, bp)

/-- Source function `unpack_varint`: the loop, then the final `(*bp)++`. -/
def unpack_varint (buf : List Nat) (bp : Nat) (_endian : Endian) : Nat × Nat :=
  let r := unpack_varint_loop buf 10 0 bp 0
  (r.1, r.2 + 1)

/-- Source function `unpack_signed_varint`: `*dst = (int64_t)(uval >> 1)`, complemented when
the low bit of `uval` is set (`~x = -x - 1`). -/
def unpack_signed_varint (buf : List Nat) (bp : Nat) (endian : Endian) : Int × Nat :=
  let r := unpack_varint buf bp endian
  let dst := to_int64 (r.1 >>> 1)
  if r.1 &&& 1 ≠ 0 then (-dst - 1, r.2) else (dst, r.2)

/-! ## IEEE-754 codec (`struct.c` lines 12-28 and 47-171)

A `long double` is modelled by `LongDouble`: not-a-number, the two infinities,
or a finite value carried as an exact rational.  Arithmetic on `long double`
values is exact, so the rounding of the machine format is outside the
embedding; the one `float` sum of the source is rounded (`float_add_half`). -/

/-- Values of a C floating point object. -/
inductive LongDouble where
  | nan
  | inf (negative : Bool)
  | finite (q : ℚ)
  deriving DecidableEq

def IEEE754_32_NAN : Nat := 0x7FC00000
def IEEE754_32_INF : Nat := 0x7F800000
def IEEE754_32_NEG_INF : Nat := 0xFF800000
def IEEE754_64_NAN : Nat := 0x7FF8000000000000
def IEEE754_64_INF : Nat := 0x7FF0000000000000
def IEEE754_64_NEG_INF : Nat := 0xFFF0000000000000

/-- The classification `isinf` as the source relies on it (comment at lines
59-60): 1 for positive infinity, -1 for negative infinity, 0 otherwise. -/
def isinf : LongDouble → Int
  | .inf false => 1
  | .inf true => -1
  | _ => 0

/-- The classification `isnan`. -/
def isnan : LongDouble → Bool
  | .nan => true
  | _ => false

/-- Conversion of a non-integral value to `long long`: truncation toward zero. -/
def trunc_ll (q : ℚ) : Int := if 0 ≤ q then ⌊q⌋ else -⌊-q⌋

/-- First normalisation loop, `while (fnorm >= 2.0) { fnorm /= 2.0; shift++; }`;
the first argument bounds the number of iterations. -/
def norm_halve : Nat → ℚ → Int → ℚ × Int
  | 0, fnorm, shift => (fnorm, shift)
  | fuel + 1, fnorm, shift =>
    if fnorm ≥ 2 then norm_halve fuel (fnorm / 2) (shift + 1) else (fnorm, shift)

/-- Second normalisation loop, `while (fnorm < 1.0) { fnorm *= 2.0; shift--; }`;
the first argument bounds the number of iterations. -/
def norm_double : Nat → ℚ → Int → ℚ × Int
  | 0, fnorm, shift => (fnorm, shift)
  | fuel + 1, fnorm, shift =>
    if fnorm < 1 then norm_double fuel (fnorm * 2) (shift - 1) else (fnorm, shift)

/-- The `float` sum `(1LL << significandbits) + 0.5F` of `pack_ieee754`: the
left operand is converted to `float` and the sum is rounded to the 24 bit
significand of the IEEE-754 `float`, ties to even.  It is exact for
`significandbits < 23` and `2 ^ significandbits` from 23 on. -/
def float_add_half (significandbits : Nat) : ℚ :=
  if significandbits < 23 then (2 : ℚ) ^ significandbits + 1 / 2
  else (2 : ℚ) ^ significandbits

/-- Source function `pack_ieee754`.  The loops are given as many iterations as the numerator
(halving) and the denominator (doubling) of the magnitude, which is more than
they can use.  The three fields are `long long` values; the final expression is
evaluated on their 64-bit two's complement patterns. -/
def pack_ieee754 (f : LongDouble) (bits expbits : Nat) : Nat :=
  let significandbits := bits - expbits - 1
  let isinf_ret := isinf f
  if isinf_ret ≠ 0 then
    if bits = 32 then
      if isinf_ret = 1 then IEEE754_32_INF else IEEE754_32_NEG_INF
    else
      if isinf_ret = 1 then IEEE754_64_INF else IEEE754_64_NEG_INF
  else if isnan f then
    if bits = 32 then IEEE754_32_NAN else IEEE754_64_NAN
  else
    match f with
    | .finite q =>
      if q = 0 then 0
      else
        let sign : Int := if q < 0 then 1 else 0
        let fnorm : ℚ := if q < 0 then -q else q
        let r1 := norm_halve fnorm.num.natAbs fnorm 0
        let r2 := norm_double r1.1.den r1.1 r1.2
        let fnorm := r2.1 - 1
        let shift := r2.2
        let significand : Int := trunc_ll (fnorm * float_add_half significandbits)
        let exp : Int := shift + (2 ^ (expbits - 1) - 1)
        ((to_uint64 sign <<< (bits - 1)) ||| (to_uint64 exp <<< significandbits)
          ||| to_uint64 significand) % 2 ^ 64
    | _ => 0

/-- The loop `while (shift > 0) { result *= 2.0; shift--; }`, by the number of
iterations it performs. -/
def scale_up : Nat → ℚ → ℚ
  | 0, result => result
  | n + 1, result => scale_up n (result * 2)

/-- The loop `while (shift < 0) { result /= 2.0; shift++; }`, by the number of
iterations it performs. -/
def scale_down : Nat → ℚ → ℚ
  | 0, result => result
  | n + 1, result => scale_down n (result / 2)

/-- Source function `unpack_ieee754`: `i` is converted to `uint64_t` on entry.  The exponent
difference is computed in `uint64_t` and converted to `long long`. -/
def unpack_ieee754 (i : Nat) (bits expbits : Nat) : LongDouble :=
  let i := i % 2 ^ 64
  let significandbits := bits - expbits - 1
  if i = 0 then .finite 0
  else if bits = 32 ∧ i = IEEE754_32_NAN then .nan
  else if bits = 32 ∧ i = IEEE754_32_INF then .inf false
  else if bits = 32 ∧ i = IEEE754_32_NEG_INF then .inf true
  else if bits ≠ 32 ∧ i = IEEE754_64_NAN then .nan
  else if bits ≠ 32 ∧ i = IEEE754_64_INF then .inf false
  else if bits ≠ 32 ∧ i = IEEE754_64_NEG_INF then .inf true
  else
    let result : ℚ := ((i &&& ((1 <<< significandbits) - 1) : Nat) : ℚ)
    let result := result / ((1 <<< significandbits : Nat) : ℚ)
    let result := result + 1
    let bias : Nat := (1 <<< (expbits - 1)) - 1
    let shift : Int :=
      to_int64 ((((i >>> significandbits) &&& ((1 <<< expbits) - 1)) + (2 ^ 64 - bias)) % 2 ^ 64)
    let result := scale_up shift.toNat result
    let result := scale_down (-shift).toNat result
    let result := result * (if (i >>> (bits - 1)) &&& 1 ≠ 0 then -1 else 1)
    .finite result

/-- Source macro `PACK_IEEE754_32`. -/
def PACK_IEEE754_32 (f : LongDouble) : Nat := pack_ieee754 f 32 8
/-- Source macro `PACK_IEEE754_64`. -/
def PACK_IEEE754_64 (f : LongDouble) : Nat := pack_ieee754 f 64 11
/-- Source macro `UNPACK_IEEE754_32`. -/
def UNPACK_IEEE754_32 (i : Nat) : LongDouble := unpack_ieee754 i 32 8
/-- Source macro `UNPACK_IEEE754_64`. -/
def UNPACK_IEEE754_64 (i : Nat) : LongDouble := unpack_ieee754 i 64 11

/-- Source function `pack_float`: the encoded value is handed to `pack_int32_t`. -/
def pack_float (myendian : Endian) (bp : List Nat) (val : LongDouble) (endian : Endian) :
    List Nat :=
  let ieee754_encoded_val := PACK_IEEE754_32 val
  pack_int32_t myendian bp ieee754_encoded_val endian

/-- Source function `pack_double`: the encoded value is handed to `pack_int64_t`. -/
def pack_double (myendian : Endian) (bp : List Nat) (val : LongDouble) (endian : Endian) :
    List Nat :=
  let ieee754_encoded_val := PACK_IEEE754_64 val
  pack_int64_t myendian bp ieee754_encoded_val endian

/-- Source function `unpack_float`: the value before its conversion to `float`. -/
def unpack_float (myendian : Endian) (buf : List Nat) (bp : Nat) (endian : Endian) :
    LongDouble × Nat :=
  let r := unpack_uint32_t myendian buf bp endian
  (UNPACK_IEEE754_32 r.1, r.2)

/-- Source function `unpack_double`: the value before its conversion to `double`. -/
def unpack_double (myendian : Endian) (buf : List Nat) (bp : Nat) (endian : Endian) :
    LongDouble × Nat :=
  let r := unpack_uint64_t myendian buf bp endian
  (UNPACK_IEEE754_64 r.1, r.2)

/-! ## The host and the value memory

The value cursor `void *src` / `void *dst` of the interpreter walks a caller
owned byte array; byte arithmetic on it is that of the source (`src += n`).
A typed access `*(T*)src` reads or writes `sizeof(T)` bytes at the cursor in
the byte order of the host.  The widths of `short`, `long long`, `float` and
`double` are 2, 8, 4 and 8; those of `int` and `long`, the byte order and the
object representation of the floating types belong to the host. -/

/-- What the compiler and the machine fix: the cached result of
`struct_get_endian`, `sizeof(int)`, `sizeof(long)`, and the value and the
object representation of `float` and `double` objects (as the integer their
bytes form in host order). -/
structure Host where
  myendian : Endian
  sizeof_int : Nat
  sizeof_long : Nat
  float_of_mem : Nat → LongDouble
  double_of_mem : Nat → LongDouble
  mem_of_float : LongDouble → Nat
  mem_of_double : LongDouble → Nat

/-- Width of `int` in bits: `8 * sizeof(int)`, and at least the 16 bits the C
language requires of an `int`. -/
def int_bits (H : Host) : Nat := max 16 (8 * H.sizeof_int)

/-- Largest value of an `int`. -/
def INT_MAX (H : Host) : Int := 2 ^ (int_bits H - 1) - 1

/-- Conversion of a value of a wider integer type (`size_t`, `ptrdiff_t`) to
`int`: a value in the range of `int` is kept, any other is reduced modulo
`2 ^ int_bits` into that range (two's complement). -/
def to_int (H : Host) (x : Int) : Int :=
  if x % 2 ^ int_bits H < 2 ^ (int_bits H - 1) then x % 2 ^ int_bits H
  else x % 2 ^ int_bits H - 2 ^ int_bits H

/-- The integer formed by the `n` bytes at `addr`, least significant first. -/
def load_le (mem : List Nat) : Nat → Nat → Nat
  | _, 0 => 0
  | addr, n + 1 => rd mem addr + 256 * load_le mem (addr + 1) n

/-- The integer formed by the `n` bytes at `addr`, most significant first. -/
def load_be (mem : List Nat) : Nat → Nat → Nat
  | _, 0 => 0
  | addr, n + 1 => rd mem addr * 256 ^ n + load_be mem (addr + 1) n

/-- Load of an `n` byte integer object at `addr`. -/
def load (e : Endian) (mem : List Nat) (addr n : Nat) : Nat :=
  match e with
  | .LITTLE => load_le mem addr n
  | .BIG => load_be mem addr n

/-- Store of the low `n` bytes of `v` at `addr`, least significant first. -/
def store_le : List Nat → Nat → Nat → Nat → List Nat
  | mem, _, 0, _ => mem
  | mem, addr, n + 1, v => store_le (mem.set addr (v % 256)) (addr + 1) n (v / 256)

/-- Store of the low `n` bytes of `v` at `addr`, most significant first. -/
def store_be : List Nat → Nat → Nat → Nat → List Nat
  | mem, _, 0, _ => mem
  | mem, addr, n + 1, v => store_be (mem.set addr (v / 256 ^ n % 256)) (addr + 1) n v

/-- Store of an `n` byte integer object at `addr`.  A store outside the array
is undefined in C; here it leaves the array as it is. -/
def store (e : Endian) (mem : List Nat) (addr n v : Nat) : List Nat :=
  match e with
  | .LITTLE => store_le mem addr n v
  | .BIG => store_be mem addr n v

/-- Two's complement pattern of a signed value in `n` bytes. -/
def to_unsigned (n : Nat) (x : Int) : Nat := (x % 2 ^ (8 * n)).toNat

/-! ## Repetition (`struct.c` lines 30-38) -/

/-- Source macro `BEGIN_REPETITION ... END_REPETITION`, that is
`do { _struct_rep--; body } while (_struct_rep > 0)`, as a function of the
value of `_struct_rep` on entry.  From 0 the decrement gives -1, the body runs
and the loop is left. -/
def repetition {σ : Type} (body : σ → σ) : Nat → σ → σ
  | 0, s => body s
  | rep + 1, s =>
    let s := body s
    if rep > 0 then repetition body rep s else s

/-- Source function `isdigit` on a format character. -/
def isdigit (c : Char) : Bool := decide ('0'.toNat ≤ c.toNat ∧ c.toNat ≤ '9'.toNat)

/-- Source macro `INC_REPETITION`: `_struct_rep = _struct_rep * 10 + (*p - '0')`. -/
def INC_REPETITION (struct_rep : Nat) (c : Char) : Nat :=
  struct_rep * 10 + (c.toNat - '0'.toNat)

/-! ## The pack interpreter (`struct.c` lines 399-603) -/

/-- The locals of `pack_va_list` that the directives change: the byte order
`*ep`, the bytes stored through `bp` so far and the value cursor `src` (an
index into the value array).  The counter `_struct_rep` is kept beside it. -/
structure PackState where
  ep : Endian
  bp : List Nat
  src : Nat
  deriving DecidableEq, Repr

/-- The `switch` of `pack_va_list` on one format character, from the value
`rep` of `_struct_rep` and the state; `none` is the `return -1` of the
`default` case.  `mem` is the value array.  After a repetition loop the
counter is not positive and the character is not a digit, so that
`CLEAR_REPETITION` follows: the counter is returned as it was. -/
def pack_switch (H : Host) (mem : List Nat) (c : Char) (rep : Nat) (s : PackState) :
    Option (Nat × PackState) :=
  match c with
  | '=' => some (rep, { s with ep := H.myendian })
  | '<' => some (rep, { s with ep := Endian.LITTLE })
  | '>' => some (rep, { s with ep := Endian.BIG })
  | '!' => some (rep, { s with ep := Endian.BIG })
  | 'b' => some (rep, repetition (fun s =>
      let b := rd mem s.src
      { s with src := s.src + 1, bp := s.bp ++ [u8 b] }) rep s)
  | 'B' => some (rep, repetition (fun s =>
      let B := rd mem s.src
      { s with src := s.src + 1, bp := s.bp ++ [u8 B] }) rep s)
  | 'h' => some (rep, repetition (fun s =>
      let h := load H.myendian mem s.src 2
      { s with src := s.src + 2, bp := pack_int16_t H.myendian s.bp h s.ep }) rep s)
  | 'H' => some (rep, repetition (fun s =>
      let h := load H.myendian mem s.src 2
      { s with src := s.src + 2, bp := pack_int16_t H.myendian s.bp h s.ep }) rep s)
  | 'i' => some (rep, repetition (fun s =>
      if H.sizeof_int = 2 then
        let h := load H.myendian mem s.src H.sizeof_int
        { s with src := s.src + H.sizeof_int, bp := pack_int16_t H.myendian s.bp h s.ep }
      else
        let l := load H.myendian mem s.src H.sizeof_int
        { s with src := s.src + H.sizeof_int, bp := pack_int32_t H.myendian s.bp l s.ep })
      rep s)
  | 'I' => some (rep, repetition (fun s =>
      if H.sizeof_int = 2 then
        let h := load H.myendian mem s.src H.sizeof_int
        { s with src := s.src + H.sizeof_int, bp := pack_int16_t H.myendian s.bp h s.ep }
      else
        let l := load H.myendian mem s.src H.sizeof_int
        { s with src := s.src + H.sizeof_int, bp := pack_int32_t H.myendian s.bp l s.ep })
      rep s)
  | 'l' => some (rep, repetition (fun s =>
      let l := load H.myendian mem s.src H.sizeof_long
      { s with src := s.src + H.sizeof_long, bp := pack_int32_t H.myendian s.bp l s.ep })
      rep s)
  | 'L' => some (rep, repetition (fun s =>
      let L := load H.myendian mem s.src H.sizeof_long
      { s with src := s.src + 4, bp := pack_int32_t H.myendian s.bp L s.ep }) rep s)
  | 'q' => some (rep, repetition (fun s =>
      let q := load H.myendian mem s.src 8
      { s with src := s.src + 4, bp := pack_int64_t H.myendian s.bp q s.ep }) rep s)
  | 'Q' => some (rep, repetition (fun s =>
      let Q := load H.myendian mem s.src 8
      { s with src := s.src + 8, bp := pack_int64_t H.myendian s.bp Q s.ep }) rep s)
  | 'f' => some (rep, repetition (fun s =>
      let f := H.float_of_mem (load H.myendian mem s.src 4)
      { s with src := s.src + 4, bp := pack_float H.myendian s.bp f s.ep }) rep s)
  | 'd' => some (rep, repetition (fun s =>
      let d := H.double_of_mem (load H.myendian mem s.src 8)
      { s with src := s.src + 8, bp := pack_double H.myendian s.bp d s.ep }) rep s)
  | 's' => some (rep, repetition (fun s =>
      let c := rd mem s.src
      { s with src := s.src + 1, bp := s.bp ++ [u8 c] }) rep s)
  | 'p' => some (rep, repetition (fun s =>
      let c := rd mem s.src
      { s with src := s.src + 1, bp := s.bp ++ [u8 c] }) rep s)
  | 'x' => some (rep, repetition (fun s => { s with bp := s.bp ++ [0] }) rep s)
  | 'v' => some (rep, repetition (fun s =>
      let v := to_int64 (load H.myendian mem s.src 8)
      { s with src := s.src + 8, bp := pack_signed_varint s.bp v s.ep }) rep s)
  | 'V' => some (rep, repetition (fun s =>
      let V := load H.myendian mem s.src 8
      { s with src := s.src + 8, bp := pack_varint s.bp V s.ep }) rep s)
  | _ =>
    if isdigit c then some (INC_REPETITION rep c, s)
    else none

/-- The `for` loop of `pack_va_list` over the format: the `switch`, then
`CLEAR_REPETITION` unless the character is a digit.  The result pairs the
success of the walk with the state at its end (at the failing character when
the walk fails). -/
def pack_loop (H : Host) (mem : List Nat) :
    List Char → Nat → PackState → Bool × PackState
  | [], _, s => (true, s)
  | c :: p, rep, s =>
    match pack_switch H mem c rep s with
    | none => (false, s)
    | some r => pack_loop H mem p (if isdigit c then r.1 else 0) r.2

/-- Source function `pack_va_list`: the return value (`bp - buf` converted to
the return type `int`, or -1) and the final state.  The bytes of the state are
those stored from `buf + offset` on. -/
def pack_va_list (H : Host) (offset : Nat) (fmt : List Char) (src : List Nat) :
    Int × PackState :=
  let r := pack_loop H src fmt 0 { ep := H.myendian, bp := [], src := 0 }
  if r.1 then (to_int H ((offset + r.2.bp.length : Nat) : Int), r.2) else (-1, r.2)

/-- A buffer after the bytes `out` have been stored from its start. -/
def overwrite (buf out : List Nat) : List Nat := out ++ buf.drop out.length

/-- Source function `struct_pack`: the return value and the buffer after the
call. -/
def struct_pack (H : Host) (buf : List Nat) (fmt : List Char) (src : List Nat) :
    Int × List Nat :=
  let r := pack_va_list H 0 fmt src
  (r.1, overwrite buf r.2.bp)

/-! ## The unpack interpreter (`struct.c` lines 605-798) -/

/-- The locals of `unpack_va_list` that the directives change and the value
array they write: the byte order `*ep`, the read cursor `bp` (an index into
the buffer), the value cursor `dst` (an index into the value array) and the
value array itself.  The counter `_struct_rep` is kept beside it. -/
structure UnpackState where
  ep : Endian
  bp : Nat
  dst : Nat
  mem : List Nat
  deriving DecidableEq, Repr

/-- The `switch` of `unpack_va_list` on one format character, from the value
`rep` of `_struct_rep` and the state; `none` is the `return -1` of the
`default` case.  `buf` is the buffer read. -/
def unpack_switch (H : Host) (buf : List Nat) (c : Char) (rep : Nat) (s : UnpackState) :
    Option (Nat × UnpackState) :=
  match c with
  | '=' => some (rep, { s with ep := H.myendian })
  | '<' => some (rep, { s with ep := Endian.LITTLE })
  | '>' => some (rep, { s with ep := Endian.BIG })
  | '!' => some (rep, { s with ep := Endian.BIG })
  | 'b' => some (rep, repetition (fun s =>
      { s with dst := s.dst + 1, mem := s.mem.set s.dst (rd buf s.bp), bp := s.bp + 1 })
      rep s)
  | 'B' => some (rep, repetition (fun s =>
      { s with dst := s.dst + 1, mem := s.mem.set s.dst (rd buf s.bp), bp := s.bp + 1 })
      rep s)
  | 'h' => some (rep, repetition (fun s =>
      let r := unpack_int16_t H.myendian buf s.bp s.ep
      { s with dst := s.dst + 2, mem := store H.myendian s.mem s.dst 2 (to_unsigned 2 r.1),
               bp := r.2 }) rep s)
  | 'H' => some (rep, repetition (fun s =>
      let r := unpack_uint16_t H.myendian buf s.bp s.ep
      { s with dst := s.dst + 2, mem := store H.myendian s.mem s.dst 2 r.1, bp := r.2 })
      rep s)
  | 'i' => some (rep, repetition (fun s =>
      if H.sizeof_int = 2 then
        let r := unpack_int16_t H.myendian buf s.bp s.ep
        { s with dst := s.dst + H.sizeof_int,
                 mem := store H.myendian s.mem s.dst 2 (to_unsigned 2 r.1), bp := r.2 }
      else
        let r := unpack_int32_t H.myendian buf s.bp s.ep
        { s with dst := s.dst + H.sizeof_int,
                 mem := store H.myendian s.mem s.dst 4 (to_unsigned 4 r.1), bp := r.2 })
      rep s)
  | 'I' => some (rep, repetition (fun s =>
      if H.sizeof_int = 2 then
        let r := unpack_uint16_t H.myendian buf s.bp s.ep
        { s with dst := s.dst + H.sizeof_int,
                 mem := store H.myendian s.mem s.dst 2 r.1, bp := r.2 }
      else
        let r := unpack_uint32_t H.myendian buf s.bp s.ep
        { s with dst := s.dst + H.sizeof_int,
                 mem := store H.myendian s.mem s.dst 4 r.1, bp := r.2 })
      rep s)
  | 'l' => some (rep, repetition (fun s =>
      let r := unpack_int32_t H.myendian buf s.bp s.ep
      { s with dst := s.dst + H.sizeof_long,
               mem := store H.myendian s.mem s.dst 4 (to_unsigned 4 r.1), bp := r.2 })
      rep s)
  | 'L' => some (rep, repetition (fun s =>
      let r := unpack_uint32_t H.myendian buf s.bp s.ep
      { s with dst := s.dst + 4, mem := store H.myendian s.mem s.dst 4 r.1, bp := r.2 })
      rep s)
  | 'q' => some (rep, repetition (fun s =>
      let r := unpack_int64_t H.myendian buf s.bp s.ep
      { s with dst := s.dst + 4, mem := store H.myendian s.mem s.dst 8 (to_unsigned 8 r.1),
               bp := r.2 }) rep s)
  | 'Q' => some (rep, repetition (fun s =>
      let r := unpack_uint64_t H.myendian buf s.bp s.ep
      { s with dst := s.dst + 8, mem := store H.myendian s.mem s.dst 8 r.1, bp := r.2 })
      rep s)
  | 'f' => some (rep, repetition (fun s =>
      let r := unpack_float H.myendian buf s.bp s.ep
      { s with dst := s.dst + 4, mem := store H.myendian s.mem s.dst 4 (H.mem_of_float r.1),
               bp := r.2 }) rep s)
  | 'd' => some (rep, repetition (fun s =>
      let r := unpack_double H.myendian buf s.bp s.ep
      { s with dst := s.dst + 8, mem := store H.myendian s.mem s.dst 8 (H.mem_of_double r.1),
               bp := r.2 }) rep s)
  | 's' => some (rep, repetition (fun s =>
      { s with dst := s.dst + 1, mem := s.mem.set s.dst (rd buf s.bp), bp := s.bp + 1 })
      rep s)
  | 'p' => some (rep, repetition (fun s =>
      { s with dst := s.dst + 1, mem := s.mem.set s.dst (rd buf s.bp), bp := s.bp + 1 })
      rep s)
  | 'x' => some (rep, repetition (fun s => { s with bp := s.bp + 1 }) rep s)
  | 'v' => some (rep, repetition (fun s =>
      let r := unpack_signed_varint buf s.bp s.ep
      { s with dst := s.dst + 8, mem := store H.myendian s.mem s.dst 8 (to_unsigned 8 r.1),
               bp := r.2 }) rep s)
  | 'V' => some (rep, repetition (fun s =>
      let r := unpack_varint buf s.bp s.ep
      { s with dst := s.dst + 8, mem := store H.myendian s.mem s.dst 8 r.1, bp := r.2 })
      rep s)
  | _ =>
    if isdigit c then some (INC_REPETITION rep c, s)
    else none

/-- The `for` loop of `unpack_va_list` over the format. -/
def unpack_loop (H : Host) (buf : List Nat) :
    List Char → Nat → UnpackState → Bool × UnpackState
  | [], _, s => (true, s)
  | c :: p, rep, s =>
    match unpack_switch H buf c rep s with
    | none => (false, s)
    | some r => unpack_loop H buf p (if isdigit c then r.1 else 0) r.2

/-- Source function `unpack_va_list`: the return value (`bp - buf` converted
to the return type `int`, or -1) and the final state; `dst` is the value array
before the call. -/
def unpack_va_list (H : Host) (buf : List Nat) (offset : Nat) (fmt : List Char)
    (dst : List Nat) : Int × UnpackState :=
  let r := unpack_loop H buf fmt 0 { ep := H.myendian, bp := offset, dst := 0, mem := dst }
  if r.1 then (to_int H ((r.2.bp : Nat) : Int), r.2) else (-1, r.2)

/-- Source function `struct_unpack`: its first parameter is the value array
written, its third the buffer read.  The result is the return value and the
value array after the call. -/
def struct_unpack (H : Host) (values : List Nat) (fmt : List Char) (bytes : List Nat) :
    Int × List Nat :=
  let r := unpack_va_list H bytes 0 fmt values
  (r.1, r.2.mem)

/-! ## Size computation (`struct.c` lines 819-930) -/

/-- Source statement `ret += n` of `struct_calcsize`.  For `n = sizeof(T)` the
sum is formed in `size_t`, taken at least as wide as `int`, and converted back
to `int`, which keeps its low bits.  The `int` sum `ret += 10` of the varint
cases is modelled alike; the C language leaves its overflow undefined. -/
def add_ret (H : Host) (ret : Int) (n : Nat) : Int := to_int H (ret + n)

/-- The `switch` of `struct_calcsize` on one format character, from the value
`rep` of `_struct_rep` and the running total `ret`. -/
def calcsize_switch (H : Host) (c : Char) (rep : Nat) (ret : Int) : Option (Nat × Int) :=
  match c with
  | '=' => some (rep, ret)
  | '<' => some (rep, ret)
  | '>' => some (rep, ret)
  | '!' => some (rep, ret)
  | 'b' => some (rep, repetition (fun ret => add_ret H ret 1) rep ret)
  | 'B' => some (rep, repetition (fun ret => add_ret H ret 1) rep ret)
  | 'h' => some (rep, repetition (fun ret => add_ret H ret 2) rep ret)
  | 'H' => some (rep, repetition (fun ret => add_ret H ret 2) rep ret)
  | 'i' => some (rep, repetition (fun ret => add_ret H ret H.sizeof_int) rep ret)
  | 'I' => some (rep, repetition (fun ret => add_ret H ret H.sizeof_int) rep ret)
  | 'l' => some (rep, repetition (fun ret => add_ret H ret 4) rep ret)
  | 'L' => some (rep, repetition (fun ret => add_ret H ret 4) rep ret)
  | 'q' => some (rep, repetition (fun ret => add_ret H ret 8) rep ret)
  | 'Q' => some (rep, repetition (fun ret => add_ret H ret 8) rep ret)
  | 'f' => some (rep, repetition (fun ret => add_ret H ret 4) rep ret)
  | 'd' => some (rep, repetition (fun ret => add_ret H ret 8) rep ret)
  | 's' => some (rep, repetition (fun ret => add_ret H ret 1) rep ret)
  | 'p' => some (rep, repetition (fun ret => add_ret H ret 1) rep ret)
  | 'x' => some (rep, repetition (fun ret => add_ret H ret 1) rep ret)
  | 'v' => some (rep, repetition (fun ret => add_ret H ret 10) rep ret)
  | 'V' => some (rep, repetition (fun ret => add_ret H ret 10) rep ret)
  | _ =>
    if isdigit c then some (INC_REPETITION rep c, ret)
    else none

/-- The `for` loop of `struct_calcsize` over the format. -/
def calcsize_loop (H : Host) : List Char → Nat → Int → Option Int
  | [], _, ret => some ret
  | c :: p, rep, ret =>
    match calcsize_switch H c rep ret with
    | none => none
    | some r => calcsize_loop H p (if isdigit c then r.1 else 0) r.2

/-- Source function `struct_calcsize`. -/
def struct_calcsize (H : Host) (fmt : List Char) : Int :=
  match calcsize_loop H fmt 0 0 with
  | none => -1
  | some ret => ret

/-! ## The format alphabet of the specification and two example hosts -/

/-- The four endianness markers of the specification. -/
def is_marker (c : Char) : Bool := decide (c ∈ ['=', '<', '>', '!'])

/-- The seventeen type directives of the specification. -/
def is_directive (c : Char) : Bool :=
  decide (c ∈ ['b', 'B', 'h', 'H', 'i', 'I', 'l', 'L', 'q', 'Q', 'f', 'd', 's', 'p', 'x',
    'v', 'V'])

/-- A character the specification recognises: a type directive, an endianness
marker or a decimal digit. -/
def recognised (c : Char) : Bool := is_directive c || is_marker c || isdigit c

/-- The two varint directives. -/
def is_varint (c : Char) : Bool := decide (c ∈ ['v', 'V'])

/-- The integer directives of the round trip property. -/
def is_integer_directive (c : Char) : Bool :=
  decide (c ∈ ['b', 'B', 'h', 'H', 'i', 'I', 'l', 'L', 'q', 'Q'])

/-- A little-endian host with 4 byte `int` and `long` whose `float` and
`double` objects hold the patterns the codec itself produces. -/
def host_le32 : Host where
  myendian := Endian.LITTLE
  sizeof_int := 4
  sizeof_long := 4
  float_of_mem := UNPACK_IEEE754_32
  double_of_mem := UNPACK_IEEE754_64
  mem_of_float := PACK_IEEE754_32
  mem_of_double := PACK_IEEE754_64

/-- A big-endian host with 4 byte `int` and `long`. -/
def host_be32 : Host where
  myendian := Endian.BIG
  sizeof_int := 4
  sizeof_long := 4
  float_of_mem := UNPACK_IEEE754_32
  double_of_mem := UNPACK_IEEE754_64
  mem_of_float := PACK_IEEE754_32
  mem_of_double := PACK_IEEE754_64

/-- The statements between `BEGIN_REPETITION` and `END_REPETITION` in the case
of `pack_va_list` for the type directive `c`, read off `pack_switch`. -/
def pack_body (H : Host) (mem : List Nat) (c : Char) (s : PackState) : PackState :=
  match c with
  | 'b' | 'B' | 's' | 'p' => { s with src := s.src + 1, bp := s.bp ++ [u8 (rd mem s.src)] }
  | 'h' | 'H' =>
    { s with src := s.src + 2,
             bp := pack_int16_t H.myendian s.bp (load H.myendian mem s.src 2) s.ep }
  | 'i' | 'I' =>
    if H.sizeof_int = 2 then
      { s with src := s.src + H.sizeof_int,
               bp := pack_int16_t H.myendian s.bp (load H.myendian mem s.src H.sizeof_int) s.ep }
    else
      { s with src := s.src + H.sizeof_int,
               bp := pack_int32_t H.myendian s.bp (load H.myendian mem s.src H.sizeof_int) s.ep }
  | 'l' =>
    { s with src := s.src + H.sizeof_long,
             bp := pack_int32_t H.myendian s.bp (load H.myendian mem s.src H.sizeof_long) s.ep }
  | 'L' =>
    { s with src := s.src + 4,
             bp := pack_int32_t H.myendian s.bp (load H.myendian mem s.src H.sizeof_long) s.ep }
  | 'q' =>
    { s with src := s.src + 4,
             bp := pack_int64_t H.myendian s.bp (load H.myendian mem s.src 8) s.ep }
  | 'Q' =>
    { s with src := s.src + 8,
             bp := pack_int64_t H.myendian s.bp (load H.myendian mem s.src 8) s.ep }
  | 'f' =>
    { s with src := s.src + 4,
             bp := pack_float H.myendian s.bp (H.float_of_mem (load H.myendian mem s.src 4)) s.ep }
  | 'd' =>
    { s with src := s.src + 8,
             bp := pack_double H.myendian s.bp
               (H.double_of_mem (load H.myendian mem s.src 8)) s.ep }
  | 'x' => { s with bp := s.bp ++ [0] }
  | 'v' =>
    { s with src := s.src + 8,
             bp := pack_signed_varint s.bp (to_int64 (load H.myendian mem s.src 8)) s.ep }
  | 'V' =>
    { s with src := s.src + 8, bp := pack_varint s.bp (load H.myendian mem s.src 8) s.ep }
  | _ => s

/-- The amount `struct_calcsize` adds per execution of the type directive `c`,
read off `size_sum_switch`. -/
def calc_size (H : Host) (c : Char) : Nat :=
  match c with
  | 'b' | 'B' | 's' | 'p' | 'x' => 1
  | 'h' | 'H' => 2
  | 'i' | 'I' => H.sizeof_int
  | 'l' | 'L' | 'f' => 4
  | 'q' | 'Q' | 'd' => 8
  | 'v' | 'V' => 10
  | _ => 0

/-- The byte order an endianness marker selects, read off the interpreters. -/
def marker_order (H : Host) (c : Char) : Endian :=
  match c with
  | '<' => Endian.LITTLE
  | '>' => Endian.BIG
  | '!' => Endian.BIG
  | _ => H.myendian

/-! ## Reference notions of the specification and views of the code -/

/-- The `switch` of `struct_calcsize` with the total kept as an unbounded
natural number: the additions of `calcsize_switch` without the conversion to
`int`. -/
def size_sum_switch (H : Host) (c : Char) (rep : Nat) (ret : Nat) : Option (Nat × Nat) :=
  match c with
  | '=' => some (rep, ret)
  | '<' => some (rep, ret)
  | '>' => some (rep, ret)
  | '!' => some (rep, ret)
  | 'b' => some (rep, repetition (fun ret => ret + 1) rep ret)
  | 'B' => some (rep, repetition (fun ret => ret + 1) rep ret)
  | 'h' => some (rep, repetition (fun ret => ret + 2) rep ret)
  | 'H' => some (rep, repetition (fun ret => ret + 2) rep ret)
  | 'i' => some (rep, repetition (fun ret => ret + H.sizeof_int) rep ret)
  | 'I' => some (rep, repetition (fun ret => ret + H.sizeof_int) rep ret)
  | 'l' => some (rep, repetition (fun ret => ret + 4) rep ret)
  | 'L' => some (rep, repetition (fun ret => ret + 4) rep ret)
  | 'q' => some (rep, repetition (fun ret => ret + 8) rep ret)
  | 'Q' => some (rep, repetition (fun ret => ret + 8) rep ret)
  | 'f' => some (rep, repetition (fun ret => ret + 4) rep ret)
  | 'd' => some (rep, repetition (fun ret => ret + 8) rep ret)
  | 's' => some (rep, repetition (fun ret => ret + 1) rep ret)
  | 'p' => some (rep, repetition (fun ret => ret + 1) rep ret)
  | 'x' => some (rep, repetition (fun ret => ret + 1) rep ret)
  | 'v' => some (rep, repetition (fun ret => ret + 10) rep ret)
  | 'V' => some (rep, repetition (fun ret => ret + 10) rep ret)
  | _ =>
    if isdigit c then some (INC_REPETITION rep c, ret)
    else none

/-- The `for` loop of `struct_calcsize` over the unbounded total. -/
def size_sum_loop (H : Host) : List Char → Nat → Nat → Option Nat
  | [], _, ret => some ret
  | c :: p, rep, ret =>
    match size_sum_switch H c rep ret with
    | none => none
    | some r => size_sum_loop H p (if isdigit c then r.1 else 0) r.2

/-- The size `struct_calcsize` counts for a format when no addition wraps
around: the unbounded total, or -1 for a format with an unsupported
character. -/
def size_sum (H : Host) (fmt : List Char) : Int :=
  match size_sum_loop H fmt 0 0 with
  | none => -1
  | some ret => (ret : Nat)

/-- Number of bytes of the varint of `v` in the words of the specification:
the bit length of `v` divided by 7 and rounded up, and at least 1. -/
def varint_length (v : Nat) : Nat := max 1 ((Nat.size v + 6) / 7)

/-- The format with every endianness marker deleted. -/
def strip_markers (fmt : List Char) : List Char := fmt.filter (fun c => !is_marker c)

/-- Whether some endianness marker of the format stands directly after a
digit; `prev` tells whether the character before the format is a digit. -/
def marker_after_digit : Bool → List Char → Bool
  | _, [] => false
  | prev, c :: p => (prev && is_marker c) || marker_after_digit (isdigit c) p

/-- The unsigned value `pack_signed_varint` hands to `pack_varint`. -/
def signed_varint_uval (val : Int) : Nat :=
  let uval := (to_uint64 val <<< 1) % 2 ^ 64
  if val < 0 then 2 ^ 64 - 1 - uval else uval

/-- Two's complement reading of a `w`-bit pattern. -/
def twos_complement (w : Nat) (u : Nat) : Int :=
  if u ≤ 2 ^ (w - 1) - 1 then (u : Int) else (u : Int) - 2 ^ w

/-- The normal value `(-1) ^ s * (1 + k / 2 ^ sb) * 2 ^ e` of a binary format
with `sb` significand bits. -/
def normal_value (sb : Nat) (s : Bool) (k : Nat) (e : Int) : ℚ :=
  (if s then -1 else 1) * (1 + (k : ℚ) / 2 ^ sb) * (2 : ℚ) ^ e

/-- The bit pattern `(s << (bits - 1)) | ((e + bias) << sb) | k`. -/
def ieee_pattern (bits sb : Nat) (bias : Int) (s : Bool) (k : Nat) (e : Int) : Nat :=
  ((if s then 1 else 0) <<< (bits - 1)) ||| ((e + bias).toNat <<< sb) ||| k

/-- The statements between `BEGIN_REPETITION` and `END_REPETITION` in the case
of `unpack_va_list` for the type directive `c`, read off `unpack_switch`. -/
def unpack_body (H : Host) (buf : List Nat) (c : Char) (s : UnpackState) : UnpackState :=
  match c with
  | 'b' | 'B' | 's' | 'p' =>
    { s with dst := s.dst + 1, mem := s.mem.set s.dst (rd buf s.bp), bp := s.bp + 1 }
  | 'h' =>
    { s with dst := s.dst + 2,
             mem := store H.myendian s.mem s.dst 2
               (to_unsigned 2 (unpack_int16_t H.myendian buf s.bp s.ep).1),
             bp := (unpack_int16_t H.myendian buf s.bp s.ep).2 }
  | 'H' =>
    { s with dst := s.dst + 2,
             mem := store H.myendian s.mem s.dst 2 (unpack_uint16_t H.myendian buf s.bp s.ep).1,
             bp := (unpack_uint16_t H.myendian buf s.bp s.ep).2 }
  | 'i' =>
    if H.sizeof_int = 2 then
      { s with dst := s.dst + H.sizeof_int,
               mem := store H.myendian s.mem s.dst 2
                 (to_unsigned 2 (unpack_int16_t H.myendian buf s.bp s.ep).1),
               bp := (unpack_int16_t H.myendian buf s.bp s.ep).2 }
    else
      { s with dst := s.dst + H.sizeof_int,
               mem := store H.myendian s.mem s.dst 4
                 (to_unsigned 4 (unpack_int32_t H.myendian buf s.bp s.ep).1),
               bp := (unpack_int32_t H.myendian buf s.bp s.ep).2 }
  | 'I' =>
    if H.sizeof_int = 2 then
      { s with dst := s.dst + H.sizeof_int,
               mem := store H.myendian s.mem s.dst 2
                 (unpack_uint16_t H.myendian buf s.bp s.ep).1,
               bp := (unpack_uint16_t H.myendian buf s.bp s.ep).2 }
    else
      { s with dst := s.dst + H.sizeof_int,
               mem := store H.myendian s.mem s.dst 4
                 (unpack_uint32_t H.myendian buf s.bp s.ep).1,
               bp := (unpack_uint32_t H.myendian buf s.bp s.ep).2 }
  | 'l' =>
    { s with dst := s.dst + H.sizeof_long,
             mem := store H.myendian s.mem s.dst 4
               (to_unsigned 4 (unpack_int32_t H.myendian buf s.bp s.ep).1),
             bp := (unpack_int32_t H.myendian buf s.bp s.ep).2 }
  | 'L' =>
    { s with dst := s.dst + 4,
             mem := store H.myendian s.mem s.dst 4 (unpack_uint32_t H.myendian buf s.bp s.ep).1,
             bp := (unpack_uint32_t H.myendian buf s.bp s.ep).2 }
  | 'q' =>
    { s with dst := s.dst + 4,
             mem := store H.myendian s.mem s.dst 8
               (to_unsigned 8 (unpack_int64_t H.myendian buf s.bp s.ep).1),
             bp := (unpack_int64_t H.myendian buf s.bp s.ep).2 }
  | 'Q' =>
    { s with dst := s.dst + 8,
             mem := store H.myendian s.mem s.dst 8 (unpack_uint64_t H.myendian buf s.bp s.ep).1,
             bp := (unpack_uint64_t H.myendian buf s.bp s.ep).2 }
  | 'f' =>
    { s with dst := s.dst + 4,
             mem := store H.myendian s.mem s.dst 4
               (H.mem_of_float (unpack_float H.myendian buf s.bp s.ep).1),
             bp := (unpack_float H.myendian buf s.bp s.ep).2 }
  | 'd' =>
    { s with dst := s.dst + 8,
             mem := store H.myendian s.mem s.dst 8
               (H.mem_of_double (unpack_double H.myendian buf s.bp s.ep).1),
             bp := (unpack_double H.myendian buf s.bp s.ep).2 }
  | 'x' => { s with bp := s.bp + 1 }
  | 'v' =>
    { s with dst := s.dst + 8,
             mem := store H.myendian s.mem s.dst 8
               (to_unsigned 8 (unpack_signed_varint buf s.bp s.ep).1),
             bp := (unpack_signed_varint buf s.bp s.ep).2 }
  | 'V' =>
    { s with dst := s.dst + 8,
             mem := store H.myendian s.mem s.dst 8 (unpack_varint buf s.bp s.ep).1,
             bp := (unpack_varint buf s.bp s.ep).2 }
  | _ => s


/-! # Verification

## Bytes, bitwise operations and the varint loops -/

theorem u8_lt (x : Nat) : u8 x < 256 := Nat.mod_lt _ (by decide)

theorem u8_u8 (x : Nat) : u8 (u8 x) = u8 x := by simp [u8]

theorem u8_of_lt (x : Nat) (h : x < 256) : u8 x = x := Nat.mod_eq_of_lt h

theorem and_7f (x : Nat) : x &&& 0x7f = x % 128 := Nat.and_pow_two_sub_one_eq_mod x 7

theorem cont_byte_low (val : Nat) : u8 (val ||| 0x80) &&& 0x7f = val % 128 := by
  rw [and_7f, u8, Nat.mod_mod_of_dvd _ (by decide : 128 ∣ 256)]
  apply Nat.eq_of_testBit_eq
  intro i
  have h128 : (128 : Nat) = 2 ^ 7 := by norm_num
  rw [h128, Nat.testBit_mod_two_pow, Nat.testBit_mod_two_pow, Nat.testBit_or, Nat.testBit_two_pow]
  by_cases hi : i < 7
  · have : ¬ (7 = i) := by omega
    simp [hi, this]
  · simp [hi]

theorem cont_byte_high (val : Nat) : u8 (val ||| 0x80) &&& 0x80 ≠ 0 := by
  have h128 : (0x80 : Nat) = 2 ^ 7 := by norm_num
  have h256 : (256 : Nat) = 2 ^ 8 := by norm_num
  rw [u8, h128, h256, Nat.and_two_pow, Nat.testBit_mod_two_pow, Nat.testBit_or,
    Nat.testBit_two_pow_self]
  simp

theorem last_byte_high (val : Nat) (h : val < 0x80) : u8 val &&& 0x80 = 0 := by
  have h128 : (0x80 : Nat) = 2 ^ 7 := by norm_num
  rw [u8_of_lt val (by omega), h128, Nat.and_two_pow, Nat.testBit_lt_two_pow (by omega)]
  simp

theorem last_byte_low (val : Nat) (h : val < 0x80) : u8 val &&& 0x7f = val := by
  rw [u8_of_lt val (by omega), and_7f]; omega


theorem rd_lt (buf : List Nat) (i : Nat) : rd buf i < 256 := Nat.mod_lt _ (by decide)

theorem rd_cons_zero (a : Nat) (l : List Nat) : rd (a :: l) 0 = u8 a := by
  simp [rd, u8]

theorem rd_cons_succ (a : Nat) (l : List Nat) (i : Nat) : rd (a :: l) (i + 1) = rd l i := by
  simp [rd]

theorem rd_append_right (bp l : List Nat) (i : Nat) :
    rd (bp ++ l) (bp.length + i) = rd l i := by
  induction bp with
  | nil => simp
  | cons a t ih =>
    have : (a :: t).length + i = (t.length + i) + 1 := by simp; omega
    rw [List.cons_append, this, rd_cons_succ, ih]

theorem rd_append_length (bp l : List Nat) :
    rd (bp ++ l) bp.length = rd l 0 := by
  have := rd_append_right bp l 0
  simpa using this

theorem lor_eq_add_of_dvd (x y k : Nat) (hx : 2 ^ k ∣ x) (hy : y < 2 ^ k) :
    x ||| y = x + y := by
  obtain ⟨c, rfl⟩ := hx
  exact (Nat.mul_add_lt_is_or hy c).symm

theorem lor_eq_add_of_lt (x y k : Nat) (hx : x < 2 ^ k) (hy : 2 ^ k ∣ y) :
    x ||| y = x + y := by
  rw [Nat.lor_comm, lor_eq_add_of_dvd y x k hy hx, Nat.add_comm]

theorem or_step_le (acc b k w : Nat) (hacc : acc < 2 ^ k) (hw : acc + b * 2 ^ k < 2 ^ w) :
    (acc ||| (b <<< k) % 2 ^ w) % 2 ^ w = acc + b * 2 ^ k := by
  have h1 : b * 2 ^ k < 2 ^ w := by omega
  rw [Nat.shiftLeft_eq, Nat.mod_eq_of_lt h1,
    lor_eq_add_of_lt acc (b * 2 ^ k) k hacc (Dvd.intro_left b rfl), Nat.mod_eq_of_lt hw]

/-- Room above the gathered bits: if `a` shifted by `k` fits in `w` bits, so
does it with any `k`-bit value below it. -/
theorem add_shl_lt (a b k w : Nat) (ha : a * 2 ^ k < 2 ^ w) (hb : b < 2 ^ k) (hk : k ≤ w) :
    b + a * 2 ^ k < 2 ^ w := by
  have hw : 2 ^ w = 2 ^ (w - k) * 2 ^ k := by rw [← pow_add]; congr 1; omega
  rw [hw] at ha ⊢
  have h1 : a < 2 ^ (w - k) := Nat.lt_of_mul_lt_mul_right ha
  have h2 : (a + 1) * 2 ^ k ≤ 2 ^ (w - k) * 2 ^ k := Nat.mul_le_mul_right _ h1
  have h3 : (a + 1) * 2 ^ k = a * 2 ^ k + 2 ^ k := by ring
  omega

/-- The bytes `pack_varint_loop` stores are appended to those already there. -/
theorem pack_varint_loop_append (fuel bytes : Nat) (bp : List Nat) (val : Nat) :
    pack_varint_loop fuel bytes bp val
      = (bp ++ (pack_varint_loop fuel bytes [] val).1, (pack_varint_loop fuel bytes [] val).2) := by
  induction fuel generalizing bytes bp val with
  | zero => simp [pack_varint_loop]
  | succ fuel ih =>
    unfold pack_varint_loop
    by_cases h : val ≥ 0x80 ∧ bytes < 10
    · rw [if_pos h, if_pos h, ih (bytes + 1) (bp ++ [u8 (val ||| 0x80)]),
        ih (bytes + 1) ([] ++ [u8 (val ||| 0x80)])]
      simp
    · rw [if_neg h, if_neg h]; simp

/-- Loop invariant of the varint round trip: decoding, from the state the
decoder has reached after `bytes` bytes, what the encoder stores from its state
after `bytes` bytes yields the value and stops on the last byte stored. -/
theorem unpack_pack_varint_loop (fuel : Nat) :
    ∀ (bytes bits val dst : Nat) (pre rest : List Nat),
      bytes + fuel = 10 → bits = 7 * bytes → val * 2 ^ bits < 2 ^ 64 → dst < 2 ^ bits →
      unpack_varint_loop
          (pre ++ ((pack_varint_loop fuel bytes [] val).1
            ++ u8 (pack_varint_loop fuel bytes [] val).2 :: rest))
          fuel bits pre.length dst
        = (dst + val * 2 ^ bits, pre.length + (pack_varint_loop fuel bytes [] val).1.length) := by
  induction fuel with
  | zero =>
    intro bytes bits val dst pre rest hb hbits hval hdst
    have hb10 : bytes = 10 := by omega
    subst hb10; subst hbits
    have : val = 0 := by
      by_contra h
      have : 1 * 2 ^ (7 * 10) ≤ val * 2 ^ (7 * 10) := Nat.mul_le_mul_right _ (by omega)
      norm_num at this hval
      omega
    subst this
    simp [unpack_varint_loop, pack_varint_loop]
  | succ fuel ih =>
    intro bytes bits val dst pre rest hb hbits hval hdst
    have hbits63 : bits ≤ 63 := by omega
    have hsum : dst + val * 2 ^ bits < 2 ^ 64 := add_shl_lt val dst bits 64 hval hdst (by omega)
    by_cases h : val ≥ 0x80 ∧ bytes < 10
    · have hlow : (val % 128) * 2 ^ bits ≤ val * 2 ^ bits :=
        Nat.mul_le_mul_right _ (Nat.mod_le _ _)
      have hsplit : val * 2 ^ bits = (val % 128) * 2 ^ bits + (val / 128) * 2 ^ (bits + 7) := by
        have := Nat.div_add_mod val 128
        calc val * 2 ^ bits = (128 * (val / 128) + val % 128) * 2 ^ bits := by rw [this]
          _ = _ := by ring
      have hdst2 : dst + (val % 128) * 2 ^ bits < 2 ^ (bits + 7) := by
        have h1 : (val % 128 + 1) * 2 ^ bits ≤ 128 * 2 ^ bits :=
          Nat.mul_le_mul_right _ (by omega)
        have h2 : (val % 128 + 1) * 2 ^ bits = (val % 128) * 2 ^ bits + 2 ^ bits := by ring
        have h3 : 2 ^ (bits + 7) = 128 * 2 ^ bits := by ring
        omega
      have hstep := ih (bytes + 1) (bits + 7) (val >>> 7) (dst + (val % 128) * 2 ^ bits)
        (pre ++ [u8 (val ||| 0x80)]) rest (by omega) (by omega)
        (by rw [Nat.shiftRight_eq_div_pow]; norm_num; omega)
        hdst2
      rw [pack_varint_loop, if_pos h, pack_varint_loop_append]
      rw [unpack_varint_loop, if_pos hbits63]
      simp only [List.nil_append, List.append_assoc, List.cons_append, rd_append_length,
        rd_cons_zero, u8_u8, cont_byte_low]
      rw [if_neg (cont_byte_high val), or_step_le dst (val % 128) bits 64 hdst (by omega)]
      simp only [List.append_assoc, List.cons_append, List.nil_append, List.length_append,
        List.length_cons, List.length_nil, Nat.shiftRight_eq_div_pow, Nat.zero_add]
        at hstep ⊢
      rw [hstep]
      have e7 : (2 : Nat) ^ 7 = 128 := by norm_num
      rw [e7, Prod.mk.injEq]
      constructor
      · omega
      · omega
    · have hv : val < 0x80 := by omega
      rw [pack_varint_loop, if_neg h]
      rw [unpack_varint_loop, if_pos hbits63]
      simp only [List.nil_append, rd_append_length, rd_cons_zero, u8_u8, last_byte_low val hv,
        last_byte_high val hv, if_true, List.length_nil, Nat.add_zero]
      rw [or_step_le dst val bits 64 hdst hsum]

/-! ## Fixed width integers -/

theorem or_step_be (c b K k w : Nat) (hK : K = k + 8) (hb : b < 256)
    (hw : (c * 256 + b) * 2 ^ k < 2 ^ w) :
    (c * 2 ^ K ||| (b <<< k) % 2 ^ w) % 2 ^ w = (c * 256 + b) * 2 ^ k := by
  subst hK
  have e : c * 2 ^ (k + 8) + b * 2 ^ k = (c * 256 + b) * 2 ^ k := by ring
  have h1 : b * 2 ^ k < 2 ^ w := by
    have : b * 2 ^ k ≤ (c * 256 + b) * 2 ^ k := Nat.mul_le_mul_right _ (by omega)
    omega
  have h2 : b * 2 ^ k < 2 ^ (k + 8) := by
    have : 0 < 2 ^ k := Nat.pow_pos (by decide)
    rw [pow_add, Nat.mul_comm (2 ^ k)]
    exact Nat.mul_lt_mul_of_lt_of_le hb (le_refl _) this
  rw [Nat.shiftLeft_eq, Nat.mod_eq_of_lt h1,
    lor_eq_add_of_dvd (c * 2 ^ (k + 8)) (b * 2 ^ k) (k + 8) (Dvd.intro_left c rfl) h2, e,
    Nat.mod_eq_of_lt hw]

theorem shl_mod_eq (b k w : Nat) (h : b * 2 ^ k < 2 ^ w) : (b <<< k) % 2 ^ w = b * 2 ^ k := by
  rw [Nat.shiftLeft_eq, Nat.mod_eq_of_lt h]

theorem asm16_le (b0 b1 : Nat) (h0 : b0 < 256) (h1 : b1 < 256) :
    (b0 ||| (b1 <<< 8)) % 2 ^ 16 = b0 + b1 * 2 ^ 8 := by
  have h := or_step_le b0 b1 8 16 (by omega) (by omega)
  have e : (b1 <<< 8) % 2 ^ 16 = b1 <<< 8 :=
    Nat.mod_eq_of_lt (by rw [Nat.shiftLeft_eq]; omega)
  rw [e] at h
  exact h

theorem asm16_be (b0 b1 : Nat) (h0 : b0 < 256) (h1 : b1 < 256) :
    ((b0 <<< 8) % 2 ^ 16 ||| b1) % 2 ^ 16 = b0 * 2 ^ 8 + b1 := by
  rw [shl_mod_eq b0 8 16 (by omega)]
  have := or_step_be b0 b1 8 0 16 rfl h1 (by omega)
  simp only [Nat.shiftLeft_zero, pow_zero, Nat.mul_one] at this
  rw [Nat.mod_eq_of_lt (by omega : b1 < 2 ^ 16)] at this
  omega

theorem asm32_le (b0 b1 b2 b3 : Nat) (h0 : b0 < 256) (h1 : b1 < 256) (h2 : b2 < 256)
    (h3 : b3 < 256) :
    (((b0 ||| (b1 <<< 8) % 2 ^ 32) % 2 ^ 32 ||| (b2 <<< 16) % 2 ^ 32) % 2 ^ 32
      ||| (b3 <<< 24) % 2 ^ 32) % 2 ^ 32
    = b0 + b1 * 2 ^ 8 + b2 * 2 ^ 16 + b3 * 2 ^ 24 := by
  rw [or_step_le b0 b1 8 32 (by omega) (by omega)]
  rw [or_step_le _ b2 16 32 (by omega) (by omega)]
  rw [or_step_le _ b3 24 32 (by omega) (by omega)]

theorem asm32_be (b0 b1 b2 b3 : Nat) (h0 : b0 < 256) (h1 : b1 < 256) (h2 : b2 < 256)
    (h3 : b3 < 256) :
    ((((b0 <<< 24) % 2 ^ 32 ||| (b1 <<< 16) % 2 ^ 32) % 2 ^ 32 ||| (b2 <<< 8) % 2 ^ 32) % 2 ^ 32
      ||| b3 % 2 ^ 32) % 2 ^ 32
    = b0 * 2 ^ 24 + b1 * 2 ^ 16 + b2 * 2 ^ 8 + b3 := by
  rw [shl_mod_eq b0 24 32 (by omega)]
  rw [or_step_be b0 b1 24 16 32 rfl h1 (by omega)]
  rw [or_step_be _ b2 16 8 32 rfl h2 (by omega)]
  have e3 : b3 % 2 ^ 32 = (b3 <<< 0) % 2 ^ 32 := by simp
  rw [e3, or_step_be _ b3 8 0 32 rfl h3 (by omega)]
  omega

theorem asm64_le (b0 b1 b2 b3 b4 b5 b6 b7 : Nat) (h0 : b0 < 256) (h1 : b1 < 256)
    (h2 : b2 < 256) (h3 : b3 < 256) (h4 : b4 < 256) (h5 : b5 < 256) (h6 : b6 < 256)
    (h7 : b7 < 256) :
    ((((((((b0 ||| (b1 <<< 8) % 2 ^ 64) % 2 ^ 64 ||| (b2 <<< 16) % 2 ^ 64) % 2 ^ 64
      ||| (b3 <<< 24) % 2 ^ 64) % 2 ^ 64 ||| (b4 <<< 32) % 2 ^ 64) % 2 ^ 64
      ||| (b5 <<< 40) % 2 ^ 64) % 2 ^ 64 ||| (b6 <<< 48) % 2 ^ 64) % 2 ^ 64
      ||| (b7 <<< 56) % 2 ^ 64) % 2 ^ 64)
    = b0 + b1 * 2 ^ 8 + b2 * 2 ^ 16 + b3 * 2 ^ 24 + b4 * 2 ^ 32 + b5 * 2 ^ 40
      + b6 * 2 ^ 48 + b7 * 2 ^ 56 := by
  rw [or_step_le b0 b1 8 64 (by omega) (by omega)]
  rw [or_step_le _ b2 16 64 (by omega) (by omega)]
  rw [or_step_le _ b3 24 64 (by omega) (by omega)]
  rw [or_step_le _ b4 32 64 (by omega) (by omega)]
  rw [or_step_le _ b5 40 64 (by omega) (by omega)]
  rw [or_step_le _ b6 48 64 (by omega) (by omega)]
  rw [or_step_le _ b7 56 64 (by omega) (by omega)]

theorem asm64_be (b0 b1 b2 b3 b4 b5 b6 b7 : Nat) (h0 : b0 < 256) (h1 : b1 < 256)
    (h2 : b2 < 256) (h3 : b3 < 256) (h4 : b4 < 256) (h5 : b5 < 256) (h6 : b6 < 256)
    (h7 : b7 < 256) :
    (((((((((b0 <<< 56) % 2 ^ 64 ||| (b1 <<< 48) % 2 ^ 64) % 2 ^ 64
      ||| (b2 <<< 40) % 2 ^ 64) % 2 ^ 64 ||| (b3 <<< 32) % 2 ^ 64) % 2 ^ 64
      ||| (b4 <<< 24) % 2 ^ 64) % 2 ^ 64 ||| (b5 <<< 16) % 2 ^ 64) % 2 ^ 64
      ||| (b6 <<< 8) % 2 ^ 64) % 2 ^ 64 ||| b7 % 2 ^ 64) % 2 ^ 64)
    = b0 * 2 ^ 56 + b1 * 2 ^ 48 + b2 * 2 ^ 40 + b3 * 2 ^ 32 + b4 * 2 ^ 24 + b5 * 2 ^ 16
      + b6 * 2 ^ 8 + b7 := by
  rw [shl_mod_eq b0 56 64 (by omega)]
  rw [or_step_be b0 b1 56 48 64 rfl h1 (by omega)]
  rw [or_step_be _ b2 48 40 64 rfl h2 (by omega)]
  rw [or_step_be _ b3 40 32 64 rfl h3 (by omega)]
  rw [or_step_be _ b4 32 24 64 rfl h4 (by omega)]
  rw [or_step_be _ b5 24 16 64 rfl h5 (by omega)]
  rw [or_step_be _ b6 16 8 64 rfl h6 (by omega)]
  have e7 : b7 % 2 ^ 64 = (b7 <<< 0) % 2 ^ 64 := by simp
  rw [e7, or_step_be _ b7 8 0 64 rfl h7 (by omega)]
  omega

theorem split16 (v : Nat) (h : v < 2 ^ 16) : u8 v + u8 (v >>> 8) * 2 ^ 8 = v := by
  simp only [u8, Nat.shiftRight_eq_div_pow]; omega

theorem split32 (v : Nat) (h : v < 2 ^ 32) :
    u8 v + u8 (v >>> 8) * 2 ^ 8 + u8 (v >>> 16) * 2 ^ 16 + u8 (v >>> 24) * 2 ^ 24 = v := by
  simp only [u8, Nat.shiftRight_eq_div_pow]; omega

theorem split64 (v : Nat) (h : v < 2 ^ 64) :
    u8 v + u8 (v >>> 8) * 2 ^ 8 + u8 (v >>> 16) * 2 ^ 16 + u8 (v >>> 24) * 2 ^ 24
      + u8 (v >>> 32) * 2 ^ 32 + u8 (v >>> 40) * 2 ^ 40 + u8 (v >>> 48) * 2 ^ 48
      + u8 (v >>> 56) * 2 ^ 56 = v := by
  simp only [u8, Nat.shiftRight_eq_div_pow]; omega

theorem unpack_pack_uint16 (myendian e : Endian) (bp rest : List Nat) (v : Nat) :
    unpack_uint16_t myendian (pack_int16_t myendian bp v e ++ rest) bp.length e
      = (v % 2 ^ 16, bp.length + 2) := by
  have hv : v % 2 ^ 16 < 2 ^ 16 := Nat.mod_lt _ (by norm_num)
  have hs := split16 _ hv
  unfold unpack_uint16_t pack_int16_t
  by_cases he : e = myendian
  · simp only [he, if_true, List.append_assoc, rd_append_right, rd_append_length, rd_cons_zero,
      rd_cons_succ, List.cons_append, u8_u8]
    rw [asm16_le _ _ (u8_lt _) (u8_lt _), hs]
  · simp only [he, if_false, List.append_assoc, rd_append_right, rd_append_length, rd_cons_zero,
      rd_cons_succ, List.cons_append, u8_u8]
    rw [asm16_be _ _ (u8_lt _) (u8_lt _)]
    rw [Prod.mk.injEq]; exact ⟨by omega, rfl⟩

theorem unpack_pack_uint32 (myendian e : Endian) (bp rest : List Nat) (v : Nat) :
    unpack_uint32_t myendian (pack_int32_t myendian bp v e ++ rest) bp.length e
      = (v % 2 ^ 32, bp.length + 4) := by
  have hv : v % 2 ^ 32 < 2 ^ 32 := Nat.mod_lt _ (by norm_num)
  have hs := split32 _ hv
  unfold unpack_uint32_t pack_int32_t
  by_cases he : e = myendian
  · simp only [he, if_true, List.append_assoc, rd_append_right, rd_append_length, rd_cons_zero,
      rd_cons_succ, List.cons_append, u8_u8]
    rw [asm32_le _ _ _ _ (u8_lt _) (u8_lt _) (u8_lt _) (u8_lt _), hs]
  · simp only [he, if_false, List.append_assoc, rd_append_right, rd_append_length, rd_cons_zero,
      rd_cons_succ, List.cons_append, u8_u8]
    rw [asm32_be _ _ _ _ (u8_lt _) (u8_lt _) (u8_lt _) (u8_lt _)]
    rw [Prod.mk.injEq]; exact ⟨by omega, rfl⟩

theorem unpack_pack_uint64 (myendian e : Endian) (bp rest : List Nat) (v : Nat) :
    unpack_uint64_t myendian (pack_int64_t myendian bp v e ++ rest) bp.length e
      = (v % 2 ^ 64, bp.length + 8) := by
  have hv : v % 2 ^ 64 < 2 ^ 64 := Nat.mod_lt _ (by norm_num)
  have hs := split64 _ hv
  unfold unpack_uint64_t pack_int64_t
  by_cases he : e = myendian
  · simp only [he, if_true, List.append_assoc, rd_append_right, rd_append_length, rd_cons_zero,
      rd_cons_succ, List.cons_append, u8_u8]
    rw [asm64_le _ _ _ _ _ _ _ _ (u8_lt _) (u8_lt _) (u8_lt _) (u8_lt _) (u8_lt _) (u8_lt _)
      (u8_lt _) (u8_lt _), hs]
  · simp only [he, if_false, List.append_assoc, rd_append_right, rd_append_length, rd_cons_zero,
      rd_cons_succ, List.cons_append, u8_u8]
    rw [asm64_be _ _ _ _ _ _ _ _ (u8_lt _) (u8_lt _) (u8_lt _) (u8_lt _) (u8_lt _) (u8_lt _)
      (u8_lt _) (u8_lt _)]
    rw [Prod.mk.injEq]; exact ⟨by omega, rfl⟩

theorem length_pack_int16_t (myendian e : Endian) (bp : List Nat) (v : Nat) :
    (pack_int16_t myendian bp v e).length = bp.length + 2 := by
  unfold pack_int16_t; split <;> simp

theorem length_pack_int32_t (myendian e : Endian) (bp : List Nat) (v : Nat) :
    (pack_int32_t myendian bp v e).length = bp.length + 4 := by
  unfold pack_int32_t; split <;> simp

theorem length_pack_int64_t (myendian e : Endian) (bp : List Nat) (v : Nat) :
    (pack_int64_t myendian bp v e).length = bp.length + 8 := by
  unfold pack_int64_t; split <;> simp

/-- C9. Fixed-width integer round trip: for the widths 16, 32 and 64, every
value of that width, every requested byte order `e` and every native order
`myendian`, the unsigned unpacker with order `e` returns the value from the
bytes the packer stored with order `e`; the packer stores exactly 2, 4 and 8
bytes and the unpacker advances its cursor by exactly as many. -/
theorem fixed_width_roundtrip (myendian e : Endian) (bp rest : List Nat) (v16 v32 v64 : Nat)
    (h16 : v16 < 2 ^ 16) (h32 : v32 < 2 ^ 32) (h64 : v64 < 2 ^ 64) :
    (unpack_uint16_t myendian (pack_int16_t myendian bp v16 e ++ rest) bp.length e
        = (v16, bp.length + 2)
      ∧ (pack_int16_t myendian bp v16 e).length = bp.length + 2) ∧
    (unpack_uint32_t myendian (pack_int32_t myendian bp v32 e ++ rest) bp.length e
        = (v32, bp.length + 4)
      ∧ (pack_int32_t myendian bp v32 e).length = bp.length + 4) ∧
    (unpack_uint64_t myendian (pack_int64_t myendian bp v64 e ++ rest) bp.length e
        = (v64, bp.length + 8)
      ∧ (pack_int64_t myendian bp v64 e).length = bp.length + 8) := by
  refine ⟨⟨?_, length_pack_int16_t _ _ _ _⟩, ⟨?_, length_pack_int32_t _ _ _ _⟩,
    ⟨?_, length_pack_int64_t _ _ _ _⟩⟩
  · rw [unpack_pack_uint16, Nat.mod_eq_of_lt h16]
  · rw [unpack_pack_uint32, Nat.mod_eq_of_lt h32]
  · rw [unpack_pack_uint64, Nat.mod_eq_of_lt h64]

theorem fixed_width_roundtrip_witness :
    ((0x0102 : Nat) < 2 ^ 16 ∧ (0xF1020304 : Nat) < 2 ^ 32 ∧ (0xF102030405060708 : Nat) < 2 ^ 64) ∧
    ((unpack_uint16_t Endian.BIG (pack_int16_t Endian.BIG [7] 0x0102 Endian.LITTLE ++ [9])
          [7].length Endian.LITTLE = (0x0102, [7].length + 2)
      ∧ (pack_int16_t Endian.BIG [7] 0x0102 Endian.LITTLE).length = [7].length + 2) ∧
    (unpack_uint32_t Endian.BIG (pack_int32_t Endian.BIG [7] 0xF1020304 Endian.LITTLE ++ [9])
          [7].length Endian.LITTLE = (0xF1020304, [7].length + 4)
      ∧ (pack_int32_t Endian.BIG [7] 0xF1020304 Endian.LITTLE).length = [7].length + 4) ∧
    (unpack_uint64_t Endian.BIG
          (pack_int64_t Endian.BIG [7] 0xF102030405060708 Endian.LITTLE ++ [9])
          [7].length Endian.LITTLE = (0xF102030405060708, [7].length + 8)
      ∧ (pack_int64_t Endian.BIG [7] 0xF102030405060708 Endian.LITTLE).length
          = [7].length + 8)) :=
  ⟨by norm_num, fixed_width_roundtrip Endian.BIG Endian.LITTLE [7] [9] 0x0102 0xF1020304
    0xF102030405060708 (by norm_num) (by norm_num) (by norm_num)⟩

/-! ## Varints -/

theorem pack_varint_append (bp : List Nat) (v : Nat) (e : Endian) :
    pack_varint bp v e = bp ++ pack_varint [] v e := by
  simp only [pack_varint]
  rw [pack_varint_loop_append]
  simp

/-- Shared form of the unsigned varint round trip. -/
theorem unpack_pack_varint (bp rest : List Nat) (v : Nat) (e e2 : Endian) :
    unpack_varint (pack_varint bp v e ++ rest) bp.length e2
      = (v % 2 ^ 64, (pack_varint bp v e).length) := by
  have hlt : v % 2 ^ 64 < 2 ^ 64 := Nat.mod_lt _ (by norm_num)
  have h := unpack_pack_varint_loop 10 0 0 (v % 2 ^ 64) 0 bp rest (by omega) (by omega)
    (by simpa using hlt) (by norm_num)
  rw [pack_varint_append]
  simp only [unpack_varint, pack_varint, List.nil_append, List.append_assoc,
    List.singleton_append, List.length_append, List.length_cons, List.length_nil]
  rw [h]
  simp only [Nat.zero_add, pow_zero, Nat.mul_one, Prod.mk.injEq, true_and]
  omega

/-- C3. Unsigned varint round trip: for every unsigned 64-bit value `v`, the
bytes `pack_varint` stores follow those already in the buffer, and
`unpack_varint` started at their first byte yields exactly `v` and advances the
read cursor by exactly the number of bytes stored.  Values from `2 ^ 63` on,
which take ten bytes, are included. -/
theorem varint_roundtrip (bp rest : List Nat) (v : Nat) (e e2 : Endian) (hv : v < 2 ^ 64) :
    pack_varint bp v e = bp ++ pack_varint [] v e ∧
    unpack_varint (bp ++ pack_varint [] v e ++ rest) bp.length e2
      = (v, bp.length + (pack_varint [] v e).length) := by
  refine ⟨pack_varint_append bp v e, ?_⟩
  have h := unpack_pack_varint bp rest v e e2
  rw [pack_varint_append, Nat.mod_eq_of_lt hv, List.length_append] at h
  exact h

theorem to_int64_of_lt (u : Nat) (h : u < 2 ^ 63) : to_int64 u = (u : Int) := by
  have h1 : u % 2 ^ 64 = u := Nat.mod_eq_of_lt (by omega)
  simp only [to_int64, h1, if_pos h]

/-- C4. Signed varint round trip: for every signed 64-bit value `n`
(`INT64_MIN` and `INT64_MAX` included), `unpack_signed_varint` applied to the
bytes `pack_signed_varint` stored yields exactly `n`, the cursor ending after
the last byte stored. -/
theorem signed_varint_roundtrip (bp rest : List Nat) (n : Int) (e e2 : Endian)
    (hlo : -2 ^ 63 ≤ n) (hhi : n < 2 ^ 63) :
    unpack_signed_varint (pack_signed_varint bp n e ++ rest) bp.length e2
      = (n, (pack_signed_varint bp n e).length) := by
  unfold unpack_signed_varint pack_signed_varint
  simp only [unpack_pack_varint]
  by_cases hn : n < 0
  · obtain ⟨m, rfl⟩ : ∃ m : Nat, n = Int.negSucc m := by
      cases n with
      | ofNat k => exact absurd hn (by simp)
      | negSucc k => exact ⟨k, rfl⟩
    have hm : m < 2 ^ 63 := by
      have : (Int.negSucc m) = -((m : Int) + 1) := by rfl
      omega
    have hu : to_uint64 (Int.negSucc m) = 2 ^ 64 - 1 - m := by
      unfold to_uint64
      have : (Int.negSucc m) % 2 ^ 64 = ((2 ^ 64 - 1 - m : Nat) : Int) := by
        have e1 : (Int.negSucc m) = -((m : Int) + 1) := by rfl
        omega
      rw [this, Int.toNat_ofNat]
    rw [if_pos hn, hu, Nat.shiftLeft_eq]
    have h1 : (2 ^ 64 - 1 - (2 ^ 64 - 1 - m) * 2 ^ 1 % 2 ^ 64) % 2 ^ 64 = 2 * m + 1 := by omega
    simp only [h1, Nat.shiftRight_eq_div_pow, Nat.and_one_is_mod]
    have h2 : (2 * m + 1) / 2 ^ 1 = m := by omega
    have h3 : (2 * m + 1) % 2 ≠ 0 := by omega
    rw [h2, if_pos h3, to_int64_of_lt m hm]
    have : (Int.negSucc m) = -((m : Int) + 1) := by rfl
    rw [this, Prod.mk.injEq]
    exact ⟨by omega, rfl⟩
  · obtain ⟨m, rfl⟩ : ∃ m : Nat, n = (m : Int) := ⟨n.toNat, by omega⟩
    have hm : m < 2 ^ 63 := by omega
    have hu : to_uint64 (m : Int) = m := by
      unfold to_uint64
      have : (m : Int) % 2 ^ 64 = (m : Int) := by omega
      rw [this, Int.toNat_ofNat]
    rw [if_neg hn, hu, Nat.shiftLeft_eq]
    have h1 : m * 2 ^ 1 % 2 ^ 64 % 2 ^ 64 = 2 * m := by omega
    simp only [h1, Nat.shiftRight_eq_div_pow, Nat.and_one_is_mod]
    have h2 : (2 * m) / 2 ^ 1 = m := by omega
    have h3 : ¬ (2 * m) % 2 ≠ 0 := by omega
    rw [h2, if_neg h3, to_int64_of_lt m hm]

theorem varint_roundtrip_witness :
    (2 ^ 63 + 300 < 2 ^ 64) ∧
    (pack_varint [7] (2 ^ 63 + 300) Endian.LITTLE
        = [7] ++ pack_varint [] (2 ^ 63 + 300) Endian.LITTLE ∧
      unpack_varint ([7] ++ pack_varint [] (2 ^ 63 + 300) Endian.LITTLE ++ [9]) [7].length
          Endian.BIG
        = (2 ^ 63 + 300, [7].length + (pack_varint [] (2 ^ 63 + 300) Endian.LITTLE).length)) :=
  ⟨by norm_num, varint_roundtrip [7] [9] (2 ^ 63 + 300) Endian.LITTLE Endian.BIG (by norm_num)⟩

theorem signed_varint_roundtrip_witness :
    ((-2 ^ 63 : Int) ≤ -2 ^ 63 ∧ (-2 ^ 63 : Int) < 2 ^ 63) ∧
    unpack_signed_varint (pack_signed_varint [7] (-2 ^ 63) Endian.LITTLE ++ [9]) [7].length
        Endian.BIG
      = (-2 ^ 63, (pack_signed_varint [7] (-2 ^ 63) Endian.LITTLE).length) :=
  ⟨by norm_num, signed_varint_roundtrip [7] [9] (-2 ^ 63) Endian.LITTLE Endian.BIG
    (by norm_num) (by norm_num)⟩

/-! ## Float special values -/

/-- C10. Float special values: for both widths `pack_ieee754` maps positive
infinity, negative infinity and not-a-number to the fixed patterns of
`IEEE754_32_*` and `IEEE754_64_*`, `unpack_ieee754` maps each of these patterns
back to a value of the same class, and zero is packed as the all-zero pattern
(four or eight zero bytes in the buffer), which unpacks to zero. -/
theorem float_special_values :
    (pack_ieee754 (LongDouble.inf false) 32 8 = 0x7F800000
      ∧ pack_ieee754 (LongDouble.inf true) 32 8 = 0xFF800000
      ∧ pack_ieee754 LongDouble.nan 32 8 = 0x7FC00000) ∧
    (pack_ieee754 (LongDouble.inf false) 64 11 = 0x7FF0000000000000
      ∧ pack_ieee754 (LongDouble.inf true) 64 11 = 0xFFF0000000000000
      ∧ pack_ieee754 LongDouble.nan 64 11 = 0x7FF8000000000000) ∧
    (unpack_ieee754 0x7F800000 32 8 = LongDouble.inf false
      ∧ unpack_ieee754 0xFF800000 32 8 = LongDouble.inf true
      ∧ unpack_ieee754 0x7FC00000 32 8 = LongDouble.nan) ∧
    (unpack_ieee754 0x7FF0000000000000 64 11 = LongDouble.inf false
      ∧ unpack_ieee754 0xFFF0000000000000 64 11 = LongDouble.inf true
      ∧ unpack_ieee754 0x7FF8000000000000 64 11 = LongDouble.nan) ∧
    (pack_ieee754 (LongDouble.finite 0) 32 8 = 0
      ∧ pack_ieee754 (LongDouble.finite 0) 64 11 = 0
      ∧ unpack_ieee754 0 32 8 = LongDouble.finite 0
      ∧ unpack_ieee754 0 64 11 = LongDouble.finite 0) ∧
    (∀ (myendian e : Endian) (bp : List Nat),
      pack_float myendian bp (LongDouble.finite 0) e = bp ++ [0, 0, 0, 0]
      ∧ pack_double myendian bp (LongDouble.finite 0) e = bp ++ [0, 0, 0, 0, 0, 0, 0, 0]) := by
  refine ⟨⟨?_, ?_, ?_⟩, ⟨?_, ?_, ?_⟩, ⟨?_, ?_, ?_⟩, ⟨?_, ?_, ?_⟩, ⟨?_, ?_, ?_, ?_⟩, ?_⟩
  all_goals try
    (simp [pack_ieee754, unpack_ieee754, isinf, isnan, IEEE754_32_NAN, IEEE754_32_INF,
      IEEE754_32_NEG_INF, IEEE754_64_NAN, IEEE754_64_INF, IEEE754_64_NEG_INF])
  intro myendian e bp
  have h32 : PACK_IEEE754_32 (LongDouble.finite 0) = 0 := by
    simp [PACK_IEEE754_32, pack_ieee754, isinf, isnan]
  have h64 : PACK_IEEE754_64 (LongDouble.finite 0) = 0 := by
    simp [PACK_IEEE754_64, pack_ieee754, isinf, isnan]
  constructor
  · simp only [pack_float, h32, pack_int32_t]
    split <;> simp [u8]
  · simp only [pack_double, h64, pack_int64_t]
    split <;> simp [u8]

/-! ## The interpreters, character by character -/

theorem mem_directives (c : Char) (h : is_directive c = true) :
    c = 'b' ∨ c = 'B' ∨ c = 'h' ∨ c = 'H' ∨ c = 'i' ∨ c = 'I' ∨ c = 'l' ∨ c = 'L' ∨ c = 'q'
      ∨ c = 'Q' ∨ c = 'f' ∨ c = 'd' ∨ c = 's' ∨ c = 'p' ∨ c = 'x' ∨ c = 'v' ∨ c = 'V' := by
  simpa [is_directive] using h

theorem pack_switch_directive (H : Host) (mem : List Nat) (c : Char) (rep : Nat)
    (s : PackState) (h : is_directive c = true) :
    pack_switch H mem c rep s = some (rep, repetition (pack_body H mem c) rep s) := by
  rcases mem_directives c h with h | h | h | h | h | h | h | h | h | h | h | h | h | h | h | h | h
  all_goals subst h; rfl

theorem size_sum_switch_directive (H : Host) (c : Char) (rep ret : Nat)
    (h : is_directive c = true) :
    size_sum_switch H c rep ret = some (rep, repetition (fun ret => ret + calc_size H c) rep ret) := by
  rcases mem_directives c h with h | h | h | h | h | h | h | h | h | h | h | h | h | h | h | h | h
  all_goals subst h; rfl

theorem pack_switch_marker (H : Host) (mem : List Nat) (c : Char) (rep : Nat)
    (s : PackState) (h : is_marker c = true) :
    pack_switch H mem c rep s = some (rep, { s with ep := marker_order H c }) := by
  have h' : c = '=' ∨ c = '<' ∨ c = '>' ∨ c = '!' := by simpa [is_marker] using h
  rcases h' with h | h | h | h
  all_goals subst h; rfl

theorem pack_switch_digit (H : Host) (mem : List Nat) (c : Char) (rep : Nat)
    (s : PackState) (h : isdigit c = true) :
    pack_switch H mem c rep s = some (INC_REPETITION rep c, s) := by
  unfold pack_switch
  split <;> first | (exact absurd h (by decide)) | simp [h]

theorem pack_switch_other (H : Host) (mem : List Nat) (c : Char) (rep : Nat)
    (s : PackState) (h : recognised c = false) :
    pack_switch H mem c rep s = none := by
  unfold pack_switch
  split <;> first | (exact absurd h (by decide)) | (simp [recognised] at h; simp [h])


theorem unpack_switch_digit (H : Host) (buf : List Nat) (c : Char) (rep : Nat)
    (s : UnpackState) (h : isdigit c = true) :
    unpack_switch H buf c rep s = some (INC_REPETITION rep c, s) := by
  unfold unpack_switch
  split <;> first | (exact absurd h (by decide)) | simp [h]

theorem unpack_switch_other (H : Host) (buf : List Nat) (c : Char) (rep : Nat)
    (s : UnpackState) (h : recognised c = false) :
    unpack_switch H buf c rep s = none := by
  unfold unpack_switch
  split <;> first | (exact absurd h (by decide)) | (simp [recognised] at h; simp [h])

theorem size_sum_switch_digit (H : Host) (c : Char) (rep ret : Nat) (h : isdigit c = true) :
    size_sum_switch H c rep ret = some (INC_REPETITION rep c, ret) := by
  unfold size_sum_switch
  split <;> first | (exact absurd h (by decide)) | simp [h]

theorem size_sum_switch_other (H : Host) (c : Char) (rep ret : Nat)
    (h : recognised c = false) : size_sum_switch H c rep ret = none := by
  unfold size_sum_switch
  split <;> first | (exact absurd h (by decide)) | (simp [recognised] at h; simp [h])

theorem size_sum_switch_marker (H : Host) (c : Char) (rep ret : Nat)
    (h : is_marker c = true) : size_sum_switch H c rep ret = some (rep, ret) := by
  have h' : c = '=' ∨ c = '<' ∨ c = '>' ∨ c = '!' := by simpa [is_marker] using h
  rcases h' with h | h | h | h
  all_goals subst h; rfl

/-- A recognised character is a directive, a marker or a digit, and these
exclude each other. -/
theorem recognised_cases (c : Char) (h : recognised c = true) :
    (is_directive c = true ∧ isdigit c = false) ∨ (is_marker c = true ∧ isdigit c = false)
      ∨ isdigit c = true := by
  by_cases hd : isdigit c = true
  · exact Or.inr (Or.inr hd)
  · have hd' : isdigit c = false := by simpa using hd
    simp only [recognised, hd', Bool.or_false, Bool.or_eq_true] at h
    rcases h with h | h
    · exact Or.inl ⟨h, hd'⟩
    · exact Or.inr (Or.inl ⟨h, hd'⟩)

theorem unpack_switch_isSome (H : Host) (buf : List Nat) (c : Char) (rep : Nat)
    (s : UnpackState) (h : recognised c = true) :
    ∃ r, unpack_switch H buf c rep s = some r := by
  rcases recognised_cases c h with ⟨hd, _⟩ | ⟨hm, _⟩ | hd
  · rcases mem_directives c hd with
      h | h | h | h | h | h | h | h | h | h | h | h | h | h | h | h | h
    all_goals subst h; exact ⟨_, rfl⟩
  · have h' : c = '=' ∨ c = '<' ∨ c = '>' ∨ c = '!' := by simpa [is_marker] using hm
    rcases h' with h | h | h | h
    all_goals subst h; exact ⟨_, rfl⟩
  · exact ⟨_, unpack_switch_digit H buf c rep s hd⟩

theorem pack_switch_isSome (H : Host) (mem : List Nat) (c : Char) (rep : Nat)
    (s : PackState) (h : recognised c = true) :
    ∃ r, pack_switch H mem c rep s = some r := by
  rcases recognised_cases c h with ⟨hd, _⟩ | ⟨hm, _⟩ | hd
  · exact ⟨_, pack_switch_directive H mem c rep s hd⟩
  · exact ⟨_, pack_switch_marker H mem c rep s hm⟩
  · exact ⟨_, pack_switch_digit H mem c rep s hd⟩

theorem size_sum_switch_isSome (H : Host) (c : Char) (rep ret : Nat)
    (h : recognised c = true) : ∃ r, size_sum_switch H c rep ret = some r := by
  rcases recognised_cases c h with ⟨hd, _⟩ | ⟨hm, _⟩ | hd
  · exact ⟨_, size_sum_switch_directive H c rep ret hd⟩
  · exact ⟨_, size_sum_switch_marker H c rep ret hm⟩
  · exact ⟨_, size_sum_switch_digit H c rep ret hd⟩

/-- The walk of `pack_va_list` succeeds exactly on the formats all of whose
characters are recognised. -/
theorem pack_loop_ok (H : Host) (mem : List Nat) (fmt : List Char) :
    ∀ (rep : Nat) (s : PackState), (pack_loop H mem fmt rep s).1 = fmt.all recognised := by
  induction fmt with
  | nil => intro rep s; rfl
  | cons c p ih =>
    intro rep s
    by_cases hc : recognised c = true
    · obtain ⟨r, hr⟩ := pack_switch_isSome H mem c rep s hc
      simp only [pack_loop, hr, ih, List.all_cons, hc, Bool.true_and]
    · have hc' : recognised c = false := by simpa using hc
      simp only [pack_loop, pack_switch_other H mem c rep s hc', List.all_cons, hc',
        Bool.false_and]

theorem unpack_loop_ok (H : Host) (buf : List Nat) (fmt : List Char) :
    ∀ (rep : Nat) (s : UnpackState),
      (unpack_loop H buf fmt rep s).1 = fmt.all recognised := by
  induction fmt with
  | nil => intro rep s; rfl
  | cons c p ih =>
    intro rep s
    by_cases hc : recognised c = true
    · obtain ⟨r, hr⟩ := unpack_switch_isSome H buf c rep s hc
      simp only [unpack_loop, hr, ih, List.all_cons, hc, Bool.true_and]
    · have hc' : recognised c = false := by simpa using hc
      simp only [unpack_loop, unpack_switch_other H buf c rep s hc', List.all_cons, hc',
        Bool.false_and]

theorem size_sum_loop_ok (H : Host) (fmt : List Char) :
    ∀ (rep ret : Nat), (size_sum_loop H fmt rep ret).isSome = fmt.all recognised := by
  induction fmt with
  | nil => intro rep ret; rfl
  | cons c p ih =>
    intro rep ret
    by_cases hc : recognised c = true
    · obtain ⟨r, hr⟩ := size_sum_switch_isSome H c rep ret hc
      simp only [size_sum_loop, hr, ih, List.all_cons, hc, Bool.true_and]
    · have hc' : recognised c = false := by simpa using hc
      simp only [size_sum_loop, size_sum_switch_other H c rep ret hc', List.all_cons, hc',
        Bool.false_and, Option.isSome_none]

theorem all_recognised_false_iff (fmt : List Char) :
    fmt.all recognised = false ↔ ∃ c ∈ fmt, recognised c = false := by
  induction fmt with
  | nil => simp
  | cons c p ih =>
    simp only [List.all_cons, Bool.and_eq_false_iff, ih, List.mem_cons, exists_eq_or_imp]

/-! ## Sizes -/

/-- The repetition loop runs its body once from a counter of 0 and `rep` times
from a positive counter. -/
theorem repetition_eq_iterate {σ : Type} (f : σ → σ) (rep : Nat) (s : σ) :
    repetition f rep s = f^[max rep 1] s := by
  induction rep generalizing s with
  | zero => rfl
  | succ n ih =>
    unfold repetition
    by_cases hn : n > 0
    · simp only [hn, if_true]
      rw [ih (f s)]
      have e1 : max n 1 = n := by omega
      have e2 : max (n + 1) 1 = n + 1 := by omega
      rw [e1, e2, Function.iterate_succ_apply]
    · have : n = 0 := by omega
      subst this
      simp

theorem iterate_add_const (a k ret : Nat) : (fun ret => ret + a)^[k] ret = ret + k * a := by
  induction k generalizing ret with
  | zero => simp
  | succ k ih => rw [Function.iterate_succ_apply, ih]; ring

/-- The encoder loop stores at most `j` continuation bytes for a value below
`128 ^ (j + 1)`. -/
theorem pack_varint_loop_length (fuel : Nat) :
    ∀ (bytes val j : Nat), val < 128 ^ (j + 1) →
      (pack_varint_loop fuel bytes [] val).1.length ≤ j := by
  induction fuel with
  | zero => intro bytes val j _; simp [pack_varint_loop]
  | succ fuel ih =>
    intro bytes val j hv
    unfold pack_varint_loop
    by_cases h : val ≥ 0x80 ∧ bytes < 10
    · rw [if_pos h, pack_varint_loop_append]
      cases j with
      | zero => simp at hv; omega
      | succ j =>
        have hv' : val >>> 7 < 128 ^ (j + 1) := by
          rw [Nat.shiftRight_eq_div_pow]
          apply Nat.div_lt_of_lt_mul
          have : (128 : Nat) ^ (j + 1 + 1) = 2 ^ 7 * 128 ^ (j + 1) := by ring
          omega
        have := ih (bytes + 1) (val >>> 7) j hv'
        simp only [List.nil_append, List.length_append, List.length_cons, List.length_nil]
        omega
    · rw [if_neg h]; simp

theorem length_pack_varint (bp : List Nat) (v : Nat) (e : Endian) :
    (pack_varint bp v e).length ≤ bp.length + 10 ∧ bp.length + 1 ≤ (pack_varint bp v e).length := by
  rw [pack_varint_append]
  have h := pack_varint_loop_length 10 0 (v % 2 ^ 64) 9
    (lt_of_lt_of_le (Nat.mod_lt _ (by norm_num)) (by norm_num))
  simp only [pack_varint, List.nil_append, List.length_append, List.length_cons,
    List.length_nil]
  omega

theorem length_pack_signed_varint (bp : List Nat) (v : Int) (e : Endian) :
    (pack_signed_varint bp v e).length ≤ bp.length + 10
      ∧ bp.length + 1 ≤ (pack_signed_varint bp v e).length := by
  unfold pack_signed_varint
  exact length_pack_varint _ _ _

/-- One execution of a type directive stores at most the number of bytes
`struct_calcsize` counts for it, and exactly that number unless the directive
is a varint. -/
theorem pack_body_length (H : Host) (mem : List Nat) (c : Char) (s : PackState)
    (hint : H.sizeof_int = 2 ∨ H.sizeof_int = 4) (hc : is_directive c = true) :
    (pack_body H mem c s).bp.length ≤ s.bp.length + calc_size H c ∧
    (is_varint c = false → (pack_body H mem c s).bp.length = s.bp.length + calc_size H c) := by
  rcases mem_directives c hc with
    h | h | h | h | h | h | h | h | h | h | h | h | h | h | h | h | h
  all_goals subst h
  all_goals simp only [pack_body, calc_size, pack_float, pack_double, length_pack_int16_t,
    length_pack_int32_t, length_pack_int64_t, List.length_append, List.length_cons,
    List.length_nil]
  all_goals first
    | exact ⟨le_refl _, fun _ => rfl⟩
    | (rcases hint with h2 | h4
       · simp [h2, length_pack_int16_t]
       · simp [h4, length_pack_int32_t])
    | exact ⟨(length_pack_signed_varint _ _ _).1, fun h => absurd h (by decide)⟩
    | exact ⟨(length_pack_varint _ _ _).1, fun h => absurd h (by decide)⟩

theorem iterate_pack_body_length (H : Host) (mem : List Nat) (c : Char)
    (hint : H.sizeof_int = 2 ∨ H.sizeof_int = 4) (hc : is_directive c = true) (k : Nat) :
    ∀ s : PackState,
      ((pack_body H mem c)^[k] s).bp.length ≤ s.bp.length + k * calc_size H c ∧
      (is_varint c = false →
        ((pack_body H mem c)^[k] s).bp.length = s.bp.length + k * calc_size H c) := by
  induction k with
  | zero => intro s; simp
  | succ k ih =>
    intro s
    rw [Function.iterate_succ_apply]
    have h1 := pack_body_length H mem c s hint hc
    have h2 := ih (pack_body H mem c s)
    have e : (k + 1) * calc_size H c = k * calc_size H c + calc_size H c := by ring
    refine ⟨by omega, fun hv => ?_⟩
    have := h1.2 hv
    have := h2.2 hv
    omega

/-- Lockstep of `pack_va_list` and `struct_calcsize` on a format of recognised
characters: both walks succeed, and the bytes stored stay within the size
counted, with equality when no varint directive occurs. -/
theorem pack_calcsize_lockstep (H : Host) (mem : List Nat)
    (hint : H.sizeof_int = 2 ∨ H.sizeof_int = 4) (fmt : List Char) :
    ∀ (rep : Nat) (s : PackState) (ret : Nat), (∀ c ∈ fmt, recognised c = true) →
      ∃ s2 ret2, pack_loop H mem fmt rep s = (true, s2) ∧
        size_sum_loop H fmt rep ret = some ret2 ∧
        s2.bp.length + ret ≤ ret2 + s.bp.length ∧
        ((∀ c ∈ fmt, is_varint c = false) → s2.bp.length + ret = ret2 + s.bp.length) := by
  induction fmt with
  | nil => intro rep s ret _; exact ⟨s, ret, rfl, rfl, by omega, fun _ => by omega⟩
  | cons c p ih =>
    intro rep s ret hall
    have hc : recognised c = true := hall c (List.mem_cons_self _ _)
    have hp : ∀ c ∈ p, recognised c = true := fun x hx => hall x (List.mem_cons_of_mem _ hx)
    rcases recognised_cases c hc with ⟨hd, hnd⟩ | ⟨hm, hnd⟩ | hd
    · obtain ⟨s2, ret2, h1, h2, h3, h4⟩ := ih 0 (repetition (pack_body H mem c) rep s)
        (repetition (fun ret => ret + calc_size H c) rep ret) hp
      refine ⟨s2, ret2, ?_, ?_, ?_, ?_⟩
      · simp only [pack_loop, pack_switch_directive H mem c rep s hd, hnd]; exact h1
      · simp only [size_sum_loop, size_sum_switch_directive H c rep ret hd, hnd]; exact h2
      · rw [repetition_eq_iterate, repetition_eq_iterate, iterate_add_const] at h3
        have := (iterate_pack_body_length H mem c hint hd (max rep 1) s).1
        omega
      · intro hv
        have hvc : is_varint c = false := hv c (List.mem_cons_self _ _)
        have h4' := h4 (fun x hx => hv x (List.mem_cons_of_mem _ hx))
        rw [repetition_eq_iterate, repetition_eq_iterate, iterate_add_const] at h4'
        have := (iterate_pack_body_length H mem c hint hd (max rep 1) s).2 hvc
        omega
    · obtain ⟨s2, ret2, h1, h2, h3, h4⟩ := ih 0 { s with ep := marker_order H c } ret hp
      refine ⟨s2, ret2, ?_, ?_, h3, fun hv => h4 (fun x hx => hv x (List.mem_cons_of_mem _ hx))⟩
      · simp only [pack_loop, pack_switch_marker H mem c rep s hm, hnd]; exact h1
      · simp only [size_sum_loop, size_sum_switch_marker H c rep ret hm, hnd]; exact h2
    · obtain ⟨s2, ret2, h1, h2, h3, h4⟩ := ih (INC_REPETITION rep c) s ret hp
      refine ⟨s2, ret2, ?_, ?_, h3, fun hv => h4 (fun x hx => hv x (List.mem_cons_of_mem _ hx))⟩
      · simp only [pack_loop, pack_switch_digit H mem c rep s hd, hd]; exact h1
      · simp only [size_sum_loop, size_sum_switch_digit H c rep ret hd, hd]; exact h2

/-! ## Conversion to `int` -/

theorem int_bits_ge (H : Host) : 16 ≤ int_bits H := le_max_left _ _

theorem two_pow_int_bits (H : Host) :
    (2 : Int) ^ int_bits H = 2 * 2 ^ (int_bits H - 1) ∧ (32768 : Int) ≤ 2 ^ (int_bits H - 1) := by
  have h := int_bits_ge H
  obtain ⟨k, hk⟩ : ∃ k, int_bits H = k + 16 := ⟨int_bits H - 16, by omega⟩
  rw [hk]
  have e : k + 16 - 1 = k + 15 := by omega
  rw [e]
  have hp : (1 : Int) ≤ 2 ^ k := one_le_pow₀ (by norm_num)
  constructor
  · rw [pow_succ]; ring
  · rw [pow_add]; norm_num; linarith

theorem to_int_emod (H : Host) (x : Int) : to_int H x % 2 ^ int_bits H = x % 2 ^ int_bits H := by
  unfold to_int
  split
  · exact Int.emod_emod_of_dvd _ (dvd_refl _)
  · rw [Int.sub_emod, Int.emod_self, sub_zero, Int.emod_emod_of_dvd _ (dvd_refl _),
      Int.emod_emod_of_dvd _ (dvd_refl _)]

theorem to_int_congr (H : Host) (x y : Int) (h : x % 2 ^ int_bits H = y % 2 ^ int_bits H) :
    to_int H x = to_int H y := by
  unfold to_int
  rw [h]

theorem to_int_add (H : Host) (a n : Int) : to_int H (to_int H a + n) = to_int H (a + n) := by
  apply to_int_congr
  rw [Int.add_emod, to_int_emod, ← Int.add_emod]

theorem to_int_of_fits (H : Host) (x : Int) (h0 : 0 ≤ x) (h1 : x ≤ INT_MAX H) :
    to_int H x = x := by
  obtain ⟨e, _⟩ := two_pow_int_bits H
  unfold INT_MAX at h1
  have hlt : x < 2 ^ int_bits H := by rw [e]; omega
  unfold to_int
  rw [Int.emod_eq_of_lt h0 hlt, if_pos (by omega)]

theorem to_int_range (H : Host) (x : Int) :
    -INT_MAX H - 1 ≤ to_int H x ∧ to_int H x ≤ INT_MAX H := by
  obtain ⟨e, _⟩ := two_pow_int_bits H
  have hpos : (0 : Int) < 2 ^ int_bits H := by positivity
  have h0 := Int.emod_nonneg x (ne_of_gt hpos)
  have h1 := Int.emod_lt_of_pos x hpos
  unfold to_int INT_MAX
  split <;> constructor <;> omega

theorem to_int_nonneg_of_fits (H : Host) (n : Nat) (h : (n : Int) ≤ INT_MAX H) :
    0 ≤ to_int H n ∧ to_int H n ≠ -1 := by
  rw [to_int_of_fits H n (by omega) h]
  constructor <;> omega

theorem to_int_small (H : Host) (x : Int) (h0 : 0 ≤ x) (h1 : x < 32768) : to_int H x = x := by
  apply to_int_of_fits H x h0
  obtain ⟨_, h⟩ := two_pow_int_bits H
  unfold INT_MAX
  omega

/-! ## The size counted, without and with the conversion to `int` -/

theorem calcsize_switch_directive (H : Host) (c : Char) (rep : Nat) (ret : Int)
    (h : is_directive c = true) :
    calcsize_switch H c rep ret
      = some (rep, repetition (fun ret => add_ret H ret (calc_size H c)) rep ret) := by
  rcases mem_directives c h with h | h | h | h | h | h | h | h | h | h | h | h | h | h | h | h | h
  all_goals subst h; rfl

theorem calcsize_switch_digit (H : Host) (c : Char) (rep : Nat) (ret : Int)
    (h : isdigit c = true) : calcsize_switch H c rep ret = some (INC_REPETITION rep c, ret) := by
  unfold calcsize_switch
  split <;> first | (exact absurd h (by decide)) | simp [h]

theorem calcsize_switch_other (H : Host) (c : Char) (rep : Nat) (ret : Int)
    (h : recognised c = false) : calcsize_switch H c rep ret = none := by
  unfold calcsize_switch
  split <;> first | (exact absurd h (by decide)) | (simp [recognised] at h; simp [h])

theorem calcsize_switch_marker (H : Host) (c : Char) (rep : Nat) (ret : Int)
    (h : is_marker c = true) : calcsize_switch H c rep ret = some (rep, ret) := by
  have h' : c = '=' ∨ c = '<' ∨ c = '>' ∨ c = '!' := by simpa [is_marker] using h
  rcases h' with h | h | h | h
  all_goals subst h; rfl

theorem iterate_add_ret (H : Host) (a k : Nat) :
    ∀ n : Nat, (fun ret => add_ret H ret a)^[k] (to_int H n) = to_int H ((n + k * a : Nat) : Int) := by
  induction k with
  | zero => intro n; simp
  | succ k ih =>
    intro n
    rw [Function.iterate_succ_apply]
    have e : add_ret H (to_int H n) a = to_int H ((n + a : Nat) : Int) := by
      unfold add_ret
      rw [to_int_add]
      push_cast
      rfl
    rw [e, ih]
    congr 2
    ring

/-- The total of `struct_calcsize` is the unbounded total converted to `int`:
the walk of `calcsize_loop` from the converted total `n` ends in the converted
end of the walk of `size_sum_loop` from `n`. -/
theorem calcsize_loop_eq (H : Host) (fmt : List Char) :
    ∀ (rep n : Nat), calcsize_loop H fmt rep (to_int H n)
      = (size_sum_loop H fmt rep n).map (fun m : Nat => to_int H (m : Int)) := by
  induction fmt with
  | nil => intro rep n; rfl
  | cons c p ih =>
    intro rep n
    by_cases hc : recognised c = true
    · rcases recognised_cases c hc with ⟨hd, hnd⟩ | ⟨hm, hnd⟩ | hd
      · simp only [calcsize_loop, size_sum_loop, calcsize_switch_directive H c rep _ hd,
          size_sum_switch_directive H c rep n hd, hnd, repetition_eq_iterate, iterate_add_const,
          iterate_add_ret]
        exact ih 0 _
      · simp only [calcsize_loop, size_sum_loop, calcsize_switch_marker H c rep _ hm,
          size_sum_switch_marker H c rep n hm, hnd]
        exact ih 0 n
      · simp only [calcsize_loop, size_sum_loop, calcsize_switch_digit H c rep _ hd,
          size_sum_switch_digit H c rep n hd, hd, if_true]
        exact ih _ n
    · have hc' : recognised c = false := by simpa using hc
      simp only [calcsize_loop, size_sum_loop, calcsize_switch_other H c rep _ hc',
        size_sum_switch_other H c rep n hc', Option.map_none']

theorem to_int_zero (H : Host) : to_int H 0 = 0 := to_int_small H 0 (by omega) (by omega)

theorem struct_calcsize_eq (H : Host) (fmt : List Char) :
    struct_calcsize H fmt
      = match size_sum_loop H fmt 0 0 with
        | none => -1
        | some n => to_int H (n : Int) := by
  have h := calcsize_loop_eq H fmt 0 0
  simp only [Nat.cast_zero, to_int_zero] at h
  unfold struct_calcsize
  rw [h]
  cases size_sum_loop H fmt 0 0 <;> rfl

theorem to_int_le32 (x : Int) :
    to_int host_le32 x = if x % 2 ^ 32 < 2 ^ 31 then x % 2 ^ 32 else x % 2 ^ 32 - 2 ^ 32 := rfl

/-- The return value of `struct_pack` after a walk that succeeds. -/
theorem struct_pack_of_loop (H : Host) (buf src : List Nat) (fmt : List Char) (s : PackState)
    (n : Nat)
    (h : pack_loop H src fmt 0 { ep := H.myendian, bp := [], src := 0 } = (true, s))
    (hn : s.bp.length = n) :
    (struct_pack H buf fmt src).1 = to_int H (n : Int) := by
  simp only [struct_pack, pack_va_list, h, if_true, Nat.zero_add, hn]

/-! ## Repetition -/

/-- Leading digits only build the counter. -/
theorem pack_loop_digits (H : Host) (mem : List Nat) (ds : List Char) :
    ∀ (rest : List Char) (rep : Nat) (s : PackState), (∀ c ∈ ds, isdigit c = true) →
      pack_loop H mem (ds ++ rest) rep s
        = pack_loop H mem rest (ds.foldl INC_REPETITION rep) s := by
  induction ds with
  | nil => intro rest rep s _; rfl
  | cons d ds ih =>
    intro rest rep s h
    have hd : isdigit d = true := h d (List.mem_cons_self _ _)
    simp only [List.cons_append, pack_loop, pack_switch_digit H mem d rep s hd, hd, if_true,
      List.foldl_cons]
    exact ih rest _ s (fun c hc => h c (List.mem_cons_of_mem _ hc))

theorem isdigit_of_directive (c : Char) (h : is_directive c = true) : isdigit c = false := by
  rcases mem_directives c h with
    h | h | h | h | h | h | h | h | h | h | h | h | h | h | h | h | h
  all_goals subst h; decide

theorem isdigit_of_marker (c : Char) (h : is_marker c = true) : isdigit c = false := by
  have h' : c = '=' ∨ c = '<' ∨ c = '>' ∨ c = '!' := by simpa [is_marker] using h
  rcases h' with h | h | h | h
  all_goals subst h; decide

/-- A type directive after a counter `rep` runs its body `max rep 1` times and
clears the counter. -/
theorem pack_loop_directive (H : Host) (mem : List Nat) (c : Char) (rest : List Char)
    (rep : Nat) (s : PackState) (hc : is_directive c = true) :
    pack_loop H mem (c :: rest) rep s
      = pack_loop H mem rest 0 ((pack_body H mem c)^[max rep 1] s) := by
  simp only [pack_loop, pack_switch_directive H mem c rep s hc, isdigit_of_directive c hc,
    repetition_eq_iterate]
  rfl

/-- C1, at the failing input.  On the little-endian host, the value array
holding the `long long` 0x0807060504030201 followed by the `short` 0x0A09 is
packed with `<qh`: the `h` field is read from offset 4 of the array, inside
the first value, and unpacking the result into a zeroed array leaves its last
two bytes untouched, so the array is not reproduced. -/
theorem roundtrip_qh_fails :
    struct_pack host_le32 [] ['<', 'q', 'h'] [1, 2, 3, 4, 5, 6, 7, 8, 9, 10]
      = (10, [1, 2, 3, 4, 5, 6, 7, 8, 5, 6]) ∧
    struct_unpack host_le32 [0, 0, 0, 0, 0, 0, 0, 0, 0, 0] ['<', 'q', 'h']
        (struct_pack host_le32 [] ['<', 'q', 'h'] [1, 2, 3, 4, 5, 6, 7, 8, 9, 10]).2
      = (10, [1, 2, 3, 4, 5, 6, 7, 8, 0, 0]) ∧
    (struct_unpack host_le32 [0, 0, 0, 0, 0, 0, 0, 0, 0, 0] ['<', 'q', 'h']
        (struct_pack host_le32 [] ['<', 'q', 'h'] [1, 2, 3, 4, 5, 6, 7, 8, 9, 10]).2).2
      ≠ [1, 2, 3, 4, 5, 6, 7, 8, 9, 10] := by
  decide

/-- C2, at the failing input.  On the big-endian host the `short` 0x0102 lies
in the value array as the bytes 1, 2; packed as `h` after `<` it is stored as
1, 2 and after `>` as 2, 1, the reverse of the byte orders the markers name.
This holds for every 16-bit value when the native order is big-endian. -/
theorem endianness_reversed_on_big_endian_host :
    (struct_pack host_be32 [] ['<', 'h'] [0x01, 0x02]).2 = [0x01, 0x02] ∧
    (struct_pack host_be32 [] ['>', 'h'] [0x01, 0x02]).2 = [0x02, 0x01] ∧
    (∀ v : Nat, v < 2 ^ 16 →
      pack_int16_t Endian.BIG [] v Endian.LITTLE = [v >>> 8, v &&& 0xFF] ∧
      pack_int16_t Endian.BIG [] v Endian.BIG = [v &&& 0xFF, v >>> 8]) := by
  refine ⟨by decide, by decide, ?_⟩
  intro v hv
  have e1 : v &&& 0xFF = v % 256 := Nat.and_pow_two_sub_one_eq_mod v 8
  have e2 : v % 2 ^ 16 = v := Nat.mod_eq_of_lt hv
  have e3 : v >>> 8 % 256 = v >>> 8 := by
    rw [Nat.shiftRight_eq_div_pow]; omega
  simp only [pack_int16_t, u8, e1, e2, e3, List.nil_append]
  exact ⟨if_neg (by decide), if_pos trivial⟩

/-- C8, at the failing input.  One execution of `q` advances the value cursor
by 4, not 8, in `pack_va_list` and in `unpack_va_list`, on every host; one
execution of `l` advances it by `sizeof(long)`, and one of `Q` by 8. -/
theorem value_cursor_stride_q (H : Host) (mem buf dst : List Nat) :
    (pack_va_list H 0 ['q'] mem).2.src = 4 ∧
    (unpack_va_list H buf 0 ['q'] dst).2.dst = 4 ∧
    (pack_va_list H 0 ['l'] mem).2.src = H.sizeof_long ∧
    (unpack_va_list H buf 0 ['l'] dst).2.dst = H.sizeof_long ∧
    (pack_va_list H 0 ['Q'] mem).2.src = 8 ∧
    (unpack_va_list H buf 0 ['Q'] dst).2.dst = 8 := by
  refine ⟨?_, ?_, ?_, ?_, ?_, ?_⟩ <;>
    simp [pack_va_list, unpack_va_list, pack_loop, unpack_loop, pack_switch, unpack_switch,
      repetition, isdigit]

/-! ## Varint shape and the decoder bound -/

theorem size_div_128 (val : Nat) (h : 128 ≤ val) : Nat.size val = Nat.size (val / 128) + 7 := by
  have h1 : 1 ≤ val / 128 := by omega
  have hpos : 0 < Nat.size (val / 128) := by
    rcases Nat.eq_zero_or_pos (Nat.size (val / 128)) with h0 | h0
    · rw [Nat.size_eq_zero] at h0; omega
    · exact h0
  apply le_antisymm
  · rw [Nat.size_le, pow_add]
    have := Nat.lt_size_self (val / 128)
    have e : (2 : Nat) ^ 7 = 128 := by norm_num
    rw [e]
    omega
  · have h2 : Nat.size (val / 128) - 1 < Nat.size (val / 128) := by omega
    rw [Nat.lt_size] at h2
    have h3 : Nat.size (val / 128) + 6 < Nat.size val := by
      rw [Nat.lt_size]
      have e : Nat.size (val / 128) + 6 = (Nat.size (val / 128) - 1) + 7 := by omega
      rw [e, pow_add]
      have e7 : (2 : Nat) ^ 7 = 128 := by norm_num
      rw [e7]
      omega
    omega

theorem varint_length_small (val : Nat) (h : val < 128) : varint_length val = 1 := by
  unfold varint_length
  have : Nat.size val ≤ 7 := Nat.size_le.mpr (by norm_num; omega)
  omega

theorem varint_length_step (val : Nat) (h : 128 ≤ val) :
    varint_length val = varint_length (val / 128) + 1 := by
  unfold varint_length
  rw [size_div_128 val h]
  have hpos : 0 < Nat.size (val / 128) := by
    rcases Nat.eq_zero_or_pos (Nat.size (val / 128)) with h0 | h0
    · rw [Nat.size_eq_zero] at h0; omega
    · exact h0
  omega

/-- Shape of what the encoder loop stores: with room for the value in the
iterations left, the number of bytes, their contents and the value kept for
the last byte. -/
theorem pack_varint_loop_shape (fuel : Nat) :
    ∀ (bytes val : Nat), bytes + fuel = 10 → val < 128 ^ (fuel + 1) →
      (pack_varint_loop fuel bytes [] val).1.length + 1 = varint_length val ∧
      (pack_varint_loop fuel bytes [] val).2
        = val / 128 ^ (pack_varint_loop fuel bytes [] val).1.length ∧
      (pack_varint_loop fuel bytes [] val).2 < 128 ∧
      ∀ i, i < (pack_varint_loop fuel bytes [] val).1.length →
        (pack_varint_loop fuel bytes [] val).1.getD i 0 = val / 128 ^ i % 128 + 128 := by
  induction fuel with
  | zero =>
    intro bytes val _ hv
    have hv' : val < 128 := by simpa using hv
    simp only [pack_varint_loop, List.length_nil, pow_zero, Nat.div_one]
    exact ⟨by rw [varint_length_small val hv'], trivial, hv', fun i hi => absurd hi (by omega)⟩
  | succ fuel ih =>
    intro bytes val hb hv
    by_cases h : val ≥ 0x80 ∧ bytes < 10
    · have hv' : val >>> 7 < 128 ^ (fuel + 1) := by
        rw [Nat.shiftRight_eq_div_pow]
        apply Nat.div_lt_of_lt_mul
        have : (128 : Nat) ^ (fuel + 1 + 1) = 2 ^ 7 * 128 ^ (fuel + 1) := by ring
        omega
      have e7 : val >>> 7 = val / 128 := by rw [Nat.shiftRight_eq_div_pow]
      obtain ⟨h1, h2, h3, h4⟩ := ih (bytes + 1) (val >>> 7) (by omega) hv'
      have hloop : pack_varint_loop (fuel + 1) bytes [] val
          = (u8 (val ||| 0x80) :: (pack_varint_loop fuel (bytes + 1) [] (val >>> 7)).1,
             (pack_varint_loop fuel (bytes + 1) [] (val >>> 7)).2) := by
        rw [pack_varint_loop, if_pos h, pack_varint_loop_append]
        rfl
      rw [hloop]
      simp only [List.length_cons]
      refine ⟨?_, ?_, h3, ?_⟩
      · rw [varint_length_step val h.1, ← e7, ← h1]
      · rw [h2, e7, pow_succ, Nat.div_div_eq_div_mul, Nat.mul_comm]
      · intro i hi
        cases i with
        | zero =>
          simp only [List.getD_cons_zero, pow_zero, Nat.div_one]
          have hlow := cont_byte_low val
          have hhigh := cont_byte_high val
          have hlt := u8_lt (val ||| 0x80)
          rw [and_7f] at hlow
          have hbit : u8 (val ||| 0x80) &&& 0x80 = (u8 (val ||| 0x80) / 128 % 2) * 128 := by
            have e : (0x80 : Nat) = 2 ^ 7 := by norm_num
            rw [e, Nat.and_two_pow, Nat.testBit_to_div_mod]
            have e2 : (2 : Nat) ^ 7 = 128 := by norm_num
            rw [e2]
            rcases Nat.mod_two_eq_zero_or_one (u8 (val ||| 128) / 128) with h0 | h0 <;>
              simp [h0]
          rw [hbit] at hhigh
          omega
        | succ i =>
          simp only [List.getD_cons_succ]
          rw [h4 i (by omega), e7, Nat.div_div_eq_div_mul, pow_succ, Nat.mul_comm]
    · have hv' : val < 0x80 := by omega
      have hloop : pack_varint_loop (fuel + 1) bytes [] val = ([], val) := by
        rw [pack_varint_loop, if_neg h]
      rw [hloop]
      simp only [List.length_nil, pow_zero, Nat.div_one]
      exact ⟨by rw [varint_length_small val hv'], trivial, hv', fun i hi => absurd hi (by omega)⟩

theorem and_80_eq (b : Nat) : b &&& 0x80 = (b / 128 % 2) * 128 := by
  have e : (0x80 : Nat) = 2 ^ 7 := by norm_num
  rw [e, Nat.and_two_pow, Nat.testBit_to_div_mod]
  have e2 : (2 : Nat) ^ 7 = 128 := by norm_num
  rw [e2]
  rcases Nat.mod_two_eq_zero_or_one (b / 128) with h0 | h0 <;> simp [h0]

theorem shr_7_mul (v i : Nat) : v >>> (7 * i) = v / 128 ^ i := by
  rw [Nat.shiftRight_eq_div_pow, pow_mul]
  norm_num

/-- C11. Varint encoding shape: for every unsigned 64-bit value `v`,
`pack_varint` stores exactly `max 1 (ceil (bitlength v / 7))` bytes, between 1
and 10, after the bytes already in the buffer; byte `i` carries the bits
`7 i .. 7 i + 6` of `v` in its low 7 bits; every byte but the last has the
continuation bit 0x80 set and the last has it clear.  0 is stored as `[0x00]`
and 300 as `[0xAC, 0x02]`. -/
theorem varint_shape (bp : List Nat) (v : Nat) (e : Endian) (hv : v < 2 ^ 64) :
    pack_varint bp v e = bp ++ pack_varint [] v e ∧
    (pack_varint [] v e).length = varint_length v ∧
    1 ≤ (pack_varint [] v e).length ∧ (pack_varint [] v e).length ≤ 10 ∧
    (∀ i, i < (pack_varint [] v e).length →
      (pack_varint [] v e).getD i 0 < 256 ∧
      (pack_varint [] v e).getD i 0 &&& 0x7f = (v >>> (7 * i)) &&& 0x7f ∧
      (pack_varint [] v e).getD i 0 &&& 0x80
        = if i + 1 < (pack_varint [] v e).length then 0x80 else 0) ∧
    pack_varint [] 0 e = [0x00] ∧ pack_varint [] 300 e = [0xAC, 0x02] := by
  have hmod : v % 2 ^ 64 = v := Nat.mod_eq_of_lt hv
  obtain ⟨h1, h2, h3, h4⟩ := pack_varint_loop_shape 10 0 v (by omega)
    (lt_of_lt_of_le hv (by norm_num))
  have hlen := length_pack_varint [] v e
  have henc : pack_varint [] v e
      = (pack_varint_loop 10 0 [] v).1 ++ [u8 (pack_varint_loop 10 0 [] v).2] := by
    simp only [pack_varint, hmod]
  have hlen2 : (pack_varint [] v e).length = (pack_varint_loop 10 0 [] v).1.length + 1 := by
    rw [henc]; simp
  refine ⟨pack_varint_append bp v e, by rw [hlen2, h1], by omega, by simpa using hlen.1,
    ?_, by cases e <;> decide, by cases e <;> decide⟩
  intro i hi
  rw [hlen2] at hi
  simp only [hlen2, and_7f, shr_7_mul, and_80_eq]
  rw [henc]
  by_cases hlt : i < (pack_varint_loop 10 0 [] v).1.length
  · have hget : ((pack_varint_loop 10 0 [] v).1
        ++ [u8 (pack_varint_loop 10 0 [] v).2]).getD i 0
        = (pack_varint_loop 10 0 [] v).1.getD i 0 := by
      simp only [List.getD_eq_getElem?_getD, List.getElem?_append_left hlt]
    rw [hget, h4 i hlt]
    have hm : v / 128 ^ i % 128 < 128 := Nat.mod_lt _ (by norm_num)
    have hif : i + 1 < (pack_varint_loop 10 0 [] v).1.length + 1 := by omega
    rw [if_pos hif]
    refine ⟨by omega, by omega, ?_⟩
    have : (v / 128 ^ i % 128 + 128) / 128 % 2 = 1 := by omega
    rw [this]
  · have hi' : i = (pack_varint_loop 10 0 [] v).1.length := by omega
    have hget : ((pack_varint_loop 10 0 [] v).1
        ++ [u8 (pack_varint_loop 10 0 [] v).2]).getD i 0
        = u8 (pack_varint_loop 10 0 [] v).2 := by
      rw [hi']
      simp [List.getD_eq_getElem?_getD]
    rw [hget, u8_of_lt _ (by omega)]
    have hif : ¬ (i + 1 < (pack_varint_loop 10 0 [] v).1.length + 1) := by omega
    rw [if_neg hif, hi', ← h2]
    refine ⟨by omega, by omega, ?_⟩
    have : (pack_varint_loop 10 0 [] v).2 / 128 % 2 = 0 := by omega
    rw [this]

theorem varint_shape_witness :
    ((2 ^ 63 + 300 : Nat) < 2 ^ 64) ∧
    (pack_varint [7] (2 ^ 63 + 300) Endian.LITTLE
        = [7] ++ pack_varint [] (2 ^ 63 + 300) Endian.LITTLE ∧
    (pack_varint [] (2 ^ 63 + 300) Endian.LITTLE).length = varint_length (2 ^ 63 + 300) ∧
    1 ≤ (pack_varint [] (2 ^ 63 + 300) Endian.LITTLE).length ∧
    (pack_varint [] (2 ^ 63 + 300) Endian.LITTLE).length ≤ 10 ∧
    (∀ i, i < (pack_varint [] (2 ^ 63 + 300) Endian.LITTLE).length →
      (pack_varint [] (2 ^ 63 + 300) Endian.LITTLE).getD i 0 < 256 ∧
      (pack_varint [] (2 ^ 63 + 300) Endian.LITTLE).getD i 0 &&& 0x7f
        = ((2 ^ 63 + 300) >>> (7 * i)) &&& 0x7f ∧
      (pack_varint [] (2 ^ 63 + 300) Endian.LITTLE).getD i 0 &&& 0x80
        = if i + 1 < (pack_varint [] (2 ^ 63 + 300) Endian.LITTLE).length then 0x80 else 0) ∧
    pack_varint [] 0 Endian.LITTLE = [0x00] ∧ pack_varint [] 300 Endian.LITTLE = [0xAC, 0x02]) :=
  ⟨by norm_num, varint_shape [7] (2 ^ 63 + 300) Endian.LITTLE (by norm_num)⟩


/-! ## Markers, malformed formats -/

/-- C12, at the failing input.  On ten bytes that all carry the continuation
bit, followed by further bytes, the loop of `unpack_varint` advances the cursor
ten times and the statement after the loop advances it once more: the cursor
ends 11 bytes after its start, not 10. -/
theorem unpack_varint_advances_eleven (e : Endian) :
    unpack_varint [0x80, 0x80, 0x80, 0x80, 0x80, 0x80, 0x80, 0x80, 0x80, 0x80, 0x01, 0x02] 0 e
      = (0, 11) ∧
    (unpack_varint [0xFF, 0xFF, 0xFF, 0xFF, 0xFF, 0xFF, 0xFF, 0xFF, 0xFF, 0xFF, 0x01, 0x02] 0 e).2
      = 11 := by
  cases e <;> exact ⟨by decide, by decide⟩

/-- C13, counterexample.  `struct_calcsize` of `2<h` is 2, of `2h` it is 4:
the marker clears the pending repeat count. -/
theorem calcsize_marker_counterexample :
    struct_calcsize host_le32 ['2', '<', 'h'] = 2 ∧
    struct_calcsize host_le32 (strip_markers ['2', '<', 'h']) = 4 ∧
    struct_calcsize host_le32 ['2', '<', 'h']
      ≠ struct_calcsize host_le32 (strip_markers ['2', '<', 'h']) := by
  decide

theorem size_sum_loop_strip (H : Host) (fmt : List Char) :
    ∀ (prev : Bool) (rep ret : Nat), (prev = false → rep = 0) →
      marker_after_digit prev fmt = false →
      size_sum_loop H fmt rep ret = size_sum_loop H (strip_markers fmt) rep ret := by
  induction fmt with
  | nil => intro prev rep ret _ _; rfl
  | cons c p ih =>
    intro prev rep ret hrep hno
    simp only [marker_after_digit, Bool.or_eq_false_iff, Bool.and_eq_false_iff] at hno
    by_cases hm : is_marker c = true
    · have hprev : prev = false := by
        rcases hno.1 with h | h
        · exact h
        · rw [hm] at h; exact absurd h (by decide)
      have hnd := isdigit_of_marker c hm
      have hstrip : strip_markers (c :: p) = strip_markers p := by
        simp [strip_markers, hm]
      rw [hstrip, hrep hprev]
      simp only [size_sum_loop, size_sum_switch_marker H c 0 ret hm, hnd]
      have hno2 : marker_after_digit false p = false := by
        have := hno.2
        rwa [hnd] at this
      exact ih false 0 ret (fun _ => rfl) hno2
    · have hm' : is_marker c = false := by simpa using hm
      have hstrip : strip_markers (c :: p) = c :: strip_markers p := by
        simp [strip_markers, hm']
      rw [hstrip]
      simp only [size_sum_loop]
      cases hsw : size_sum_switch H c rep ret with
      | none => rfl
      | some r =>
        simp only []
        apply ih (isdigit c) _ _ _ hno.2
        intro hd
        simp [hd]

/-- C13, amended.  For every format in which no endianness marker stands
directly after a digit (as in every format of the grammar, where a count is
followed by its directive), `struct_calcsize` returns the same result as on
the format with every endianness marker deleted. -/
theorem calcsize_ignores_markers (H : Host) (fmt : List Char)
    (h : marker_after_digit false fmt = false) :
    struct_calcsize H fmt = struct_calcsize H (strip_markers fmt) := by
  rw [struct_calcsize_eq, struct_calcsize_eq, size_sum_loop_strip H fmt false 0 0 (fun _ => rfl) h]

theorem calcsize_ignores_markers_witness :
    (marker_after_digit false ['<', '2', 'h', '!', 'V', '>'] = false) ∧
    struct_calcsize host_le32 ['<', '2', 'h', '!', 'V', '>']
      = struct_calcsize host_le32 (strip_markers ['<', '2', 'h', '!', 'V', '>']) :=
  ⟨by decide, calcsize_ignores_markers host_le32 ['<', '2', 'h', '!', 'V', '>'] (by decide)⟩

/-- A prefix of recognised characters is walked to a counter and a state from
which the rest of the format continues. -/
theorem pack_loop_prefix (H : Host) (mem : List Nat) (p : List Char) :
    ∀ (rep : Nat) (s : PackState), (∀ c ∈ p, recognised c = true) →
      ∃ rep2 s2, pack_loop H mem p rep s = (true, s2) ∧
        ∀ q, pack_loop H mem (p ++ q) rep s = pack_loop H mem q rep2 s2 := by
  induction p with
  | nil => intro rep s _; exact ⟨rep, s, rfl, fun _ => rfl⟩
  | cons c p ih =>
    intro rep s hall
    obtain ⟨r, hr⟩ := pack_switch_isSome H mem c rep s (hall c (List.mem_cons_self _ _))
    obtain ⟨rep2, s2, h1, h2⟩ := ih (if isdigit c then r.1 else 0) r.2
      (fun x hx => hall x (List.mem_cons_of_mem _ hx))
    refine ⟨rep2, s2, ?_, fun q => ?_⟩
    · simp only [pack_loop, hr]; exact h1
    · simp only [List.cons_append, pack_loop, hr]; exact h2 q

/-- C15. Partial write on a malformed format: for every format `p ++ c :: r`
where every character of `p` is recognised and `c` is not, `struct_pack`
returns -1 and leaves the buffer exactly as packing `p` alone leaves it (the
bytes of the directives of `p`, then the old contents), whatever `r` is. -/
theorem partial_write_on_malformed (H : Host) (buf src : List Nat) (p r : List Char) (c : Char)
    (hp : ∀ x ∈ p, recognised x = true) (hc : recognised c = false) :
    (struct_pack H buf (p ++ c :: r) src).1 = -1 ∧
    (struct_pack H buf (p ++ c :: r) src).2 = (struct_pack H buf p src).2 ∧
    (struct_pack H buf p src).2
      = (pack_va_list H 0 p src).2.bp ++ buf.drop (pack_va_list H 0 p src).2.bp.length := by
  obtain ⟨rep2, s2, h1, h2⟩ := pack_loop_prefix H src p 0
    { ep := H.myendian, bp := [], src := 0 } hp
  have h3 : pack_loop H src (p ++ c :: r) 0 { ep := H.myendian, bp := [], src := 0 }
      = (false, s2) := by
    rw [h2]
    simp only [pack_loop, pack_switch_other H src c rep2 s2 hc]
  simp [struct_pack, pack_va_list, h1, h3, overwrite]

theorem partial_write_on_malformed_witness :
    ((∀ x ∈ ['>', 'h', '2'], recognised x = true) ∧ recognised 'z' = false) ∧
    ((struct_pack host_le32 [9, 9, 9, 9] (['>', 'h', '2'] ++ 'z' :: ['h']) [1, 2, 3, 4]).1 = -1 ∧
    (struct_pack host_le32 [9, 9, 9, 9] (['>', 'h', '2'] ++ 'z' :: ['h']) [1, 2, 3, 4]).2
      = (struct_pack host_le32 [9, 9, 9, 9] ['>', 'h', '2'] [1, 2, 3, 4]).2 ∧
    (struct_pack host_le32 [9, 9, 9, 9] ['>', 'h', '2'] [1, 2, 3, 4]).2
      = (pack_va_list host_le32 0 ['>', 'h', '2'] [1, 2, 3, 4]).2.bp
        ++ [9, 9, 9, 9].drop (pack_va_list host_le32 0 ['>', 'h', '2'] [1, 2, 3, 4]).2.bp.length) :=
  ⟨⟨by decide, by decide⟩,
    partial_write_on_malformed host_le32 [9, 9, 9, 9] [1, 2, 3, 4] ['>', 'h', '2'] ['h'] 'z'
      (by decide) (by decide)⟩


/-! ## Endianness scope and the zig-zag mapping -/

/-- C14, at the failing input.  On the big-endian host the `short` values
0x0102, 0x0304 and the `int32_t` value 0x05060708 lie in the value array as the
bytes 1 .. 8.  Packed as "hhl" after `<` every field, the first and the later
ones alike, is stored most significant byte first, and after `>`, after `!`,
after `=` and without a marker every field is stored least significant byte
first: the scope of the marker is the whole sequence, but the byte order is
the reverse of the one the marker selects.  On the little-endian host, where
the same values lie as 2, 1, 4, 3, 8, 7, 6, 5, every field is stored in the
order the marker selects. -/
theorem endianness_scope_on_big_endian_host :
    (load host_be32.myendian [1, 2, 3, 4, 5, 6, 7, 8] 0 2 = 0x0102 ∧
      load host_be32.myendian [1, 2, 3, 4, 5, 6, 7, 8] 2 2 = 0x0304 ∧
      load host_be32.myendian [1, 2, 3, 4, 5, 6, 7, 8] 4 4 = 0x05060708 ∧
      load host_le32.myendian [2, 1, 4, 3, 8, 7, 6, 5] 0 2 = 0x0102 ∧
      load host_le32.myendian [2, 1, 4, 3, 8, 7, 6, 5] 2 2 = 0x0304 ∧
      load host_le32.myendian [2, 1, 4, 3, 8, 7, 6, 5] 4 4 = 0x05060708) ∧
    ((struct_pack host_be32 [] ['<', 'h', 'h', 'l'] [1, 2, 3, 4, 5, 6, 7, 8]).2
        = [1, 2, 3, 4, 5, 6, 7, 8] ∧
      (struct_pack host_be32 [] ['>', 'h', 'h', 'l'] [1, 2, 3, 4, 5, 6, 7, 8]).2
        = [2, 1, 4, 3, 8, 7, 6, 5] ∧
      (struct_pack host_be32 [] ['!', 'h', 'h', 'l'] [1, 2, 3, 4, 5, 6, 7, 8]).2
        = [2, 1, 4, 3, 8, 7, 6, 5] ∧
      (struct_pack host_be32 [] ['=', 'h', 'h', 'l'] [1, 2, 3, 4, 5, 6, 7, 8]).2
        = [2, 1, 4, 3, 8, 7, 6, 5] ∧
      (struct_pack host_be32 [] ['h', 'h', 'l'] [1, 2, 3, 4, 5, 6, 7, 8]).2
        = [2, 1, 4, 3, 8, 7, 6, 5]) ∧
    ((struct_pack host_le32 [] ['<', 'h', 'h', 'l'] [2, 1, 4, 3, 8, 7, 6, 5]).2
        = [2, 1, 4, 3, 8, 7, 6, 5] ∧
      (struct_pack host_le32 [] ['>', 'h', 'h', 'l'] [2, 1, 4, 3, 8, 7, 6, 5]).2
        = [1, 2, 3, 4, 5, 6, 7, 8] ∧
      (struct_pack host_le32 [] ['!', 'h', 'h', 'l'] [2, 1, 4, 3, 8, 7, 6, 5]).2
        = [1, 2, 3, 4, 5, 6, 7, 8] ∧
      (struct_pack host_le32 [] ['=', 'h', 'h', 'l'] [2, 1, 4, 3, 8, 7, 6, 5]).2
        = [2, 1, 4, 3, 8, 7, 6, 5] ∧
      (struct_pack host_le32 [] ['h', 'h', 'l'] [2, 1, 4, 3, 8, 7, 6, 5]).2
        = [2, 1, 4, 3, 8, 7, 6, 5]) := by
  decide

theorem xor_all_ones (x w : Nat) (h : x < 2 ^ w) : x ^^^ (2 ^ w - 1) = 2 ^ w - 1 - x := by
  apply Nat.eq_of_testBit_eq
  intro i
  have e : 2 ^ w - 1 - x = 2 ^ w - (x + 1) := by omega
  rw [e, Nat.testBit_xor, Nat.testBit_two_pow_sub_one, Nat.testBit_two_pow_sub_succ h]
  by_cases hi : i < w
  · simp [hi]
  · have : x.testBit i = false :=
      Nat.testBit_lt_two_pow (lt_of_lt_of_le h (Nat.pow_le_pow_right (by decide) (by omega)))
    simp [hi, this]

theorem to_uint64_of_nonneg (m : Nat) (h : m < 2 ^ 64) : to_uint64 (m : Int) = m := by
  unfold to_uint64
  have : (m : Int) % 2 ^ 64 = (m : Int) := by omega
  rw [this, Int.toNat_ofNat]

theorem to_uint64_negSucc (m : Nat) (h : m < 2 ^ 64) :
    to_uint64 (Int.negSucc m) = 2 ^ 64 - 1 - m := by
  unfold to_uint64
  have : (Int.negSucc m) % 2 ^ 64 = ((2 ^ 64 - 1 - m : Nat) : Int) := by
    have e1 : (Int.negSucc m) = -((m : Int) + 1) := by rfl
    omega
  rw [this, Int.toNat_ofNat]

/-- C16. Signed varint mapping equals standard zig-zag: for every signed
64-bit value `n`, the unsigned value `pack_signed_varint` hands to
`pack_varint` (shift left by 1, complement when `n < 0`) equals
`(n << 1) XOR (n >> 63)` on 64-bit patterns with the arithmetic right shift,
that is `2 n` for `n >= 0` and `-2 n - 1` for `n < 0`; -1 maps to 1 and is
stored as the single byte 0x01. -/
theorem signed_varint_is_zigzag (bp : List Nat) (n : Int) (e : Endian)
    (hlo : -2 ^ 63 ≤ n) (hhi : n < 2 ^ 63) :
    pack_signed_varint bp n e = pack_varint bp (signed_varint_uval n) e ∧
    signed_varint_uval n
      = ((to_uint64 n <<< 1) % 2 ^ 64) ^^^ to_uint64 (n >>> (63 : Nat)) ∧
    ((signed_varint_uval n : Int) = if 0 ≤ n then 2 * n else -2 * n - 1) ∧
    signed_varint_uval (-1) = 1 ∧ pack_signed_varint [] (-1) e = [0x01] := by
  refine ⟨rfl, ?_, ?_, by decide, by cases e <;> decide⟩
  · unfold signed_varint_uval
    by_cases hn : n < 0
    · have hshift : n >>> (63 : Nat) = -1 := by
        rw [Int.shiftRight_eq_div_pow]
        norm_num
        omega
      have hm1 : to_uint64 (-1) = 2 ^ 64 - 1 := by decide
      rw [if_pos hn, hshift, hm1, xor_all_ones _ 64 (Nat.mod_lt _ (by norm_num))]
    · have hshift : n >>> (63 : Nat) = 0 := by
        rw [Int.shiftRight_eq_div_pow]
        norm_num
        omega
      have h0 : to_uint64 0 = 0 := by decide
      rw [if_neg hn, hshift, h0, Nat.xor_zero]
  · unfold signed_varint_uval
    by_cases hn : n < 0
    · obtain ⟨m, rfl⟩ : ∃ m : Nat, n = Int.negSucc m := by
        cases n with
        | ofNat k => exact absurd hn (by simp)
        | negSucc k => exact ⟨k, rfl⟩
      have e1 : (Int.negSucc m) = -((m : Int) + 1) := by rfl
      have hm : m < 2 ^ 63 := by omega
      rw [if_pos hn, to_uint64_negSucc m (by omega), Nat.shiftLeft_eq, if_neg (by omega)]
      have h1 : 2 ^ 64 - 1 - (2 ^ 64 - 1 - m) * 2 ^ 1 % 2 ^ 64 = 2 * m + 1 := by omega
      rw [h1, e1]
      push_cast
      ring
    · obtain ⟨m, rfl⟩ : ∃ m : Nat, n = (m : Int) := ⟨n.toNat, by omega⟩
      have hm : m < 2 ^ 63 := by omega
      rw [if_neg hn, to_uint64_of_nonneg m (by omega), Nat.shiftLeft_eq, if_pos (by omega)]
      have h1 : m * 2 ^ 1 % 2 ^ 64 = 2 * m := by omega
      rw [h1]
      push_cast
      ring

theorem signed_varint_is_zigzag_witness :
    ((-2 ^ 63 : Int) ≤ -300 ∧ (-300 : Int) < 2 ^ 63) ∧
    (pack_signed_varint [7] (-300) Endian.BIG
        = pack_varint [7] (signed_varint_uval (-300)) Endian.BIG ∧
    signed_varint_uval (-300)
      = ((to_uint64 (-300) <<< 1) % 2 ^ 64) ^^^ to_uint64 ((-300 : Int) >>> (63 : Nat)) ∧
    ((signed_varint_uval (-300) : Int) = if (0 : Int) ≤ -300 then 2 * -300 else -2 * -300 - 1) ∧
    signed_varint_uval (-1) = 1 ∧ pack_signed_varint [] (-1) Endian.BIG = [0x01]) :=
  ⟨by norm_num, signed_varint_is_zigzag [7] (-300) Endian.BIG (by norm_num) (by norm_num)⟩


/-! ## The size computation against its reference -/

theorem size_sum_loop_digits (H : Host) (ds : List Char) :
    ∀ (rest : List Char) (rep ret : Nat), (∀ c ∈ ds, isdigit c = true) →
      size_sum_loop H (ds ++ rest) rep ret
        = size_sum_loop H rest (ds.foldl INC_REPETITION rep) ret := by
  induction ds with
  | nil => intro rest rep ret _; rfl
  | cons d ds ih =>
    intro rest rep ret h
    have hd : isdigit d = true := h d (List.mem_cons_self _ _)
    simp only [List.cons_append, size_sum_loop, size_sum_switch_digit H d rep ret hd, hd,
      if_true, List.foldl_cons]
    exact ih rest _ ret (fun c hc => h c (List.mem_cons_of_mem _ hc))

theorem size_sum_loop_directive (H : Host) (c : Char) (rest : List Char) (rep ret : Nat)
    (hc : is_directive c = true) :
    size_sum_loop H (c :: rest) rep ret
      = size_sum_loop H rest 0 (ret + max rep 1 * calc_size H c) := by
  simp only [size_sum_loop, size_sum_switch_directive H c rep ret hc,
    isdigit_of_directive c hc, repetition_eq_iterate, iterate_add_const]
  rfl

theorem unpack_loop_digits (H : Host) (buf : List Nat) (ds : List Char) :
    ∀ (rest : List Char) (rep : Nat) (s : UnpackState), (∀ c ∈ ds, isdigit c = true) →
      unpack_loop H buf (ds ++ rest) rep s
        = unpack_loop H buf rest (ds.foldl INC_REPETITION rep) s := by
  induction ds with
  | nil => intro rest rep s _; rfl
  | cons d ds ih =>
    intro rest rep s h
    have hd : isdigit d = true := h d (List.mem_cons_self _ _)
    simp only [List.cons_append, unpack_loop, unpack_switch_digit H buf d rep s hd, hd, if_true,
      List.foldl_cons]
    exact ih rest _ s (fun c hc => h c (List.mem_cons_of_mem _ hc))

theorem iterate_pack_x (H : Host) (mem : List Nat) (k : Nat) :
    ∀ s : PackState,
      (pack_body H mem 'x')^[k] s = { s with bp := s.bp ++ List.replicate k 0 } := by
  induction k with
  | zero => intro s; simp
  | succ k ih =>
    intro s
    rw [Function.iterate_succ_apply, ih]
    simp only [pack_body, List.append_assoc, List.singleton_append, List.replicate_succ]

theorem pack_loop_x (H : Host) (mem : List Nat) (rest : List Char) (rep : Nat) (s : PackState) :
    pack_loop H mem ('x' :: rest) rep s
      = pack_loop H mem rest 0 { s with bp := s.bp ++ List.replicate (max rep 1) 0 } := by
  rw [pack_loop_directive H mem 'x' rest rep s (by decide), iterate_pack_x]

theorem unpack_uint16_lt (my e : Endian) (buf : List Nat) (bp : Nat) :
    (unpack_uint16_t my buf bp e).1 < 2 ^ 16 := by
  unfold unpack_uint16_t
  split <;> exact Nat.mod_lt _ (by norm_num)

theorem unpack_uint32_lt (my e : Endian) (buf : List Nat) (bp : Nat) :
    (unpack_uint32_t my buf bp e).1 < 2 ^ 32 := by
  unfold unpack_uint32_t
  split <;> exact Nat.mod_lt _ (by norm_num)

theorem unpack_uint64_lt (my e : Endian) (buf : List Nat) (bp : Nat) :
    (unpack_uint64_t my buf bp e).1 < 2 ^ 64 := by
  unfold unpack_uint64_t
  split <;> exact Nat.mod_lt _ (by norm_num)

theorem unpack_int16_eq (my e : Endian) (buf : List Nat) (bp : Nat) :
    unpack_int16_t my buf bp e
      = (twos_complement 16 (unpack_uint16_t my buf bp e).1, (unpack_uint16_t my buf bp e).2) := by
  have hlt := unpack_uint16_lt my e buf bp
  unfold unpack_int16_t
  unfold unpack_uint16_t at hlt ⊢
  unfold twos_complement
  by_cases he : e = my
  · simp only [he, if_true] at hlt ⊢
    generalize (rd buf bp ||| rd buf (bp + 1) <<< 8) % 2 ^ 16 = u at hlt ⊢
    by_cases hu : u ≤ 0x7fff
    · rw [if_pos hu, if_pos (by norm_num; omega)]
    · rw [if_neg hu, if_neg (by norm_num; omega)]
      rw [Prod.mk.injEq]; exact ⟨by omega, rfl⟩
  · simp only [he, if_false] at hlt ⊢
    generalize ((rd buf bp <<< 8) % 2 ^ 16 ||| rd buf (bp + 1)) % 2 ^ 16 = u at hlt ⊢
    by_cases hu : u ≤ 0x7fff
    · rw [if_pos hu, if_pos (by norm_num; omega)]
    · rw [if_neg hu, if_neg (by norm_num; omega)]
      rw [Prod.mk.injEq]; exact ⟨by omega, rfl⟩

theorem unpack_int32_eq (my e : Endian) (buf : List Nat) (bp : Nat) :
    unpack_int32_t my buf bp e
      = (twos_complement 32 (unpack_uint32_t my buf bp e).1, (unpack_uint32_t my buf bp e).2) := by
  have hlt := unpack_uint32_lt my e buf bp
  unfold unpack_int32_t
  unfold unpack_uint32_t at hlt ⊢
  unfold twos_complement
  by_cases he : e = my
  · simp only [he, if_true] at hlt ⊢
    generalize (((rd buf bp ||| (rd buf (bp + 1) <<< 8) % 2 ^ 32) % 2 ^ 32
      ||| (rd buf (bp + 2) <<< 16) % 2 ^ 32) % 2 ^ 32
      ||| (rd buf (bp + 3) <<< 24) % 2 ^ 32) % 2 ^ 32 = u at hlt ⊢
    by_cases hu : u ≤ 0x7fffffff
    · rw [if_pos hu, if_pos (by norm_num; omega)]
    · rw [if_neg hu, if_neg (by norm_num; omega)]
      rw [Prod.mk.injEq]; exact ⟨by omega, rfl⟩
  · simp only [he, if_false] at hlt ⊢
    generalize ((((rd buf bp <<< 24) % 2 ^ 32 ||| (rd buf (bp + 1) <<< 16) % 2 ^ 32) % 2 ^ 32
      ||| (rd buf (bp + 2) <<< 8) % 2 ^ 32) % 2 ^ 32
      ||| rd buf (bp + 3) % 2 ^ 32) % 2 ^ 32 = u at hlt ⊢
    by_cases hu : u ≤ 0x7fffffff
    · rw [if_pos hu, if_pos (by norm_num; omega)]
    · rw [if_neg hu, if_neg (by norm_num; omega)]
      rw [Prod.mk.injEq]; exact ⟨by omega, rfl⟩

theorem unpack_int64_eq (my e : Endian) (buf : List Nat) (bp : Nat) :
    unpack_int64_t my buf bp e
      = (twos_complement 64 (unpack_uint64_t my buf bp e).1, (unpack_uint64_t my buf bp e).2) := by
  have hlt := unpack_uint64_lt my e buf bp
  unfold unpack_int64_t
  unfold unpack_uint64_t at hlt ⊢
  unfold twos_complement
  by_cases he : e = my
  · simp only [he, if_true] at hlt ⊢
    generalize (((((((rd buf bp ||| (rd buf (bp + 1) <<< 8) % 2 ^ 64) % 2 ^ 64
      ||| (rd buf (bp + 2) <<< 16) % 2 ^ 64) % 2 ^ 64
      ||| (rd buf (bp + 3) <<< 24) % 2 ^ 64) % 2 ^ 64
      ||| (rd buf (bp + 4) <<< 32) % 2 ^ 64) % 2 ^ 64
      ||| (rd buf (bp + 5) <<< 40) % 2 ^ 64) % 2 ^ 64
      ||| (rd buf (bp + 6) <<< 48) % 2 ^ 64) % 2 ^ 64
      ||| (rd buf (bp + 7) <<< 56) % 2 ^ 64) % 2 ^ 64 = u at hlt ⊢
    by_cases hu : u ≤ 0x7fffffffffffffff
    · rw [if_pos hu, if_pos (by norm_num; omega)]
    · rw [if_neg hu, if_neg (by norm_num; omega)]
      rw [Prod.mk.injEq]; exact ⟨by omega, rfl⟩
  · simp only [he, if_false] at hlt ⊢
    generalize ((((((((rd buf bp <<< 56) % 2 ^ 64 ||| (rd buf (bp + 1) <<< 48) % 2 ^ 64) % 2 ^ 64
      ||| (rd buf (bp + 2) <<< 40) % 2 ^ 64) % 2 ^ 64
      ||| (rd buf (bp + 3) <<< 32) % 2 ^ 64) % 2 ^ 64
      ||| (rd buf (bp + 4) <<< 24) % 2 ^ 64) % 2 ^ 64
      ||| (rd buf (bp + 5) <<< 16) % 2 ^ 64) % 2 ^ 64
      ||| (rd buf (bp + 6) <<< 8) % 2 ^ 64) % 2 ^ 64
      ||| rd buf (bp + 7) % 2 ^ 64) % 2 ^ 64 = u at hlt ⊢
    by_cases hu : u ≤ 0x7fffffffffffffff
    · rw [if_pos hu, if_pos (by norm_num; omega)]
    · rw [if_neg hu, if_neg (by norm_num; omega)]
      rw [Prod.mk.injEq]; exact ⟨by omega, rfl⟩

theorem twos_complement_range (w u : Nat) (hw : 1 ≤ w) (hu : u < 2 ^ w) :
    -(2 : Int) ^ (w - 1) ≤ twos_complement w u ∧ twos_complement w u ≤ 2 ^ (w - 1) - 1 := by
  have e : (2 : Nat) ^ w = 2 * 2 ^ (w - 1) := by
    rw [← pow_succ']; congr 1; omega
  have hpos : 0 < 2 ^ (w - 1) := Nat.pow_pos (by decide)
  have e' : (2 : Int) ^ w = 2 * 2 ^ (w - 1) := by exact_mod_cast e
  have hpos' : (0 : Int) < 2 ^ (w - 1) := by exact_mod_cast hpos
  unfold twos_complement
  by_cases h : u ≤ 2 ^ (w - 1) - 1
  · rw [if_pos h]
    have : (u : Int) ≤ 2 ^ (w - 1) - 1 := by
      have : ((u : Nat) : Int) ≤ ((2 ^ (w - 1) - 1 : Nat) : Int) := by exact_mod_cast h
      rw [Nat.cast_sub hpos] at this
      simpa using this
    constructor <;> omega
  · rw [if_neg h]
    have h1 : (2 : Int) ^ (w - 1) ≤ u := by
      have : 2 ^ (w - 1) ≤ u := by omega
      exact_mod_cast this
    have h2 : (u : Int) < 2 ^ w := by exact_mod_cast hu
    constructor <;> omega

theorem twos_complement_to_unsigned (n : Nat) (x : Int) (hn : 1 ≤ n)
    (hlo : -(2 : Int) ^ (8 * n - 1) ≤ x) (hhi : x < 2 ^ (8 * n - 1)) :
    twos_complement (8 * n) (to_unsigned n x % 2 ^ (8 * n)) = x := by
  have e : (2 : Int) ^ (8 * n) = 2 * 2 ^ (8 * n - 1) := by
    rw [← pow_succ']; congr 1; omega
  have en : (2 : Nat) ^ (8 * n) = 2 * 2 ^ (8 * n - 1) := by
    rw [← pow_succ']; congr 1; omega
  have hpos : (0 : Int) < 2 ^ (8 * n - 1) := by positivity
  have hposn : 0 < 2 ^ (8 * n - 1) := Nat.pow_pos (by decide)
  have hcast : ((2 ^ (8 * n - 1) : Nat) : Int) = 2 ^ (8 * n - 1) := by push_cast; rfl
  unfold twos_complement to_unsigned
  generalize hP : (2 : Int) ^ (8 * n - 1) = P at *
  generalize hQ : (2 : Nat) ^ (8 * n - 1) = Q at *
  rw [e, en]
  by_cases hx : 0 ≤ x
  · have h1 : x % (2 * P) = x := Int.emod_eq_of_lt hx (by omega)
    rw [h1]
    obtain ⟨m, rfl⟩ : ∃ m : Nat, x = (m : Int) := ⟨x.toNat, by omega⟩
    rw [Int.toNat_ofNat]
    have hm : m < Q := by omega
    rw [Nat.mod_eq_of_lt (by omega), if_pos (by omega)]
  · have h1 : x % (2 * P) = x + 2 * P := by
      rw [← Int.add_mul_emod_self_left x (2 * P) 1, mul_one]
      exact Int.emod_eq_of_lt (by omega) (by omega)
    rw [h1]
    obtain ⟨m, hm⟩ : ∃ m : Nat, x + 2 * P = (m : Int) := ⟨(x + 2 * P).toNat, by omega⟩
    rw [hm, Int.toNat_ofNat]
    have hm1 : Q ≤ m := by omega
    have hm2 : m < 2 * Q := by omega
    rw [Nat.mod_eq_of_lt hm2, if_neg (by omega)]
    omega

theorem twos_complement_16 (x : Int) (hlo : -2 ^ 15 ≤ x) (hhi : x < 2 ^ 15) :
    twos_complement 16 (to_unsigned 2 x % 2 ^ 16) = x :=
  twos_complement_to_unsigned 2 x (by decide) hlo hhi

theorem twos_complement_32 (x : Int) (hlo : -2 ^ 31 ≤ x) (hhi : x < 2 ^ 31) :
    twos_complement 32 (to_unsigned 4 x % 2 ^ 32) = x :=
  twos_complement_to_unsigned 4 x (by decide) hlo hhi

theorem twos_complement_64 (x : Int) (hlo : -2 ^ 63 ≤ x) (hhi : x < 2 ^ 63) :
    twos_complement 64 (to_unsigned 8 x % 2 ^ 64) = x :=
  twos_complement_to_unsigned 8 x (by decide) hlo hhi

/-- C20. Signed decoding is two's complement: for the widths 16, 32 and 64,
every buffer content and every byte order, the signed unpacker yields the
two's complement reading of the value the unsigned unpacker yields from the
same bytes (`u` up to `2 ^ (w - 1) - 1`, `u - 2 ^ w` above), within
`[-2 ^ (w - 1), 2 ^ (w - 1) - 1]`, and advances the cursor alike; hence packing
a signed value of that width and unpacking it returns the value. -/
theorem signed_decoding_twos_complement (my e : Endian) (buf : List Nat) (pos : Nat)
    (bp rest : List Nat) (x16 x32 x64 : Int)
    (h16 : -2 ^ 15 ≤ x16 ∧ x16 < 2 ^ 15) (h32 : -2 ^ 31 ≤ x32 ∧ x32 < 2 ^ 31)
    (h64 : -2 ^ 63 ≤ x64 ∧ x64 < 2 ^ 63) :
    (unpack_int16_t my buf pos e
        = (twos_complement 16 (unpack_uint16_t my buf pos e).1, (unpack_uint16_t my buf pos e).2)
      ∧ -2 ^ 15 ≤ (unpack_int16_t my buf pos e).1 ∧ (unpack_int16_t my buf pos e).1 ≤ 2 ^ 15 - 1
      ∧ unpack_int16_t my (pack_int16_t my bp (to_unsigned 2 x16) e ++ rest) bp.length e
          = (x16, bp.length + 2)) ∧
    (unpack_int32_t my buf pos e
        = (twos_complement 32 (unpack_uint32_t my buf pos e).1, (unpack_uint32_t my buf pos e).2)
      ∧ -2 ^ 31 ≤ (unpack_int32_t my buf pos e).1 ∧ (unpack_int32_t my buf pos e).1 ≤ 2 ^ 31 - 1
      ∧ unpack_int32_t my (pack_int32_t my bp (to_unsigned 4 x32) e ++ rest) bp.length e
          = (x32, bp.length + 4)) ∧
    (unpack_int64_t my buf pos e
        = (twos_complement 64 (unpack_uint64_t my buf pos e).1, (unpack_uint64_t my buf pos e).2)
      ∧ -2 ^ 63 ≤ (unpack_int64_t my buf pos e).1 ∧ (unpack_int64_t my buf pos e).1 ≤ 2 ^ 63 - 1
      ∧ unpack_int64_t my (pack_int64_t my bp (to_unsigned 8 x64) e ++ rest) bp.length e
          = (x64, bp.length + 8)) := by
  have r16 := twos_complement_range 16 _ (by decide) (unpack_uint16_lt my e buf pos)
  have r32 := twos_complement_range 32 _ (by decide) (unpack_uint32_lt my e buf pos)
  have r64 := twos_complement_range 64 _ (by decide) (unpack_uint64_lt my e buf pos)
  refine ⟨⟨unpack_int16_eq my e buf pos, ?_, ?_, ?_⟩, ⟨unpack_int32_eq my e buf pos, ?_, ?_, ?_⟩,
    ⟨unpack_int64_eq my e buf pos, ?_, ?_, ?_⟩⟩
  · rw [unpack_int16_eq]; exact r16.1
  · rw [unpack_int16_eq]; exact r16.2
  · rw [unpack_int16_eq, unpack_pack_uint16, twos_complement_16 x16 h16.1 h16.2]
  · rw [unpack_int32_eq]; exact r32.1
  · rw [unpack_int32_eq]; exact r32.2
  · rw [unpack_int32_eq, unpack_pack_uint32, twos_complement_32 x32 h32.1 h32.2]
  · rw [unpack_int64_eq]; exact r64.1
  · rw [unpack_int64_eq]; exact r64.2
  · rw [unpack_int64_eq, unpack_pack_uint64, twos_complement_64 x64 h64.1 h64.2]

theorem signed_decoding_twos_complement_witness :
    (((-2 ^ 15 : Int) ≤ -2 ∧ (-2 : Int) < 2 ^ 15) ∧ ((-2 ^ 31 : Int) ≤ -3 ∧ (-3 : Int) < 2 ^ 31)
      ∧ ((-2 ^ 63 : Int) ≤ -2 ^ 63 ∧ (-2 ^ 63 : Int) < 2 ^ 63)) ∧
    ((unpack_int16_t Endian.LITTLE [0xFF, 0xFE, 1, 2, 3, 4, 5, 0x80] 0 Endian.BIG
        = (twos_complement 16 (unpack_uint16_t Endian.LITTLE [0xFF, 0xFE, 1, 2, 3, 4, 5, 0x80] 0 Endian.BIG).1,
            (unpack_uint16_t Endian.LITTLE [0xFF, 0xFE, 1, 2, 3, 4, 5, 0x80] 0 Endian.BIG).2)
      ∧ -2 ^ 15 ≤ (unpack_int16_t Endian.LITTLE [0xFF, 0xFE, 1, 2, 3, 4, 5, 0x80] 0 Endian.BIG).1
      ∧ (unpack_int16_t Endian.LITTLE [0xFF, 0xFE, 1, 2, 3, 4, 5, 0x80] 0 Endian.BIG).1 ≤ 2 ^ 15 - 1
      ∧ unpack_int16_t Endian.LITTLE
            (pack_int16_t Endian.LITTLE [7] (to_unsigned 2 (-2)) Endian.BIG ++ [9])
            [7].length Endian.BIG
          = (-2, [7].length + 2)) ∧
    (unpack_int32_t Endian.LITTLE [0xFF, 0xFE, 1, 2, 3, 4, 5, 0x80] 0 Endian.BIG
        = (twos_complement 32 (unpack_uint32_t Endian.LITTLE [0xFF, 0xFE, 1, 2, 3, 4, 5, 0x80] 0 Endian.BIG).1,
            (unpack_uint32_t Endian.LITTLE [0xFF, 0xFE, 1, 2, 3, 4, 5, 0x80] 0 Endian.BIG).2)
      ∧ -2 ^ 31 ≤ (unpack_int32_t Endian.LITTLE [0xFF, 0xFE, 1, 2, 3, 4, 5, 0x80] 0 Endian.BIG).1
      ∧ (unpack_int32_t Endian.LITTLE [0xFF, 0xFE, 1, 2, 3, 4, 5, 0x80] 0 Endian.BIG).1 ≤ 2 ^ 31 - 1
      ∧ unpack_int32_t Endian.LITTLE
            (pack_int32_t Endian.LITTLE [7] (to_unsigned 4 (-3)) Endian.BIG ++ [9])
            [7].length Endian.BIG
          = (-3, [7].length + 4)) ∧
    (unpack_int64_t Endian.LITTLE [0xFF, 0xFE, 1, 2, 3, 4, 5, 0x80] 0 Endian.BIG
        = (twos_complement 64 (unpack_uint64_t Endian.LITTLE [0xFF, 0xFE, 1, 2, 3, 4, 5, 0x80] 0 Endian.BIG).1,
            (unpack_uint64_t Endian.LITTLE [0xFF, 0xFE, 1, 2, 3, 4, 5, 0x80] 0 Endian.BIG).2)
      ∧ -2 ^ 63 ≤ (unpack_int64_t Endian.LITTLE [0xFF, 0xFE, 1, 2, 3, 4, 5, 0x80] 0 Endian.BIG).1
      ∧ (unpack_int64_t Endian.LITTLE [0xFF, 0xFE, 1, 2, 3, 4, 5, 0x80] 0 Endian.BIG).1 ≤ 2 ^ 63 - 1
      ∧ unpack_int64_t Endian.LITTLE
            (pack_int64_t Endian.LITTLE [7] (to_unsigned 8 (-2 ^ 63)) Endian.BIG ++ [9])
            [7].length Endian.BIG
          = (-2 ^ 63, [7].length + 8))) :=
  ⟨by norm_num,
    signed_decoding_twos_complement Endian.LITTLE Endian.BIG [0xFF, 0xFE, 1, 2, 3, 4, 5, 0x80] 0
      [7] [9] (-2) (-3) (-2 ^ 63) (by norm_num) (by norm_num) (by norm_num)⟩

/-! ## Normal floating point values -/

theorem norm_halve_noop (fuel : Nat) (f : ℚ) (shift : Int) (h : f < 2) :
    norm_halve fuel f shift = (f, shift) := by
  cases fuel with
  | zero => rfl
  | succ n => rw [norm_halve, if_neg (not_le.mpr h)]

theorem norm_double_noop (fuel : Nat) (f : ℚ) (shift : Int) (h : 1 ≤ f) :
    norm_double fuel f shift = (f, shift) := by
  cases fuel with
  | zero => rfl
  | succ n => rw [norm_double, if_neg (not_lt.mpr h)]

theorem norm_halve_spec (j : Nat) :
    ∀ (fuel : Nat) (m : ℚ) (shift : Int), 1 ≤ m → m < 2 → j ≤ fuel →
      norm_halve fuel (m * 2 ^ j) shift = (m, shift + j) := by
  induction j with
  | zero =>
    intro fuel m shift _ h2 _
    simp only [pow_zero, mul_one, Nat.cast_zero, add_zero]
    exact norm_halve_noop fuel m shift h2
  | succ j ih =>
    intro fuel m shift h1 h2 hf
    obtain ⟨f, rfl⟩ : ∃ f, fuel = f + 1 := ⟨fuel - 1, by omega⟩
    have hge : m * 2 ^ (j + 1) ≥ 2 := by
      have hp : (1 : ℚ) ≤ 2 ^ j := one_le_pow₀ (by norm_num)
      have : m * 2 ^ (j + 1) = 2 * (m * 2 ^ j) := by ring
      rw [this]
      nlinarith
    rw [norm_halve, if_pos hge]
    have e : m * 2 ^ (j + 1) / 2 = m * 2 ^ j := by rw [pow_succ]; ring
    rw [e, ih f m (shift + 1) h1 h2 (by omega)]
    push_cast
    rw [add_assoc, add_comm 1 (j : Int)]

theorem norm_double_spec (j : Nat) :
    ∀ (fuel : Nat) (m : ℚ) (shift : Int), 1 ≤ m → m < 2 → j ≤ fuel →
      norm_double fuel (m / 2 ^ j) shift = (m, shift - j) := by
  induction j with
  | zero =>
    intro fuel m shift h1 _ _
    simp only [pow_zero, div_one, Nat.cast_zero, sub_zero]
    exact norm_double_noop fuel m shift h1
  | succ j ih =>
    intro fuel m shift h1 h2 hf
    obtain ⟨f, rfl⟩ : ∃ f, fuel = f + 1 := ⟨fuel - 1, by omega⟩
    have hlt : m / 2 ^ (j + 1) < 1 := by
      have hp : (1 : ℚ) ≤ 2 ^ j := one_le_pow₀ (by norm_num)
      rw [div_lt_one (by positivity), pow_succ]
      nlinarith
    rw [norm_double, if_pos hlt]
    have e : m / 2 ^ (j + 1) * 2 = m / 2 ^ j := by rw [pow_succ]; field_simp; ring
    rw [e, ih f m (shift - 1) h1 h2 (by omega)]
    push_cast
    rw [sub_sub, add_comm 1 (j : Int)]

/-- The numerator of a rational at least `2 ^ j` is at least `j`. -/
theorem num_natAbs_ge (x : ℚ) (j : Nat) (h : (2 : ℚ) ^ j ≤ x) : j ≤ x.num.natAbs := by
  have hx : 0 < x := lt_of_lt_of_le (by positivity) h
  have hnum : (0 : Int) < x.num := Rat.num_pos.mpr hx
  have hden : (1 : ℚ) ≤ x.den := by exact_mod_cast x.den_pos
  have hle : x ≤ x.num := by
    have h0 : (0 : ℚ) ≤ (x.num : ℚ) := by exact_mod_cast hnum.le
    calc x = x.num / x.den := (Rat.num_div_den x).symm
      _ ≤ x.num := div_le_self h0 hden
  have h2 : ((2 ^ j : Nat) : ℚ) ≤ ((x.num.natAbs : Nat) : ℚ) := by
    have e : ((x.num.natAbs : Nat) : Int) = x.num := Int.natAbs_of_nonneg hnum.le
    have e' : ((x.num.natAbs : Nat) : ℚ) = (x.num : ℚ) := by
      have h0 := congrArg (fun z : Int => (z : ℚ)) e
      simp only [Int.cast_natCast] at h0
      exact h0
    rw [e']
    push_cast
    exact le_trans h hle
  have h3 : 2 ^ j ≤ x.num.natAbs := by exact_mod_cast h2
  exact le_trans (Nat.lt_two_pow j).le h3

/-- The denominator of a positive rational below `2 / 2 ^ j` is at least `j`. -/
theorem den_ge (x : ℚ) (j : Nat) (hpos : 0 < x) (h : x * 2 ^ j < 2) : j ≤ x.den := by
  cases j with
  | zero => exact Nat.zero_le _
  | succ j =>
    have hnum : (1 : ℚ) ≤ x.num := by
      have : (0 : Int) < x.num := Rat.num_pos.mpr hpos
      exact_mod_cast this
    have hdpos : (0 : ℚ) < x.den := by exact_mod_cast x.den_pos
    have hx : x * x.den = x.num := by
      exact Rat.mul_den_eq_num x
    have h1 : (2 : ℚ) ^ j < x.den := by
      have hp : (0 : ℚ) < 2 ^ j := by positivity
      rw [pow_succ] at h
      nlinarith
    have h2 : 2 ^ j < x.den := by exact_mod_cast h1
    have := Nat.lt_two_pow j
    omega

theorem normalise_normal (m : ℚ) (e : Int) (h1 : 1 ≤ m) (h2 : m < 2) :
    norm_double (norm_halve (m * (2 : ℚ) ^ e).num.natAbs (m * (2 : ℚ) ^ e) 0).1.den
        (norm_halve (m * (2 : ℚ) ^ e).num.natAbs (m * (2 : ℚ) ^ e) 0).1
        (norm_halve (m * (2 : ℚ) ^ e).num.natAbs (m * (2 : ℚ) ^ e) 0).2
      = (m, e) := by
  by_cases he : 0 ≤ e
  · obtain ⟨j, rfl⟩ : ∃ j : Nat, e = (j : Int) := ⟨e.toNat, by omega⟩
    rw [zpow_natCast]
    have hge : (2 : ℚ) ^ j ≤ m * 2 ^ j := by
      have hp : (0 : ℚ) < 2 ^ j := by positivity
      nlinarith
    rw [norm_halve_spec j _ m 0 h1 h2 (num_natAbs_ge _ j hge)]
    simp only [zero_add]
    exact norm_double_noop _ m _ h1
  · obtain ⟨j, rfl⟩ : ∃ j : Nat, e = -(j : Int) := ⟨(-e).toNat, by omega⟩
    rw [zpow_neg, zpow_natCast]
    have hp : (0 : ℚ) < 2 ^ j := by positivity
    have hdiv : m * ((2 : ℚ) ^ j)⁻¹ = m / 2 ^ j := by rw [div_eq_mul_inv]
    rw [hdiv]
    have hlt : m / 2 ^ j < 2 := by
      have : (1 : ℚ) ≤ 2 ^ j := one_le_pow₀ (by norm_num)
      rw [div_lt_iff₀ hp]
      nlinarith
    rw [norm_halve_noop _ _ _ hlt]
    have hpos : 0 < m / 2 ^ j := by positivity
    have hfuel : j ≤ (m / 2 ^ j).den := by
      apply den_ge _ j hpos
      rw [div_mul_cancel₀ _ (ne_of_gt hp)]
      exact h2
    rw [norm_double_spec j _ m 0 h1 h2 hfuel]
    simp

theorem trunc_significand (sb k : Nat) (hk : k < 2 ^ sb) :
    trunc_ll ((1 + (k : ℚ) / 2 ^ sb - 1) * float_add_half sb) = (k : Int) := by
  have hp : (0 : ℚ) < 2 ^ sb := by positivity
  have hkq : (k : ℚ) < 2 ^ sb := by exact_mod_cast hk
  have hk0 : (0 : ℚ) ≤ k := by positivity
  unfold float_add_half
  split
  · have e : (1 + (k : ℚ) / 2 ^ sb - 1) * ((2 : ℚ) ^ sb + 1 / 2) = k + k / (2 * 2 ^ sb) := by
      field_simp
      ring
    have hfrac0 : (0 : ℚ) ≤ k / (2 * 2 ^ sb) := by positivity
    have hfrac1 : (k : ℚ) / (2 * 2 ^ sb) < 1 := by
      rw [div_lt_one (by positivity)]
      linarith
    rw [e]
    unfold trunc_ll
    rw [if_pos (by linarith)]
    rw [Int.floor_eq_iff]
    push_cast
    constructor <;> linarith
  · have e : (1 + (k : ℚ) / 2 ^ sb - 1) * (2 : ℚ) ^ sb = k := by
      field_simp
    rw [e]
    unfold trunc_ll
    rw [if_pos hk0]
    exact Int.floor_natCast k

theorem pack_ieee754_finite (q : ℚ) (bits expbits : Nat) (hq : q ≠ 0) :
    pack_ieee754 (LongDouble.finite q) bits expbits
      = ((to_uint64 (if q < 0 then 1 else 0) <<< (bits - 1))
          ||| (to_uint64
                ((norm_double
                    (norm_halve (if q < 0 then -q else q).num.natAbs
                      (if q < 0 then -q else q) 0).1.den
                    (norm_halve (if q < 0 then -q else q).num.natAbs
                      (if q < 0 then -q else q) 0).1
                    (norm_halve (if q < 0 then -q else q).num.natAbs
                      (if q < 0 then -q else q) 0).2).2
                  + (2 ^ (expbits - 1) - 1)) <<< (bits - expbits - 1))
          ||| to_uint64 (trunc_ll
                (((norm_double
                    (norm_halve (if q < 0 then -q else q).num.natAbs
                      (if q < 0 then -q else q) 0).1.den
                    (norm_halve (if q < 0 then -q else q).num.natAbs
                      (if q < 0 then -q else q) 0).1
                    (norm_halve (if q < 0 then -q else q).num.natAbs
                      (if q < 0 then -q else q) 0).2).1 - 1)
                  * float_add_half (bits - expbits - 1)))) % 2 ^ 64 := by
  simp only [pack_ieee754, isinf, isnan, hq, if_false, ne_eq, not_true_eq_false,
    Bool.false_eq_true]

theorem normal_mantissa_bounds (sb k : Nat) (hk : k < 2 ^ sb) :
    (1 : ℚ) ≤ 1 + (k : ℚ) / 2 ^ sb ∧ 1 + (k : ℚ) / 2 ^ sb < 2 := by
  have hp : (0 : ℚ) < 2 ^ sb := by positivity
  have hkq : (k : ℚ) < 2 ^ sb := by exact_mod_cast hk
  have h0 : (0 : ℚ) ≤ (k : ℚ) / 2 ^ sb := by positivity
  have h1 : (k : ℚ) / 2 ^ sb < 1 := by rw [div_lt_one hp]; exact hkq
  constructor <;> linarith

/-- The generic path of `pack_ieee754` on a normal value: the three fields. -/
theorem pack_ieee754_normal (bits expbits : Nat) (s : Bool) (k : Nat) (e : Int)
    (hk : k < 2 ^ (bits - expbits - 1)) :
    pack_ieee754 (LongDouble.finite (normal_value (bits - expbits - 1) s k e)) bits expbits
      = ((to_uint64 (if s then 1 else 0) <<< (bits - 1))
          ||| (to_uint64 (e + (2 ^ (expbits - 1) - 1)) <<< (bits - expbits - 1))
          ||| to_uint64 (k : Int)) % 2 ^ 64 := by
  obtain ⟨hm1, hm2⟩ := normal_mantissa_bounds _ k hk
  have hmag : 0 < (1 + (k : ℚ) / 2 ^ (bits - expbits - 1)) * (2 : ℚ) ^ e := by positivity
  have hv : normal_value (bits - expbits - 1) s k e
      = if s then -((1 + (k : ℚ) / 2 ^ (bits - expbits - 1)) * (2 : ℚ) ^ e)
        else (1 + (k : ℚ) / 2 ^ (bits - expbits - 1)) * (2 : ℚ) ^ e := by
    unfold normal_value
    cases s
    · simp only [Bool.false_eq_true, if_false, one_mul]
    · simp only [if_true]; ring
  obtain ⟨A, hA⟩ : ∃ A : ℚ, A = (1 + (k : ℚ) / 2 ^ (bits - expbits - 1)) * (2 : ℚ) ^ e :=
    ⟨_, rfl⟩
  rw [← hA] at hmag hv
  have hne : normal_value (bits - expbits - 1) s k e ≠ 0 := by
    rw [hv]; cases s
    · simp only [Bool.false_eq_true, if_false]; exact ne_of_gt hmag
    · simp only [if_true]; exact neg_ne_zero.mpr (ne_of_gt hmag)
  have habs : (if normal_value (bits - expbits - 1) s k e < 0
        then -normal_value (bits - expbits - 1) s k e
        else normal_value (bits - expbits - 1) s k e) = A := by
    rw [hv]; cases s
    · simp only [Bool.false_eq_true, if_false]
      rw [if_neg (not_lt.mpr hmag.le)]
    · simp only [if_true]
      rw [if_pos (by linarith), neg_neg]
  have hsign : (if normal_value (bits - expbits - 1) s k e < 0 then (1 : Int) else 0)
      = if s then 1 else 0 := by
    rw [hv]; cases s
    · simp only [Bool.false_eq_true, if_false]
      rw [if_neg (not_lt.mpr hmag.le)]
    · simp only [if_true]
      rw [if_pos (by linarith)]
  rw [pack_ieee754_finite _ _ _ hne, habs, hsign, hA, normalise_normal _ e hm1 hm2]
  simp only [trunc_significand _ k hk]

theorem scale_up_eq (n : Nat) : ∀ r : ℚ, scale_up n r = r * 2 ^ n := by
  induction n with
  | zero => intro r; simp [scale_up]
  | succ n ih => intro r; rw [scale_up, ih, pow_succ]; ring

theorem scale_down_eq (n : Nat) : ∀ r : ℚ, scale_down n r = r / 2 ^ n := by
  induction n with
  | zero => intro r; simp [scale_down]
  | succ n ih => intro r; rw [scale_down, ih, pow_succ, div_div, mul_comm]

theorem scale_zpow (r : ℚ) (e : Int) :
    scale_down (-e).toNat (scale_up e.toNat r) = r * (2 : ℚ) ^ e := by
  rw [scale_up_eq, scale_down_eq]
  by_cases he : 0 ≤ e
  · obtain ⟨j, rfl⟩ : ∃ j : Nat, e = (j : Int) := ⟨e.toNat, by omega⟩
    have h1 : (-(j : Int)).toNat = 0 := by omega
    rw [h1, Int.toNat_ofNat, zpow_natCast]
    simp
  · obtain ⟨j, rfl⟩ : ∃ j : Nat, e = -(j : Int) := ⟨(-e).toNat, by omega⟩
    have h1 : (-(j : Int)).toNat = 0 := by omega
    have h2 : (- -(j : Int)).toNat = j := by omega
    rw [h1, h2, zpow_neg, zpow_natCast]
    simp [div_eq_mul_inv]

theorem ieee_pattern_32 (s : Bool) (k : Nat) (e : Int) (hk : k < 2 ^ 23)
    (he : -126 ≤ e ∧ e ≤ 127) :
    ieee_pattern 32 23 127 s k e
      = (if s then 1 else 0) * 2 ^ 31 + (e + 127).toNat * 2 ^ 23 + k := by
  unfold ieee_pattern
  have hE : (e + 127).toNat ≤ 254 := by omega
  have hS : (if s then 1 else 0 : Nat) ≤ 1 := by cases s <;> simp
  simp only [Nat.shiftLeft_eq, Nat.reduceSub]
  rw [lor_eq_add_of_dvd _ _ 31 (Dvd.intro_left _ rfl) (by omega),
    lor_eq_add_of_dvd _ _ 23 (by omega) hk]

theorem ieee_pattern_64 (s : Bool) (k : Nat) (e : Int) (hk : k < 2 ^ 52)
    (he : -1022 ≤ e ∧ e ≤ 1023) :
    ieee_pattern 64 52 1023 s k e
      = (if s then 1 else 0) * 2 ^ 63 + (e + 1023).toNat * 2 ^ 52 + k := by
  unfold ieee_pattern
  have hE : (e + 1023).toNat ≤ 2046 := by omega
  have hS : (if s then 1 else 0 : Nat) ≤ 1 := by cases s <;> simp
  simp only [Nat.shiftLeft_eq, Nat.reduceSub]
  rw [lor_eq_add_of_dvd _ _ 63 (Dvd.intro_left _ rfl) (by omega),
    lor_eq_add_of_dvd _ _ 52 (by omega) hk]

theorem to_uint64_toNat (x : Int) (h0 : 0 ≤ x) (h1 : x < 2 ^ 64) : to_uint64 x = x.toNat := by
  unfold to_uint64
  rw [Int.emod_eq_of_lt h0 h1]

theorem pack_normal_32 (s : Bool) (k : Nat) (e : Int) (hk : k < 2 ^ 23)
    (he : -126 ≤ e ∧ e ≤ 127) :
    pack_ieee754 (LongDouble.finite (normal_value 23 s k e)) 32 8
      = ieee_pattern 32 23 127 s k e := by
  have h := pack_ieee754_normal 32 8 s k e hk
  have hS : to_uint64 (if s then 1 else 0) = if s then 1 else 0 := by cases s <;> decide
  have hE : to_uint64 (e + (2 ^ (8 - 1) - 1)) = (e + 127).toNat := by
    have : e + (2 ^ (8 - 1) - 1) = e + 127 := by norm_num
    rw [this, to_uint64_toNat _ (by omega) (by omega)]
  have hK : to_uint64 (k : Int) = k := to_uint64_of_nonneg k (by omega)
  rw [hS, hE, hK] at h
  have hp := ieee_pattern_32 s k e hk he
  have hS1 : (if s then 1 else 0 : Nat) ≤ 1 := by cases s <;> simp
  have hlt : ieee_pattern 32 23 127 s k e < 2 ^ 64 := by rw [hp]; omega
  rw [show (32 - 8 - 1 : Nat) = 23 from rfl] at h
  rw [h]
  exact Nat.mod_eq_of_lt hlt

theorem pack_normal_64 (s : Bool) (k : Nat) (e : Int) (hk : k < 2 ^ 52)
    (he : -1022 ≤ e ∧ e ≤ 1023) :
    pack_ieee754 (LongDouble.finite (normal_value 52 s k e)) 64 11
      = ieee_pattern 64 52 1023 s k e := by
  have h := pack_ieee754_normal 64 11 s k e hk
  have hS : to_uint64 (if s then 1 else 0) = if s then 1 else 0 := by cases s <;> decide
  have hE : to_uint64 (e + (2 ^ (11 - 1) - 1)) = (e + 1023).toNat := by
    have : e + (2 ^ (11 - 1) - 1) = e + 1023 := by norm_num
    rw [this, to_uint64_toNat _ (by omega) (by omega)]
  have hK : to_uint64 (k : Int) = k := to_uint64_of_nonneg k (by omega)
  rw [hS, hE, hK] at h
  have hp := ieee_pattern_64 s k e hk he
  have hS1 : (if s then 1 else 0 : Nat) ≤ 1 := by cases s <;> simp
  have hlt : ieee_pattern 64 52 1023 s k e < 2 ^ 64 := by rw [hp]; omega
  rw [show (64 - 11 - 1 : Nat) = 52 from rfl] at h
  rw [h]
  exact Nat.mod_eq_of_lt hlt

theorem and_one_eq_mod (x : Nat) : x &&& 1 = x % 2 := Nat.and_one_is_mod x

theorem unpack_normal_32 (s : Bool) (k : Nat) (e : Int) (hk : k < 2 ^ 23)
    (he : -126 ≤ e ∧ e ≤ 127) :
    unpack_ieee754 (ieee_pattern 32 23 127 s k e) 32 8
      = LongDouble.finite (normal_value 23 s k e) := by
  rw [ieee_pattern_32 s k e hk he]
  obtain ⟨E, hE⟩ : ∃ E : Nat, E = (e + 127).toNat := ⟨_, rfl⟩
  obtain ⟨S, hS⟩ : ∃ S : Nat, S = if s then 1 else 0 := ⟨_, rfl⟩
  have hE1 : 1 ≤ E := by omega
  have hE2 : E ≤ 254 := by omega
  have hS1 : S ≤ 1 := by rw [hS]; cases s <;> simp
  have heE : e = (E : Int) - 127 := by omega
  rw [← hE, ← hS]
  obtain ⟨i, hi⟩ : ∃ i : Nat, i = S * 2 ^ 31 + E * 2 ^ 23 + k := ⟨_, rfl⟩
  rw [← hi]
  have hmod : i % 2 ^ 64 = i := Nat.mod_eq_of_lt (by omega)
  have h0 : i ≠ 0 := by omega
  have hnan : i ≠ IEEE754_32_NAN := by unfold IEEE754_32_NAN; omega
  have hinf : i ≠ IEEE754_32_INF := by unfold IEEE754_32_INF; omega
  have hninf : i ≠ IEEE754_32_NEG_INF := by unfold IEEE754_32_NEG_INF; omega
  have hman : i &&& ((1 <<< 23) - 1) = k := by
    rw [Nat.shiftLeft_eq, Nat.one_mul, Nat.and_pow_two_sub_one_eq_mod]; omega
  have hexp : (i >>> 23) &&& ((1 <<< 8) - 1) = E := by
    rw [Nat.shiftLeft_eq, Nat.one_mul, Nat.and_pow_two_sub_one_eq_mod,
      Nat.shiftRight_eq_div_pow]
    omega
  have hsgn : (i >>> 31) &&& 1 = S := by
    rw [and_one_eq_mod, Nat.shiftRight_eq_div_pow]; omega
  have hshift : to_int64 ((E + (2 ^ 64 - ((1 <<< 7) - 1))) % 2 ^ 64) = e := by
    rw [Nat.shiftLeft_eq, Nat.one_mul]
    unfold to_int64
    by_cases hb : 127 ≤ E
    · have h1 : (E + (2 ^ 64 - (2 ^ 7 - 1))) % 2 ^ 64 = E - 127 := by omega
      rw [h1, Nat.mod_eq_of_lt (by omega), if_pos (by omega)]
      omega
    · have h1 : (E + (2 ^ 64 - (2 ^ 7 - 1))) % 2 ^ 64 = 2 ^ 64 - 127 + E := by omega
      rw [h1, Nat.mod_eq_of_lt (by omega), if_neg (by omega)]
      omega
  unfold unpack_ieee754
  simp only [hmod]
  rw [if_neg h0, if_neg (by simp [hnan]), if_neg (by simp [hinf]), if_neg (by simp [hninf]),
    if_neg (by simp), if_neg (by simp), if_neg (by simp)]
  simp only [Nat.reduceSub, hman, hexp, hsgn, hshift, scale_zpow]
  refine congrArg LongDouble.finite ?_
  unfold normal_value
  have h23 : ((1 <<< 23 : Nat) : ℚ) = 2 ^ 23 := by
    rw [Nat.shiftLeft_eq, Nat.one_mul]; push_cast; rfl
  rw [h23, hS]
  cases s
  · simp only [Bool.false_eq_true, if_false, ne_eq, not_true_eq_false]
    ring
  · simp only [if_true, ne_eq, one_ne_zero, not_false_eq_true]
    ring

theorem unpack_normal_64 (s : Bool) (k : Nat) (e : Int) (hk : k < 2 ^ 52)
    (he : -1022 ≤ e ∧ e ≤ 1023) :
    unpack_ieee754 (ieee_pattern 64 52 1023 s k e) 64 11
      = LongDouble.finite (normal_value 52 s k e) := by
  rw [ieee_pattern_64 s k e hk he]
  obtain ⟨E, hE⟩ : ∃ E : Nat, E = (e + 1023).toNat := ⟨_, rfl⟩
  obtain ⟨S, hS⟩ : ∃ S : Nat, S = if s then 1 else 0 := ⟨_, rfl⟩
  have hE1 : 1 ≤ E := by omega
  have hE2 : E ≤ 2046 := by omega
  have hS1 : S ≤ 1 := by rw [hS]; cases s <;> simp
  have heE : e = (E : Int) - 1023 := by omega
  rw [← hE, ← hS]
  obtain ⟨i, hi⟩ : ∃ i : Nat, i = S * 2 ^ 63 + E * 2 ^ 52 + k := ⟨_, rfl⟩
  rw [← hi]
  have hmod : i % 2 ^ 64 = i := Nat.mod_eq_of_lt (by omega)
  have h0 : i ≠ 0 := by omega
  have hnan : i ≠ IEEE754_64_NAN := by unfold IEEE754_64_NAN; omega
  have hinf : i ≠ IEEE754_64_INF := by unfold IEEE754_64_INF; omega
  have hninf : i ≠ IEEE754_64_NEG_INF := by unfold IEEE754_64_NEG_INF; omega
  have hman : i &&& ((1 <<< 52) - 1) = k := by
    rw [Nat.shiftLeft_eq, Nat.one_mul, Nat.and_pow_two_sub_one_eq_mod]; omega
  have hexp : (i >>> 52) &&& ((1 <<< 11) - 1) = E := by
    rw [Nat.shiftLeft_eq, Nat.one_mul, Nat.and_pow_two_sub_one_eq_mod,
      Nat.shiftRight_eq_div_pow]
    omega
  have hsgn : (i >>> 63) &&& 1 = S := by
    rw [and_one_eq_mod, Nat.shiftRight_eq_div_pow]; omega
  have hshift : to_int64 ((E + (2 ^ 64 - ((1 <<< 10) - 1))) % 2 ^ 64) = e := by
    rw [Nat.shiftLeft_eq, Nat.one_mul]
    unfold to_int64
    by_cases hb : 1023 ≤ E
    · have h1 : (E + (2 ^ 64 - (2 ^ 10 - 1))) % 2 ^ 64 = E - 1023 := by omega
      rw [h1, Nat.mod_eq_of_lt (by omega), if_pos (by omega)]
      omega
    · have h1 : (E + (2 ^ 64 - (2 ^ 10 - 1))) % 2 ^ 64 = 2 ^ 64 - 1023 + E := by omega
      rw [h1, Nat.mod_eq_of_lt (by omega), if_neg (by omega)]
      omega
  unfold unpack_ieee754
  simp only [hmod]
  rw [if_neg h0, if_neg (by simp), if_neg (by simp), if_neg (by simp),
    if_neg (by simp [hnan]), if_neg (by simp [hinf]), if_neg (by simp [hninf])]
  simp only [Nat.reduceSub, hman, hexp, hsgn, hshift, scale_zpow]
  refine congrArg LongDouble.finite ?_
  unfold normal_value
  have h23 : ((1 <<< 52 : Nat) : ℚ) = 2 ^ 52 := by
    rw [Nat.shiftLeft_eq, Nat.one_mul]; push_cast; rfl
  rw [h23, hS]
  cases s
  · simp only [Bool.false_eq_true, if_false, ne_eq, not_true_eq_false]
    ring
  · simp only [if_true, ne_eq, one_ne_zero, not_false_eq_true]
    ring

/-- C19. IEEE-754 encoding of normal values, over exact rational arithmetic:
for every normal single precision value
`x = (-1) ^ s * (1 + k / 2 ^ 23) * 2 ^ e` with `k < 2 ^ 23` and
`-126 <= e <= 127`, `pack_ieee754 x 32 8` is the pattern
`(s << 31) | ((e + 127) << 23) | k` and `unpack_ieee754` of that pattern is
`x`; likewise for double precision with 52 significand bits, bias 1023 and
`-1022 <= e <= 1023`. -/
theorem ieee754_normal_values (s : Bool) (k : Nat) (e : Int) (s2 : Bool) (k2 : Nat) (e2 : Int)
    (hk : k < 2 ^ 23) (he : -126 ≤ e ∧ e ≤ 127)
    (hk2 : k2 < 2 ^ 52) (he2 : -1022 ≤ e2 ∧ e2 ≤ 1023) :
    (pack_ieee754 (LongDouble.finite (normal_value 23 s k e)) 32 8
        = ieee_pattern 32 23 127 s k e ∧
      unpack_ieee754 (ieee_pattern 32 23 127 s k e) 32 8
        = LongDouble.finite (normal_value 23 s k e)) ∧
    (pack_ieee754 (LongDouble.finite (normal_value 52 s2 k2 e2)) 64 11
        = ieee_pattern 64 52 1023 s2 k2 e2 ∧
      unpack_ieee754 (ieee_pattern 64 52 1023 s2 k2 e2) 64 11
        = LongDouble.finite (normal_value 52 s2 k2 e2)) :=
  ⟨⟨pack_normal_32 s k e hk he, unpack_normal_32 s k e hk he⟩,
    ⟨pack_normal_64 s2 k2 e2 hk2 he2, unpack_normal_64 s2 k2 e2 hk2 he2⟩⟩

theorem ieee754_normal_values_witness :
    ((2 ^ 22 : Nat) < 2 ^ 23 ∧ ((-126 : Int) ≤ 1 ∧ (1 : Int) ≤ 127)
      ∧ (3 : Nat) < 2 ^ 52 ∧ ((-1022 : Int) ≤ -1022 ∧ (-1022 : Int) ≤ 1023)) ∧
    ((pack_ieee754 (LongDouble.finite (normal_value 23 true (2 ^ 22) 1)) 32 8
        = ieee_pattern 32 23 127 true (2 ^ 22) 1 ∧
      unpack_ieee754 (ieee_pattern 32 23 127 true (2 ^ 22) 1) 32 8
        = LongDouble.finite (normal_value 23 true (2 ^ 22) 1)) ∧
    (pack_ieee754 (LongDouble.finite (normal_value 52 false 3 (-1022))) 64 11
        = ieee_pattern 64 52 1023 false 3 (-1022) ∧
      unpack_ieee754 (ieee_pattern 64 52 1023 false 3 (-1022)) 64 11
        = LongDouble.finite (normal_value 52 false 3 (-1022)))) :=
  ⟨by norm_num,
    ieee754_normal_values true (2 ^ 22) 1 false 3 (-1022) (by norm_num) (by norm_num)
      (by norm_num) (by norm_num)⟩


/-! ## Rounding of the significand -/

theorem unpack_switch_directive (H : Host) (buf : List Nat) (c : Char) (rep : Nat)
    (s : UnpackState) (h : is_directive c = true) :
    unpack_switch H buf c rep s = some (rep, repetition (unpack_body H buf c) rep s) := by
  rcases mem_directives c h with h | h | h | h | h | h | h | h | h | h | h | h | h | h | h | h | h
  all_goals subst h; rfl

theorem unpack_switch_marker (H : Host) (buf : List Nat) (c : Char) (rep : Nat)
    (s : UnpackState) (h : is_marker c = true) :
    unpack_switch H buf c rep s = some (rep, { s with ep := marker_order H c }) := by
  have h' : c = '=' ∨ c = '<' ∨ c = '>' ∨ c = '!' := by simpa [is_marker] using h
  rcases h' with h | h | h | h
  all_goals subst h; rfl

theorem unpack_int16_snd (my e : Endian) (buf : List Nat) (bp : Nat) :
    (unpack_int16_t my buf bp e).2 = bp + 2 := by
  unfold unpack_int16_t; simp only []; split_ifs <;> rfl

theorem unpack_uint16_snd (my e : Endian) (buf : List Nat) (bp : Nat) :
    (unpack_uint16_t my buf bp e).2 = bp + 2 := by
  unfold unpack_uint16_t; split_ifs <;> rfl

theorem unpack_int32_snd (my e : Endian) (buf : List Nat) (bp : Nat) :
    (unpack_int32_t my buf bp e).2 = bp + 4 := by
  unfold unpack_int32_t; simp only []; split_ifs <;> rfl

theorem unpack_uint32_snd (my e : Endian) (buf : List Nat) (bp : Nat) :
    (unpack_uint32_t my buf bp e).2 = bp + 4 := by
  unfold unpack_uint32_t; split_ifs <;> rfl

theorem unpack_int64_snd (my e : Endian) (buf : List Nat) (bp : Nat) :
    (unpack_int64_t my buf bp e).2 = bp + 8 := by
  unfold unpack_int64_t; simp only []; split_ifs <;> rfl

theorem unpack_uint64_snd (my e : Endian) (buf : List Nat) (bp : Nat) :
    (unpack_uint64_t my buf bp e).2 = bp + 8 := by
  unfold unpack_uint64_t; split_ifs <;> rfl

/-- One execution of a type directive other than a varint advances the read
cursor by the number of bytes `struct_calcsize` counts for it. -/
theorem unpack_body_bp (H : Host) (buf : List Nat) (c : Char) (s : UnpackState)
    (hint : H.sizeof_int = 2 ∨ H.sizeof_int = 4) (hc : is_directive c = true)
    (hv : is_varint c = false) :
    (unpack_body H buf c s).bp = s.bp + calc_size H c := by
  rcases mem_directives c hc with
    h | h | h | h | h | h | h | h | h | h | h | h | h | h | h | h | h
  all_goals subst h
  all_goals first
    | rfl
    | exact absurd hv (by decide)
    | (simp only [unpack_body, calc_size, unpack_float, unpack_double, unpack_int16_snd,
        unpack_uint16_snd, unpack_int32_snd, unpack_uint32_snd, unpack_int64_snd,
        unpack_uint64_snd]; done)
    | (rcases hint with h2 | h4
       · simp [unpack_body, calc_size, h2, unpack_int16_snd, unpack_uint16_snd]
       · simp [unpack_body, calc_size, h4, unpack_int32_snd, unpack_uint32_snd])

theorem iterate_unpack_body_bp (H : Host) (buf : List Nat) (c : Char)
    (hint : H.sizeof_int = 2 ∨ H.sizeof_int = 4) (hc : is_directive c = true)
    (hv : is_varint c = false) (k : Nat) :
    ∀ s : UnpackState, ((unpack_body H buf c)^[k] s).bp = s.bp + k * calc_size H c := by
  induction k with
  | zero => intro s; simp
  | succ k ih =>
    intro s
    rw [Function.iterate_succ_apply, ih, unpack_body_bp H buf c s hint hc hv]
    ring

/-- Lockstep of `unpack_va_list` and `struct_calcsize` on a format of
recognised characters without varint directives: both walks succeed and the
read cursor advances by the size counted. -/
theorem unpack_calcsize_lockstep (H : Host) (buf : List Nat)
    (hint : H.sizeof_int = 2 ∨ H.sizeof_int = 4) (fmt : List Char) :
    ∀ (rep : Nat) (s : UnpackState) (ret : Nat), (∀ c ∈ fmt, recognised c = true) →
      (∀ c ∈ fmt, is_varint c = false) →
      ∃ s2 ret2, unpack_loop H buf fmt rep s = (true, s2) ∧
        size_sum_loop H fmt rep ret = some ret2 ∧ s2.bp + ret = ret2 + s.bp := by
  induction fmt with
  | nil => intro rep s ret _ _; exact ⟨s, ret, rfl, rfl, by omega⟩
  | cons c p ih =>
    intro rep s ret hall hnov
    have hc : recognised c = true := hall c (List.mem_cons_self _ _)
    have hp : ∀ c ∈ p, recognised c = true := fun x hx => hall x (List.mem_cons_of_mem _ hx)
    have hpv : ∀ c ∈ p, is_varint c = false := fun x hx => hnov x (List.mem_cons_of_mem _ hx)
    rcases recognised_cases c hc with ⟨hd, hnd⟩ | ⟨hm, hnd⟩ | hd
    · obtain ⟨s2, ret2, h1, h2, h3⟩ := ih 0 (repetition (unpack_body H buf c) rep s)
        (repetition (fun ret => ret + calc_size H c) rep ret) hp hpv
      refine ⟨s2, ret2, ?_, ?_, ?_⟩
      · simp only [unpack_loop, unpack_switch_directive H buf c rep s hd, hnd]; exact h1
      · simp only [size_sum_loop, size_sum_switch_directive H c rep ret hd, hnd]; exact h2
      · rw [repetition_eq_iterate, repetition_eq_iterate, iterate_add_const,
          iterate_unpack_body_bp H buf c hint hd (hnov c (List.mem_cons_self _ _))] at h3
        omega
    · obtain ⟨s2, ret2, h1, h2, h3⟩ := ih 0 { s with ep := marker_order H c } ret hp hpv
      refine ⟨s2, ret2, ?_, ?_, h3⟩
      · simp only [unpack_loop, unpack_switch_marker H buf c rep s hm, hnd]; exact h1
      · simp only [size_sum_loop, size_sum_switch_marker H c rep ret hm, hnd]; exact h2
    · obtain ⟨s2, ret2, h1, h2, h3⟩ := ih (INC_REPETITION rep c) s ret hp hpv
      refine ⟨s2, ret2, ?_, ?_, h3⟩
      · simp only [unpack_loop, unpack_switch_digit H buf c rep s hd, hd]; exact h1
      · simp only [size_sum_loop, size_sum_switch_digit H c rep ret hd, hd]; exact h2

/-- A type directive after a counter `rep` runs its unpacking body `max rep 1`
times and clears the counter. -/
theorem unpack_loop_directive (H : Host) (buf : List Nat) (c : Char) (rest : List Char)
    (rep : Nat) (s : UnpackState) (hc : is_directive c = true) :
    unpack_loop H buf (c :: rest) rep s
      = unpack_loop H buf rest 0 ((unpack_body H buf c)^[max rep 1] s) := by
  simp only [unpack_loop, unpack_switch_directive H buf c rep s hc, isdigit_of_directive c hc,
    repetition_eq_iterate]
  rfl

theorem calcsize_loop_digits (H : Host) (ds : List Char) :
    ∀ (rest : List Char) (rep : Nat) (ret : Int), (∀ c ∈ ds, isdigit c = true) →
      calcsize_loop H (ds ++ rest) rep ret
        = calcsize_loop H rest (ds.foldl INC_REPETITION rep) ret := by
  induction ds with
  | nil => intro rest rep ret _; rfl
  | cons d ds ih =>
    intro rest rep ret h
    have hd : isdigit d = true := h d (List.mem_cons_self _ _)
    simp only [List.cons_append, calcsize_loop, calcsize_switch_digit H d rep ret hd, hd,
      if_true, List.foldl_cons]
    exact ih rest _ ret (fun c hc => h c (List.mem_cons_of_mem _ hc))

theorem calcsize_loop_directive (H : Host) (c : Char) (rest : List Char) (rep : Nat) (ret : Int)
    (hc : is_directive c = true) :
    calcsize_loop H (c :: rest) rep ret
      = calcsize_loop H rest 0 ((fun ret => add_ret H ret (calc_size H c))^[max rep 1] ret) := by
  simp only [calcsize_loop, calcsize_switch_directive H c rep ret hc,
    isdigit_of_directive c hc, repetition_eq_iterate]
  rfl

/-- C22. A repeat count of zero does not suppress a directive: when the digits
`ds` in front of a type directive `c` have the value 0 (as "0" and "00" have,
and as no digits at all have), the directive executes its body exactly once in
`pack_va_list`, in `unpack_va_list` and in `struct_calcsize`, the same as the
bare directive does; in particular `struct_calcsize` of "0h" and of "h" is 2,
and `struct_pack` with "0h" returns 2, stores one 2-byte field and advances
the value cursor by one `short`, exactly as with "h". -/
theorem zero_count_runs_once (H : Host) (mem buf out : List Nat) (ds : List Char) (c : Char)
    (post : List Char) (s : PackState) (u : UnpackState) (ret : Int)
    (hc : is_directive c = true) (hds : ∀ d ∈ ds, isdigit d = true)
    (hz : ds.foldl INC_REPETITION 0 = 0) :
    (pack_loop H mem (ds ++ c :: post) 0 s = pack_loop H mem post 0 (pack_body H mem c s) ∧
      pack_loop H mem (c :: post) 0 s = pack_loop H mem post 0 (pack_body H mem c s)) ∧
    (unpack_loop H buf (ds ++ c :: post) 0 u
        = unpack_loop H buf post 0 (unpack_body H buf c u) ∧
      unpack_loop H buf (c :: post) 0 u = unpack_loop H buf post 0 (unpack_body H buf c u)) ∧
    (calcsize_loop H (ds ++ c :: post) 0 ret
        = calcsize_loop H post 0 (add_ret H ret (calc_size H c)) ∧
      calcsize_loop H (c :: post) 0 ret
        = calcsize_loop H post 0 (add_ret H ret (calc_size H c))) ∧
    (struct_calcsize H ['0', 'h'] = 2 ∧ struct_calcsize H ['h'] = 2) ∧
    ((struct_pack H out ['0', 'h'] mem).1 = 2 ∧
      (pack_va_list H 0 ['0', 'h'] mem).2.bp.length = 2 ∧
      (pack_va_list H 0 ['0', 'h'] mem).2.src = 2 ∧
      struct_pack H out ['0', 'h'] mem = struct_pack H out ['h'] mem) := by
  have h2 : to_int H ((2 : Nat) : Int) = 2 := to_int_small H 2 (by omega) (by omega)
  refine ⟨⟨?_, ?_⟩, ⟨?_, ?_⟩, ⟨?_, ?_⟩, ⟨?_, ?_⟩, ?_⟩
  · rw [pack_loop_digits H mem ds _ 0 s hds, hz, pack_loop_directive H mem c post 0 s hc]; rfl
  · rw [pack_loop_directive H mem c post 0 s hc]; rfl
  · rw [unpack_loop_digits H buf ds _ 0 u hds, hz, unpack_loop_directive H buf c post 0 u hc]
    rfl
  · rw [unpack_loop_directive H buf c post 0 u hc]; rfl
  · rw [calcsize_loop_digits H ds _ 0 ret hds, hz, calcsize_loop_directive H c post 0 ret hc]
    rfl
  · rw [calcsize_loop_directive H c post 0 ret hc]; rfl
  · rw [struct_calcsize_eq]
    exact h2
  · rw [struct_calcsize_eq]
    exact h2
  · have e : pack_loop H mem ['0', 'h'] 0 { ep := H.myendian, bp := [], src := 0 }
        = (true, pack_body H mem 'h' { ep := H.myendian, bp := [], src := 0 }) := by
      have := pack_loop_digits H mem ['0'] ['h'] 0 { ep := H.myendian, bp := [], src := 0 }
        (by decide)
      simp only [List.singleton_append, List.foldl_cons, List.foldl_nil] at this
      rw [this, pack_loop_directive H mem 'h' [] _ _ (by decide)]
      rfl
    have e2 : pack_loop H mem ['h'] 0 { ep := H.myendian, bp := [], src := 0 }
        = (true, pack_body H mem 'h' { ep := H.myendian, bp := [], src := 0 }) := by
      rw [pack_loop_directive H mem 'h' [] _ _ (by decide)]; rfl
    have hl : (pack_body H mem 'h' { ep := H.myendian, bp := [], src := 0 }).bp.length = 2 := by
      simp [pack_body, length_pack_int16_t]
    have hs : (pack_body H mem 'h' { ep := H.myendian, bp := [], src := 0 }).src = 2 := rfl
    refine ⟨?_, ?_, ?_, ?_⟩
    · rw [struct_pack_of_loop H out mem _ _ 2 e hl]; exact h2
    · simp only [pack_va_list, e, if_true, hl]
    · simp only [pack_va_list, e, if_true, hs]
    · simp only [struct_pack, pack_va_list, e, e2]

theorem zero_count_runs_once_witness :
    (is_directive 'h' = true ∧ (∀ d ∈ ['0', '0'], isdigit d = true) ∧
      ['0', '0'].foldl INC_REPETITION 0 = 0) ∧
    ((pack_loop host_le32 [1, 2, 3, 4] (['0', '0'] ++ 'h' :: ['B']) 0
          { ep := Endian.BIG, bp := [], src := 0 }
        = pack_loop host_le32 [1, 2, 3, 4] ['B'] 0
          (pack_body host_le32 [1, 2, 3, 4] 'h' { ep := Endian.BIG, bp := [], src := 0 }) ∧
      pack_loop host_le32 [1, 2, 3, 4] ('h' :: ['B']) 0
          { ep := Endian.BIG, bp := [], src := 0 }
        = pack_loop host_le32 [1, 2, 3, 4] ['B'] 0
          (pack_body host_le32 [1, 2, 3, 4] 'h' { ep := Endian.BIG, bp := [], src := 0 })) ∧
    (unpack_loop host_le32 [9, 8, 7] (['0', '0'] ++ 'h' :: ['B']) 0
          { ep := Endian.BIG, bp := 0, dst := 0, mem := [0, 0, 0] }
        = unpack_loop host_le32 [9, 8, 7] ['B'] 0
          (unpack_body host_le32 [9, 8, 7] 'h'
            { ep := Endian.BIG, bp := 0, dst := 0, mem := [0, 0, 0] }) ∧
      unpack_loop host_le32 [9, 8, 7] ('h' :: ['B']) 0
          { ep := Endian.BIG, bp := 0, dst := 0, mem := [0, 0, 0] }
        = unpack_loop host_le32 [9, 8, 7] ['B'] 0
          (unpack_body host_le32 [9, 8, 7] 'h'
            { ep := Endian.BIG, bp := 0, dst := 0, mem := [0, 0, 0] })) ∧
    (calcsize_loop host_le32 (['0', '0'] ++ 'h' :: ['B']) 0 0
        = calcsize_loop host_le32 ['B'] 0 (add_ret host_le32 0 (calc_size host_le32 'h')) ∧
      calcsize_loop host_le32 ('h' :: ['B']) 0 0
        = calcsize_loop host_le32 ['B'] 0 (add_ret host_le32 0 (calc_size host_le32 'h'))) ∧
    (struct_calcsize host_le32 ['0', 'h'] = 2 ∧ struct_calcsize host_le32 ['h'] = 2) ∧
    ((struct_pack host_le32 [] ['0', 'h'] [1, 2, 3, 4]).1 = 2 ∧
      (pack_va_list host_le32 0 ['0', 'h'] [1, 2, 3, 4]).2.bp.length = 2 ∧
      (pack_va_list host_le32 0 ['0', 'h'] [1, 2, 3, 4]).2.src = 2 ∧
      struct_pack host_le32 [] ['0', 'h'] [1, 2, 3, 4]
        = struct_pack host_le32 [] ['h'] [1, 2, 3, 4])) :=
  ⟨⟨by decide, by decide, by decide⟩,
    zero_count_runs_once host_le32 [1, 2, 3, 4] [9, 8, 7] [] ['0', '0'] 'h' ['B']
      { ep := Endian.BIG, bp := [], src := 0 }
      { ep := Endian.BIG, bp := 0, dst := 0, mem := [0, 0, 0] } 0
      (by decide) (by decide) (by decide)⟩


/-! ## Bytes consumed by unpack -/

/-- C23. Bytes consumed by unpack are fixed by the format: on a host whose
`int` is 2 or 4 bytes wide, for every format whose characters are all
recognised and which contains no `v` or `V` directive, `struct_unpack` returns
exactly `struct_calcsize` of the format, whatever the buffer and the value
array contain and whatever the endianness markers are; hence on the output of
`struct_pack` with the same format it returns the value `struct_pack`
returned, which is the number of bytes `struct_pack` stored, as an `int`. -/
theorem unpack_consumes_calcsize (H : Host) (values bytes buf src : List Nat) (fmt : List Char)
    (hint : H.sizeof_int = 2 ∨ H.sizeof_int = 4)
    (hfmt : ∀ c ∈ fmt, recognised c = true) (hnov : ∀ c ∈ fmt, is_varint c = false) :
    (struct_unpack H values fmt bytes).1 = struct_calcsize H fmt ∧
    (struct_unpack H values fmt (struct_pack H buf fmt src).2).1
      = (struct_pack H buf fmt src).1 ∧
    (struct_pack H buf fmt src).1
      = to_int H ((pack_va_list H 0 fmt src).2.bp.length : Nat) := by
  have key : ∀ bytes : List Nat, (struct_unpack H values fmt bytes).1 = struct_calcsize H fmt := by
    intro bytes
    obtain ⟨s2, ret2, h1, h2, h3⟩ := unpack_calcsize_lockstep H bytes hint fmt 0
      { ep := H.myendian, bp := 0, dst := 0, mem := values } 0 hfmt hnov
    rw [struct_calcsize_eq]
    simp only [struct_unpack, unpack_va_list, h1, h2, if_true]
    simp only [Nat.add_zero] at h3
    rw [h3]
  obtain ⟨s2, ret2, h1, h2, _, h4⟩ := pack_calcsize_lockstep H src hint fmt 0
    { ep := H.myendian, bp := [], src := 0 } 0 hfmt
  have h5 := h4 hnov
  simp only [List.length_nil, Nat.add_zero] at h5
  refine ⟨key bytes, ?_, ?_⟩
  · rw [key, struct_calcsize_eq]
    simp only [struct_pack, pack_va_list, h1, h2, if_true]
    rw [← h5]
    simp
  · simp only [struct_pack, pack_va_list, h1, if_true]
    simp

theorem unpack_consumes_calcsize_witness :
    ((host_le32.sizeof_int = 2 ∨ host_le32.sizeof_int = 4) ∧
      (∀ c ∈ ['>', '2', 'h', 'x', 'q', '!', 'i'], recognised c = true) ∧
      (∀ c ∈ ['>', '2', 'h', 'x', 'q', '!', 'i'], is_varint c = false)) ∧
    ((struct_unpack host_le32 [0, 0, 0, 0] ['>', '2', 'h', 'x', 'q', '!', 'i'] [1, 2, 3]).1
        = struct_calcsize host_le32 ['>', '2', 'h', 'x', 'q', '!', 'i'] ∧
      (struct_unpack host_le32 [0, 0, 0, 0] ['>', '2', 'h', 'x', 'q', '!', 'i']
          (struct_pack host_le32 [] ['>', '2', 'h', 'x', 'q', '!', 'i'] [1, 2, 3, 4]).2).1
        = (struct_pack host_le32 [] ['>', '2', 'h', 'x', 'q', '!', 'i'] [1, 2, 3, 4]).1 ∧
      (struct_pack host_le32 [] ['>', '2', 'h', 'x', 'q', '!', 'i'] [1, 2, 3, 4]).1
        = to_int host_le32 ((pack_va_list host_le32 0 ['>', '2', 'h', 'x', 'q', '!', 'i']
            [1, 2, 3, 4]).2.bp.length : Nat)) :=
  ⟨⟨by decide, by decide, by decide⟩,
    unpack_consumes_calcsize host_le32 [0, 0, 0, 0] [1, 2, 3] [] [1, 2, 3, 4]
      ['>', '2', 'h', 'x', 'q', '!', 'i'] (by decide) (by decide) (by decide)⟩


/-! ## Counts beyond the range of `int` -/

/-- C6, counterexample.  On a host with 4 byte `int` every character of the
format "536870911q7b" is recognised, yet `struct_calcsize` returns the
sentinel -1: the total 536870911 * 8 + 7 = 2^32 - 1 converted to `int` is -1. -/
theorem format_error_counterexample :
    (∀ c ∈ ['5', '3', '6', '8', '7', '0', '9', '1', '1', 'q', '7', 'b'], recognised c = true) ∧
    struct_calcsize host_le32 ['5', '3', '6', '8', '7', '0', '9', '1', '1', 'q', '7', 'b'] = -1 ∧
    ¬ (struct_calcsize host_le32 ['5', '3', '6', '8', '7', '0', '9', '1', '1', 'q', '7', 'b'] = -1
        ↔ ∃ c ∈ ['5', '3', '6', '8', '7', '0', '9', '1', '1', 'q', '7', 'b'],
            recognised c = false) := by
  have hrec : ∀ c ∈ ['5', '3', '6', '8', '7', '0', '9', '1', '1', 'q', '7', 'b'],
      recognised c = true := by decide
  have hsum : size_sum_loop host_le32
      ['5', '3', '6', '8', '7', '0', '9', '1', '1', 'q', '7', 'b'] 0 0 = some 4294967295 := by
    have h1 := size_sum_loop_digits host_le32 ['5', '3', '6', '8', '7', '0', '9', '1', '1']
      ['q', '7', 'b'] 0 0 (by decide)
    have h2 := size_sum_loop_directive host_le32 'q' ['7', 'b']
      (['5', '3', '6', '8', '7', '0', '9', '1', '1'].foldl INC_REPETITION 0) 0 (by decide)
    have h3 := size_sum_loop_digits host_le32 ['7'] ['b'] 0
      (0 + max (['5', '3', '6', '8', '7', '0', '9', '1', '1'].foldl INC_REPETITION 0) 1
        * calc_size host_le32 'q') (by decide)
    have h4 := size_sum_loop_directive host_le32 'b' [] (['7'].foldl INC_REPETITION 0)
      (0 + max (['5', '3', '6', '8', '7', '0', '9', '1', '1'].foldl INC_REPETITION 0) 1
        * calc_size host_le32 'q') (by decide)
    simp only [List.cons_append, List.nil_append] at h1 h3
    rw [h1, h2, h3, h4]
    rfl
  have hval : struct_calcsize host_le32
      ['5', '3', '6', '8', '7', '0', '9', '1', '1', 'q', '7', 'b'] = -1 := by
    rw [struct_calcsize_eq, hsum]
    simp only []
    rw [to_int_le32]
    norm_num
  refine ⟨hrec, hval, ?_⟩
  intro h
  obtain ⟨c, hc, hf⟩ := h.mp hval
  rw [hrec c hc] at hf
  exact Bool.noConfusion hf

/-- C6. Format error: whenever the byte count `struct_pack` writes, the
byte count `struct_unpack` consumes and the size `struct_calcsize` counts do
not exceed `INT_MAX`, each of the three returns -1 if and only if the format
contains a character that is neither one of the 17 type directives, nor one of
the 4 endianness markers, nor a decimal digit, and returns a non-negative
count otherwise; so the three reject exactly the same formats. -/
theorem format_error_iff (H : Host) (buf src values bytes : List Nat) (fmt : List Char)
    (hp : ((pack_va_list H 0 fmt src).2.bp.length : Int) ≤ INT_MAX H)
    (hu : ((unpack_va_list H bytes 0 fmt values).2.bp : Int) ≤ INT_MAX H)
    (hc : size_sum H fmt ≤ INT_MAX H) :
    (((struct_pack H buf fmt src).1 = -1 ↔ ∃ c ∈ fmt, recognised c = false)
      ∧ ((struct_pack H buf fmt src).1 = -1 ∨ 0 ≤ (struct_pack H buf fmt src).1)) ∧
    (((struct_unpack H values fmt bytes).1 = -1 ↔ ∃ c ∈ fmt, recognised c = false)
      ∧ ((struct_unpack H values fmt bytes).1 = -1 ∨ 0 ≤ (struct_unpack H values fmt bytes).1)) ∧
    ((struct_calcsize H fmt = -1 ↔ ∃ c ∈ fmt, recognised c = false)
      ∧ (struct_calcsize H fmt = -1 ∨ 0 ≤ struct_calcsize H fmt)) := by
  rw [← all_recognised_false_iff]
  refine ⟨?_, ?_, ?_⟩
  · have h := pack_loop_ok H src fmt 0 { ep := H.myendian, bp := [], src := 0 }
    simp only [pack_va_list] at hp
    simp only [struct_pack, pack_va_list]
    rw [h] at hp ⊢
    cases hall : fmt.all recognised
    · simp
    · rw [hall] at hp
      simp only [if_true] at hp
      simp only [if_true, Bool.true_eq_false, iff_false, Nat.zero_add]
      have := to_int_nonneg_of_fits H _ hp
      exact ⟨this.2, Or.inr this.1⟩
  · have h := unpack_loop_ok H bytes fmt 0 { ep := H.myendian, bp := 0, dst := 0, mem := values }
    simp only [unpack_va_list] at hu
    simp only [struct_unpack, unpack_va_list]
    rw [h] at hu ⊢
    cases hall : fmt.all recognised
    · simp
    · rw [hall] at hu
      simp only [if_true] at hu
      simp only [if_true, Bool.true_eq_false, iff_false]
      have := to_int_nonneg_of_fits H _ hu
      exact ⟨this.2, Or.inr this.1⟩
  · have h := size_sum_loop_ok H fmt 0 0
    rw [struct_calcsize_eq]
    unfold size_sum at hc
    cases hloop : size_sum_loop H fmt 0 0 with
    | none =>
      rw [hloop] at h
      simp only [Option.isSome_none] at h
      simp [← h]
    | some ret =>
      rw [hloop] at h hc
      simp only [Option.isSome_some] at h
      simp only at hc
      simp only [← h, Bool.true_eq_false, iff_false]
      have := to_int_nonneg_of_fits H _ hc
      exact ⟨this.2, Or.inr this.1⟩

theorem format_error_iff_witness :
    ((((pack_va_list host_le32 0 ['<', '2', 'h', 'z'] [1, 2, 3, 4]).2.bp.length : Int)
        ≤ INT_MAX host_le32) ∧
      (((unpack_va_list host_le32 [1, 2, 3, 4] 0 ['<', '2', 'h', 'z'] [0, 0, 0, 0]).2.bp : Int)
        ≤ INT_MAX host_le32) ∧
      size_sum host_le32 ['<', '2', 'h', 'z'] ≤ INT_MAX host_le32) ∧
    ((((struct_pack host_le32 [] ['<', '2', 'h', 'z'] [1, 2, 3, 4]).1 = -1
          ↔ ∃ c ∈ ['<', '2', 'h', 'z'], recognised c = false)
        ∧ ((struct_pack host_le32 [] ['<', '2', 'h', 'z'] [1, 2, 3, 4]).1 = -1
          ∨ 0 ≤ (struct_pack host_le32 [] ['<', '2', 'h', 'z'] [1, 2, 3, 4]).1)) ∧
      (((struct_unpack host_le32 [0, 0, 0, 0] ['<', '2', 'h', 'z'] [1, 2, 3, 4]).1 = -1
          ↔ ∃ c ∈ ['<', '2', 'h', 'z'], recognised c = false)
        ∧ ((struct_unpack host_le32 [0, 0, 0, 0] ['<', '2', 'h', 'z'] [1, 2, 3, 4]).1 = -1
          ∨ 0 ≤ (struct_unpack host_le32 [0, 0, 0, 0] ['<', '2', 'h', 'z'] [1, 2, 3, 4]).1)) ∧
      ((struct_calcsize host_le32 ['<', '2', 'h', 'z'] = -1
          ↔ ∃ c ∈ ['<', '2', 'h', 'z'], recognised c = false)
        ∧ (struct_calcsize host_le32 ['<', '2', 'h', 'z'] = -1
          ∨ 0 ≤ struct_calcsize host_le32 ['<', '2', 'h', 'z']))) :=
  ⟨⟨by decide, by decide, by decide⟩,
    format_error_iff host_le32 [] [1, 2, 3, 4] [0, 0, 0, 0] [1, 2, 3, 4] ['<', '2', 'h', 'z']
      (by decide) (by decide) (by decide)⟩

/-- C5, counterexample.  On a host with 4 byte `int` every character of the
format "V2147483638x" is recognised; `struct_calcsize` counts
10 + 2147483638 = 2^31, which converted to `int` is -2147483648, while
`struct_pack` on the value 0 stores
1 + 2147483638 bytes and returns 2147483639. -/
theorem size_consistency_counterexample :
    (host_le32.sizeof_int = 2 ∨ host_le32.sizeof_int = 4) ∧
    (∀ c ∈ ['V', '2', '1', '4', '7', '4', '8', '3', '6', '3', '8', 'x'], recognised c = true) ∧
    struct_calcsize host_le32 ['V', '2', '1', '4', '7', '4', '8', '3', '6', '3', '8', 'x']
      = -2147483648 ∧
    (struct_pack host_le32 [] ['V', '2', '1', '4', '7', '4', '8', '3', '6', '3', '8', 'x']
        [0, 0, 0, 0, 0, 0, 0, 0]).1
      = 2147483639 ∧
    ¬ ((struct_pack host_le32 [] ['V', '2', '1', '4', '7', '4', '8', '3', '6', '3', '8', 'x']
          [0, 0, 0, 0, 0, 0, 0, 0]).1
        ≤ struct_calcsize host_le32
          ['V', '2', '1', '4', '7', '4', '8', '3', '6', '3', '8', 'x']) := by
  have hsum : size_sum_loop host_le32
      ['V', '2', '1', '4', '7', '4', '8', '3', '6', '3', '8', 'x'] 0 0 = some 2147483648 := by
    have h1 := size_sum_loop_directive host_le32 'V'
      ['2', '1', '4', '7', '4', '8', '3', '6', '3', '8', 'x'] 0 0 (by decide)
    have h2 := size_sum_loop_digits host_le32 ['2', '1', '4', '7', '4', '8', '3', '6', '3', '8']
      ['x'] 0 (0 + max 0 1 * calc_size host_le32 'V') (by decide)
    have h3 := size_sum_loop_directive host_le32 'x' []
      (['2', '1', '4', '7', '4', '8', '3', '6', '3', '8'].foldl INC_REPETITION 0)
      (0 + max 0 1 * calc_size host_le32 'V') (by decide)
    simp only [List.cons_append, List.nil_append] at h2
    rw [h1, h2, h3]
    rfl
  have hcalc : struct_calcsize host_le32
      ['V', '2', '1', '4', '7', '4', '8', '3', '6', '3', '8', 'x'] = -2147483648 := by
    rw [struct_calcsize_eq, hsum]
    simp only []
    rw [to_int_le32]
    norm_num
  have hfold : ['2', '1', '4', '7', '4', '8', '3', '6', '3', '8'].foldl INC_REPETITION 0
      = 2147483638 := by decide
  have hloop : pack_loop host_le32 [0, 0, 0, 0, 0, 0, 0, 0]
      ['V', '2', '1', '4', '7', '4', '8', '3', '6', '3', '8', 'x'] 0
        { ep := Endian.LITTLE, bp := [], src := 0 }
      = (true, { ep := Endian.LITTLE, bp := [0] ++ List.replicate 2147483638 0, src := 8 }) := by
    have h1 := pack_loop_directive host_le32 [0, 0, 0, 0, 0, 0, 0, 0] 'V'
      ['2', '1', '4', '7', '4', '8', '3', '6', '3', '8', 'x'] 0
      { ep := Endian.LITTLE, bp := [], src := 0 } (by decide)
    have h2 := pack_loop_digits host_le32 [0, 0, 0, 0, 0, 0, 0, 0] ['2', '1', '4', '7', '4', '8', '3', '6', '3', '8']
      ['x'] 0 { ep := Endian.LITTLE, bp := [0], src := 8 } (by decide)
    have h3 := pack_loop_x host_le32 [0, 0, 0, 0, 0, 0, 0, 0] [] 2147483638
      { ep := Endian.LITTLE, bp := [0], src := 8 }
    have hV : (pack_body host_le32 [0, 0, 0, 0, 0, 0, 0, 0] 'V')^[max 0 1] { ep := Endian.LITTLE, bp := [], src := 0 }
        = { ep := Endian.LITTLE, bp := [0], src := 8 } := by decide
    have hmax : max 2147483638 1 = 2147483638 := by omega
    simp only [List.cons_append, List.nil_append] at h2
    rw [hmax] at h3
    rw [h1, hV, h2, hfold, h3]
    simp only [pack_loop]
  have hpack : (struct_pack host_le32 []
      ['V', '2', '1', '4', '7', '4', '8', '3', '6', '3', '8', 'x']
        [0, 0, 0, 0, 0, 0, 0, 0]).1 = 2147483639 := by
    rw [struct_pack_of_loop host_le32 [] [0, 0, 0, 0, 0, 0, 0, 0] _ _ 2147483639 hloop
      (by rw [List.length_append, List.length_replicate]; rfl), to_int_le32]
    norm_num
  refine ⟨by decide, by decide, hcalc, hpack, ?_⟩
  rw [hpack, hcalc]
  decide

/-- C5. Size consistency: for every format whose characters are all recognised
and every value array, on a host whose `int` is 2 or 4 bytes wide,
`struct_calcsize` is at least the byte count `struct_pack` returns whenever
the size counted does not exceed `INT_MAX`, and the two are equal when the
format contains no `v` or `V` directive. -/
theorem size_consistency (H : Host) (buf src : List Nat) (fmt : List Char)
    (hint : H.sizeof_int = 2 ∨ H.sizeof_int = 4)
    (hfmt : ∀ c ∈ fmt, recognised c = true) :
    (size_sum H fmt ≤ INT_MAX H → (struct_pack H buf fmt src).1 ≤ struct_calcsize H fmt) ∧
    ((∀ c ∈ fmt, is_varint c = false) →
      (struct_pack H buf fmt src).1 = struct_calcsize H fmt) := by
  obtain ⟨s2, ret2, h1, h2, h3, h4⟩ := pack_calcsize_lockstep H src hint fmt 0
    { ep := H.myendian, bp := [], src := 0 } 0 hfmt
  rw [struct_calcsize_eq]
  simp only [struct_pack, pack_va_list, size_sum, h1, h2, if_true]
  simp only [List.length_nil] at h3 h4
  refine ⟨fun hfit => ?_, fun hv => ?_⟩
  · rw [to_int_of_fits H _ (by omega) hfit, to_int_of_fits H _ (by omega) (by omega)]
    omega
  · have := h4 hv
    congr 2
    omega

theorem size_consistency_witness :
    ((host_le32.sizeof_int = 2 ∨ host_le32.sizeof_int = 4) ∧
      (∀ c ∈ ['<', '2', 'h', 'V', 'x'], recognised c = true)) ∧
    ((size_sum host_le32 ['<', '2', 'h', 'V', 'x'] ≤ INT_MAX host_le32 →
        (struct_pack host_le32 [] ['<', '2', 'h', 'V', 'x'] [1, 0, 2, 0, 44, 1]).1
          ≤ struct_calcsize host_le32 ['<', '2', 'h', 'V', 'x']) ∧
      ((∀ c ∈ ['<', '2', 'h', 'V', 'x'], is_varint c = false) →
        (struct_pack host_le32 [] ['<', '2', 'h', 'V', 'x'] [1, 0, 2, 0, 44, 1]).1
          = struct_calcsize host_le32 ['<', '2', 'h', 'V', 'x'])) :=
  ⟨⟨by decide, by decide⟩,
    size_consistency host_le32 [] [1, 0, 2, 0, 44, 1] ['<', '2', 'h', 'V', 'x'] (by decide)
      (by decide)⟩


end EasyStruct
